import Mathlib

/-!
# nbperf BDZ minimal perfect hashing: the labeler, the rank index and the emitted lookup

A shallow embedding of `usr.bin/nbperf/nbperf-bdz.c`.

* C arrays are lists of cells holding the allocated number of entries.  Every read and
  every write is bounds checked: an access outside the allocation ends the run with
  `Fault.out_of_bounds`, and `abort()` ends it with `Fault.abort`.
* `uint32_t`, `uint16_t` and `uint8_t` values are natural numbers; every operation that can
  wrap or narrow is written with an explicit reduction modulo `2^32`, `2^16` or `2^8`.
* The text written by `print_hash` is modelled by its content: the constant tables of the
  emitted function (`tables`), the emitted function itself (`emitted_hash`), and the list of
  integers written to the map output.
-/

namespace Bdz

/-! ## Faults and checked memory access -/

/-- How a run can end without a result. -/
inductive Fault where
  | abort
  | out_of_bounds
  deriving DecidableEq, Repr

/-- Read of `a[i]`; outside the allocation the run faults. -/
def rd (a : List Nat) (i : Nat) : Except Fault Nat :=
  match a[i]? with
  | some x => Except.ok x
  | none => Except.error Fault.out_of_bounds

/-- Store `a[i] = x`; outside the allocation the run faults. -/
def wr (a : List Nat) (i x : Nat) : Except Fault (List Nat) :=
  if i < a.length then Except.ok (a.set i x) else Except.error Fault.out_of_bounds

/-! ## Machine arithmetic -/

/-- Conversion to `uint32_t`. -/
def u32 (x : Nat) : Nat := x % 4294967296

/-- Conversion to `uint16_t`. -/
def u16 (x : Nat) : Nat := x % 65536

/-- Conversion to `uint8_t`. -/
def u8 (x : Nat) : Nat := x % 256

/-- Subtraction `a - b` in `uint32_t` arithmetic (wraps around below zero). -/
def sub32 (a b : Nat) : Nat := (a % 4294967296 + 4294967296 - b % 4294967296) % 4294967296

/-- Addition `a + b` in `uint32_t` arithmetic. -/
def add32 (a b : Nat) : Nat := (a + b) % 4294967296

/-- Bitwise complement `~a` of a `uint32_t`. -/
def not32 (a : Nat) : Nat := 4294967295 - a % 4294967296

/-- Modelled from the spec: `popcount32` is the libc routine the emitted function calls
("a popcount over at most one 32-bit word of `g`"); it is the number of set bits among
the low 32 bits of its argument. -/
def popcount32 (m : Nat) : Nat :=
  ((List.range 32).filter (fun b => m.testBit b)).length

/-! ## Data model -/

/-- Modelled from the spec: `struct edge3` of `graph3.h`, "an ordered triple
`(left, middle, right)` of vertex indices". -/
structure edge3 where
  left : Nat
  middle : Nat
  right : Nat
  deriving DecidableEq, Repr

/-- Modelled from the spec: the fields of `struct graph3` (`graph3.h`) that
`nbperf-bdz.c` uses: the vertex count `v`, the edge count `e`, the edge array and the
order in which `assign_nodes` walks the edges. -/
structure graph3 where
  v : Nat
  e : Nat
  edges : List edge3
  output_order : List Nat
  deriving DecidableEq, Repr

/-- The record `struct state` of `nbperf-bdz.c`; `g` is a byte array. -/
structure state where
  graph : graph3
  visited : List Nat
  holes64k : List Nat
  holes256 : List Nat
  holes256_64 : List Nat
  holes256_128 : List Nat
  holes256_192 : List Nat
  g : List Nat
  result_map : List Nat
  deriving DecidableEq, Repr

/-- Read of `graph.edges[j]`. -/
def rd_edge (es : List edge3) (j : Nat) : Except Fault edge3 :=
  match es[j]? with
  | some e => Except.ok e
  | none => Except.error Fault.out_of_bounds

/-- The arrays as `bdz_compute` allocates them with `calloc` (lines 335-342): all cells
zero, the element counts computed in `uint32_t`; `g` is a byte array allocated with
`sizeof(uint32_t) * v` bytes. -/
def bdz_alloc (gr : graph3) : state :=
  { graph := gr
    visited := List.replicate gr.v 0
    holes64k := List.replicate (u32 (u32 (gr.v + 65535) / 65536 + 1)) 0
    holes256 := List.replicate (u32 (u32 (gr.v + 255) / 256 + 1)) 0
    holes256_64 := List.replicate (u32 (u32 (gr.v + 255) / 256 + 1)) 0
    holes256_128 := List.replicate (u32 (u32 (gr.v + 255) / 256 + 1)) 0
    holes256_192 := List.replicate (u32 (u32 (gr.v + 255) / 256 + 1)) 0
    g := List.replicate (4 * gr.v) 0
    result_map := List.replicate gr.e 0 }

/-! ## assign_nodes -/

/-- Line 86-87: `for (i = 0; i < v; ++i) g[i] = 3;`. -/
def init_g (s : state) : Except Fault state :=
  (List.range s.graph.v).foldlM
    (fun (s : state) (i : Nat) => do
      let g ← wr s.g i 3
      pure { s with g := g })
    s

/-- Lines 92-103: the position `r` and the index `t` of the first endpoint of `e` whose
`visited` entry is zero; `abort()` when all three are nonzero. -/
def choose_vertex (visited : List Nat) (e : edge3) : Except Fault (Nat × Nat) := do
  let vl ← rd visited e.left
  if vl = 0 then
    pure (0, e.left)
  else do
    let vm ← rd visited e.middle
    if vm = 0 then
      pure (1, e.middle)
    else do
      let vr ← rd visited e.right
      if vr ≠ 0 then
        throw Fault.abort
      else
        pure (2, e.right)

/-- One of the lines 106-111: `if (visited[x] == 0) visited[x] = 1;`. -/
def mark_seen (visited : List Nat) (x : Nat) : Except Fault (List Nat) := do
  let vx ← rd visited x
  if vx = 0 then wr visited x 1 else pure visited

/-- Lines 105-111: record the edge at its chosen vertex and mark the endpoints. -/
def mark_edge (visited : List Nat) (e : edge3) (t j : Nat) : Except Fault (List Nat) := do
  let vis ← wr visited t (u32 (2 + j))
  let vis ← mark_seen vis e.left
  let vis ← mark_seen vis e.middle
  mark_seen vis e.right

/-- Lines 113-114: `g[t] = (9 + r - g[left] - g[middle] - g[right]) % 3`. -/
def assign_label (g : List Nat) (e : edge3) (r t : Nat) : Except Fault (List Nat) := do
  let gl ← rd g e.left
  let gm ← rd g e.middle
  let gr ← rd g e.right
  wr g t (u8 (sub32 (sub32 (sub32 (add32 9 r) gl) gm) gr % 3))

/-- The body of the loop of lines 89-115, for loop counter `i`. -/
def label_step (s : state) (i : Nat) : Except Fault state := do
  let j ← rd s.graph.output_order i
  let e ← rd_edge s.graph.edges j
  let (r, t) ← choose_vertex s.visited e
  let vis ← mark_edge s.visited e t j
  let g ← assign_label s.g e r t
  pure { s with visited := vis, g := g }

/-- The first `n` iterations of the loop of lines 89-115. -/
def label_loop (s : state) (n : Nat) : Except Fault state :=
  (List.range n).foldlM label_step s

/-- The body of the loop of lines 118-141 for index `i`; the second component is the
running counter `holes`. -/
def rank_step (sh : state × Nat) (i : Nat) : Except Fault (state × Nat) := do
  let s := sh.1
  let holes := sh.2
  let h64k ← (if i % 65536 = 0 then wr s.holes64k (i >>> 16) (u32 holes) else pure s.holes64k)
  let h256 ←
    (if i % 256 = 0 then do
      let a ← rd h64k (i >>> 16)
      wr s.holes256 (i >>> 8) (u16 (sub32 holes a))
    else pure s.holes256)
  let h256_64 ←
    (if i % 256 = 64 then do
      let b ← rd h256 (i >>> 8)
      let a ← rd h64k (i >>> 16)
      wr s.holes256_64 (i >>> 8) (u8 (sub32 (sub32 holes b) a))
    else pure s.holes256_64)
  let h256_128 ←
    (if i % 256 = 128 then do
      let b ← rd h256 (i >>> 8)
      let a ← rd h64k (i >>> 16)
      wr s.holes256_128 (i >>> 8) (u8 (sub32 (sub32 holes b) a))
    else pure s.holes256_128)
  let h256_192 ←
    (if i % 256 = 192 then do
      let b ← rd h256 (i >>> 8)
      let a ← rd h64k (i >>> 16)
      wr s.holes256_192 (i >>> 8) (u8 (sub32 (sub32 holes b) a))
    else pure s.holes256_192)
  let vi ← rd s.visited i
  let rmap ←
    (if vi > 1 then wr s.result_map (sub32 vi 2) (sub32 i holes)
    else pure s.result_map)
  let gi ← rd s.g i
  pure ({ s with holes64k := h64k, holes256 := h256, holes256_64 := h256_64,
                 holes256_128 := h256_128, holes256_192 := h256_192,
                 result_map := rmap }, if gi = 3 then add32 holes 1 else holes)

/-- Lines 117-141: `holes = 0` and the first `n` iterations of the pass over the
vertices. -/
def rank_loop (s : state) (n : Nat) : Except Fault (state × Nat) :=
  (List.range n).foldlM rank_step (s, 0)

/-- Lines 143-156: the writes after the loop, with `i` the final loop counter. -/
def trailing_writes (s : state) (i holes : Nat) : Except Fault state := do
  let h64k ←
    (if i % 65536 ≠ 0 then wr s.holes64k ((i >>> 16) + 1) (u32 holes) else pure s.holes64k)
  let h256 ←
    (if i % 256 ≠ 0 then do
      let a ← rd h64k (((i >>> 8) + 1) >>> 8)
      wr s.holes256 ((i >>> 8) + 1) (u16 (sub32 holes a))
    else pure s.holes256)
  let h256_64 ←
    (if i % 256 ≠ 64 then do
      let b ← rd h256 ((i >>> 8) + 1)
      let a ← rd h64k (((i >>> 8) + 1) >>> 8)
      wr s.holes256_64 ((i >>> 8) + 1) (u8 (sub32 (sub32 holes b) a))
    else pure s.holes256_64)
  let h256_128 ←
    (if i % 256 ≠ 128 then do
      let b ← rd h256 ((i >>> 8) + 1)
      let a ← rd h64k (((i >>> 8) + 1) >>> 8)
      wr s.holes256_128 ((i >>> 8) + 1) (u8 (sub32 (sub32 holes b) a))
    else pure s.holes256_128)
  let h256_192 ←
    (if i % 256 ≠ 192 then do
      let b ← rd h256 ((i >>> 8) + 1)
      let a ← rd h64k (((i >>> 8) + 1) >>> 8)
      wr s.holes256_192 ((i >>> 8) + 1) (u8 (sub32 (sub32 holes b) a))
    else pure s.holes256_192)
  pure { s with holes64k := h64k, holes256 := h256, holes256_64 := h256_64,
                holes256_128 := h256_128, holes256_192 := h256_192 }

/-- Lines 86-115 of `assign_nodes`: the labels. -/
def assign_labels (s : state) : Except Fault state := do
  let s ← init_g s
  label_loop s s.graph.e

/-- Lines 86-141 of `assign_nodes`: everything before the writes that follow the last
loop; the result carries the final value of `holes`. -/
def assign_main (s : state) : Except Fault (state × Nat) := do
  let s ← assign_labels s
  rank_loop s s.graph.v

/-- The function `assign_nodes`. -/
def assign_nodes (s : state) : Except Fault state := do
  let sh ← assign_main s
  trailing_writes sh.1 sh.1.graph.v sh.2

/-! ## print_hash -/

/-- A loop `for (i = start; i < v; i += step)` that emits `f i` in each iteration; the
first argument bounds the number of iterations. -/
def emit_loop (f : Nat → Except Fault Nat) (v step : Nat) : Nat → Nat → Except Fault (List Nat)
  | 0, _ => pure []
  | fuel + 1, i =>
    if i < v then do
      let x ← f i
      let rest ← emit_loop f v step fuel (i + step)
      pure (x :: rest)
    else pure []

/-- Lines 178-179: `for (j = 0, sum = 0; j < 16; ++j) sum |= (uint32_t)g[i + j] << (2 * j);`. -/
def pack_word (g : List Nat) (i : Nat) : Except Fault Nat :=
  (List.range 16).foldlM
    (fun (sum : Nat) (j : Nat) => do
      let x ← rd g (i + j)
      pure (sum ||| u32 (x <<< (2 * j))))
    0

/-- Lines 177-185: the words written between the braces of the emitted array `g`. -/
def print_g (s : state) : Except Fault (List Nat) :=
  emit_loop (fun i => pack_word s.g i) s.graph.v 16 s.graph.v 0

/-- Lines 191-195: the initialisers of the emitted `holes64k`. -/
def print_holes64k (s : state) : Except Fault (List Nat) :=
  emit_loop (fun i => rd s.holes64k (i >>> 16)) s.graph.v 65536 s.graph.v 0

/-- Lines 201-205: the initialisers of the emitted `holes256`. -/
def print_holes256 (s : state) : Except Fault (List Nat) :=
  emit_loop (fun i => rd s.holes256 (i >>> 8)) s.graph.v 256 s.graph.v 0

/-- Lines 211-215: the initialisers of the emitted `holes256_64`. -/
def print_holes256_64 (s : state) : Except Fault (List Nat) :=
  emit_loop (fun i => rd s.holes256_64 (i >>> 8)) s.graph.v 256 s.graph.v 64

/-- Lines 221-225: the initialisers of the emitted `holes256_128`. -/
def print_holes256_128 (s : state) : Except Fault (List Nat) :=
  emit_loop (fun i => rd s.holes256_128 (i >>> 8)) s.graph.v 256 s.graph.v 128

/-- Lines 231-235: the initialisers of the emitted `holes256_192`. -/
def print_holes256_192 (s : state) : Except Fault (List Nat) :=
  emit_loop (fun i => rd s.holes256_192 (i >>> 8)) s.graph.v 256 s.graph.v 192

/-- Lines 304-308: the integers written to the map output, one per line. -/
def print_map (s : state) : Except Fault (List Nat) :=
  (List.range s.graph.e).mapM (fun i => rd s.result_map i)

/-- The value of a C array `static const uintN_t name[size] = { inits };` with `N = bits`:
each initialiser converted to the element type, the elements without initialiser zero. -/
def c_array (bits size : Nat) (inits : List Nat) : List Nat :=
  (inits.map (fun x => x % 2 ^ bits) ++ List.replicate (size - inits.length) 0).take size

/-- The constants of the emitted function: the modulus and the six `static const` arrays. -/
structure tables where
  v : Nat
  g : List Nat
  holes64k : List Nat
  holes256 : List Nat
  holes256_64 : List Nat
  holes256_128 : List Nat
  holes256_192 : List Nat
  deriving DecidableEq, Repr

/-- The arrays of the function `print_hash` writes (lines 174-236), with the sizes it
declares, and the modulus of lines 244-246. -/
def print_tables (s : state) : Except Fault tables := do
  let gw ← print_g s
  let h64k ← print_holes64k s
  let h256 ← print_holes256 s
  let h256_64 ← print_holes256_64 s
  let h256_128 ← print_holes256_128 s
  let h256_192 ← print_holes256_192 s
  pure { v := s.graph.v
         g := c_array 32 (u32 (s.graph.v + 15) / 16) gw
         holes64k := c_array 32 (u32 (s.graph.v + 65535) / 65536) h64k
         holes256 := c_array 16 (u32 (s.graph.v + 255) / 256) h256
         holes256_64 := c_array 8 (u32 (s.graph.v + 255) / 256) h256_64
         holes256_128 := c_array 8 (u32 (s.graph.v + 255) / 256) h256_128
         holes256_192 := c_array 8 (u32 (s.graph.v + 255) / 256) h256_192 }

/-- The output of `print_hash`: the emitted function, given by its constants, and the
lines of the map output (none when `map_output` is `NULL`). -/
def print_hash (s : state) (map_output : Bool) : Except Fault (tables × List Nat) := do
  let T ← print_tables s
  let m ← (if map_output then print_map s else pure [])
  pure (T, m)

/-! ## The emitted function -/

/-- The mask `g[w] & (g[w] >> 1) & 0x55555555U` of the emitted code: bit `2p` is set
exactly when slot `p` of the word holds the label 3. -/
def hole_mask (w : Nat) : Nat := w &&& (w >>> 1) &&& 1431655765

/-- Lines 248-257 of the emitted text: the label of each reduced hash word is read from
the packed table, and the sum of the three labels modulo 3 selects `idx`. -/
def emitted_select (T : tables) (h0 h1 h2 : Nat) : Except Fault Nat := do
  let ga ← rd T.g (h0 >>> 4)
  let gb ← rd T.g (h1 >>> 4)
  let gc ← rd T.g (h2 >>> 4)
  let k := (add32 (add32 ((ga >>> (2 * (h0 &&& 15))) &&& 3) ((gb >>> (2 * (h1 &&& 15))) &&& 3))
            ((gc >>> (2 * (h2 &&& 15))) &&& 3)) % 3
  pure (if k = 0 then h0 else if k = 1 then h1 else h2)

/-- Lines 260-280 of the emitted text: `switch ((idx >> 5) & 7)`. -/
def emitted_summary (T : tables) (idx : Nat) : Except Fault Nat :=
  let c := (idx >>> 5) &&& 7
  if c = 0 then do
    let a ← rd T.holes64k (idx >>> 16)
    let b ← rd T.holes256 (idx >>> 8)
    pure (sub32 (sub32 idx a) b)
  else if c = 1 ∨ c = 2 then do
    let a ← rd T.holes64k (idx >>> 16)
    let b ← rd T.holes256 (idx >>> 8)
    let d ← rd T.holes256_64 (idx >>> 8)
    pure (sub32 (sub32 (sub32 idx a) b) d)
  else if c = 3 ∨ c = 4 then do
    let a ← rd T.holes64k (idx >>> 16)
    let b ← rd T.holes256 (idx >>> 8)
    let d ← rd T.holes256_128 (idx >>> 8)
    pure (sub32 (sub32 (sub32 idx a) b) d)
  else if c = 5 ∨ c = 6 then do
    let a ← rd T.holes64k (idx >>> 16)
    let b ← rd T.holes256 (idx >>> 8)
    let d ← rd T.holes256_192 (idx >>> 8)
    pure (sub32 (sub32 (sub32 idx a) b) d)
  else do
    let a ← rd T.holes64k (add32 idx 32 >>> 16)
    let b ← rd T.holes256 (add32 idx 32 >>> 8)
    pure (sub32 (sub32 idx a) b)

/-- Lines 281-298 of the emitted text: `switch ((idx >> 4) & 3)`; case 1 falls through
into case 0 and case 2 into case 3. -/
def emitted_popcount (T : tables) (idx idx2 : Nat) : Except Fault Nat :=
  let c := (idx >>> 4) &&& 3
  let low := sub32 (u32 (2 <<< (2 * (idx &&& 15)))) 1
  if c = 1 then do
    let p ← rd T.g (sub32 (idx >>> 4) 1)
    let idx2 := sub32 idx2 (popcount32 (hole_mask p))
    let w ← rd T.g (idx >>> 4)
    pure (sub32 idx2 (popcount32 (hole_mask w &&& low)))
  else if c = 0 then do
    let w ← rd T.g (idx >>> 4)
    pure (sub32 idx2 (popcount32 (hole_mask w &&& low)))
  else if c = 2 then do
    let n ← rd T.g (add32 (idx >>> 4) 1)
    let idx2 := add32 idx2 (popcount32 (hole_mask n))
    let w ← rd T.g (idx >>> 4)
    pure (add32 idx2 (popcount32 (hole_mask w &&& not32 low)))
  else do
    let w ← rd T.g (idx >>> 4)
    pure (add32 idx2 (popcount32 (hole_mask w &&& not32 low)))

/-- Lines 259-301 of the emitted text: the rank lookup for the vertex `idx`. -/
def emitted_rank (T : tables) (idx : Nat) : Except Fault Nat := do
  let idx2 ← emitted_summary T idx
  emitted_popcount T idx idx2

/-- The emitted function from the three hash words on (lines 244-301 of `print_hash`):
the words are reduced modulo `v`, one of them is selected as `idx`, and the rank of
`idx` is returned. -/
def emitted_hash (T : tables) (h0 h1 h2 : Nat) : Except Fault Nat := do
  let h0 := u32 h0 % T.v
  let h1 := u32 h1 % T.v
  let h2 := u32 h2 % T.v
  let idx ← emitted_select T h0 h1 h2
  emitted_rank T idx

/-! ## Graphs, orders and counts used to state the properties -/

/-- The content of cell `i` of an array, used to state properties (0 outside the
allocation, where the program itself faults). -/
def cell (a : List Nat) (i : Nat) : Nat := a.getD i 0

/-- The edge visited by iteration `p` of the labeling loop, `edges[output_order[p]]`. -/
def edge_at (gr : graph3) (p : Nat) : edge3 :=
  gr.edges.getD (cell gr.output_order p) ⟨0, 0, 0⟩

/-- The three endpoints of an edge, in position order. -/
def endpoints (e : edge3) : List Nat := [e.left, e.middle, e.right]

/-- The graph handed to `assign_nodes`: `v` and the allocation sizes fit `uint32_t`,
there are `e` edges with pairwise distinct endpoints below `v`, and `output_order` is a
reverse peeling order: a permutation of the edge indices in which every edge has an
endpoint that belongs to no earlier edge. -/
structure valid_graph (gr : graph3) : Prop where
  v_fits : gr.v + 65535 < 4294967296
  edges_len : gr.edges.length = gr.e
  in_range : ∀ e ∈ gr.edges, e.left < gr.v ∧ e.middle < gr.v ∧ e.right < gr.v
  distinct : ∀ e ∈ gr.edges, e.left ≠ e.middle ∧ e.left ≠ e.right ∧ e.middle ≠ e.right
  order_perm : gr.output_order.Perm (List.range gr.e)
  peel : ∀ p, p < gr.e → ∃ x ∈ endpoints (edge_at gr p),
    ∀ q, q < p → x ∉ endpoints (edge_at gr q)

/-- The vertex `x` is an endpoint of an edge visited before iteration `p` of the labeling
loop. -/
def seen (gr : graph3) (p x : Nat) : Prop :=
  ∃ q, q < p ∧ x ∈ endpoints (edge_at gr q)

instance seen_decidable (gr : graph3) (p x : Nat) : Decidable (seen gr p x) := by
  unfold seen
  exact inferInstance

/-- The position and the index of the first endpoint of the edge of iteration `p` that
belongs to no earlier edge (the third endpoint when the first two belong to earlier
edges). -/
def fresh_choice (gr : graph3) (p : Nat) : Nat × Nat :=
  if ¬ seen gr p (edge_at gr p).left then (0, (edge_at gr p).left)
  else if ¬ seen gr p (edge_at gr p).middle then (1, (edge_at gr p).middle)
  else (2, (edge_at gr p).right)

/-- The number of indices `i < n` with `g[i] = 3`: the holes below `n`. -/
def holes_before (g : List Nat) : Nat → Nat
  | 0 => 0
  | n + 1 => holes_before g n + (if cell g n = 3 then 1 else 0)

/-- The state before iteration `p` of the labeling loop, on the arrays `bdz_compute`
allocates for the graph: lines 86-87 and the first `p` iterations of lines 89-115. -/
def label_state (gr : graph3) (p : Nat) : Except Fault state := do
  let s ← init_g (bdz_alloc gr)
  label_loop s p

/-- The position `r` and the vertex `t` that iteration `p` of the labeling loop chooses:
lines 92-103 in the state before that iteration. -/
def chosen (gr : graph3) (p : Nat) : Except Fault (Nat × Nat) := do
  let s ← label_state gr p
  choose_vertex s.visited (edge_at gr p)

/-- The number of indices `i < n` with `g[i] ≠ 3`: the labelled vertices below `n`. -/
def labelled_before (g : List Nat) : Nat → Nat
  | 0 => 0
  | n + 1 => labelled_before g n + (if cell g n = 3 then 0 else 1)

/-- A graph with 10 vertices and 3 edges whose edges are walked in the order 1, 0, 2. -/
def sample_graph : graph3 :=
  { v := 10
    e := 3
    edges := [⟨0, 1, 2⟩, ⟨2, 3, 4⟩, ⟨0, 2, 5⟩]
    output_order := [1, 0, 2] }

/-- The graph of a single key with 50 vertices (`nbperf` run on one key with `-c 50`):
the key hashes to the vertices 32, 0 and 1. -/
def tail_graph : graph3 :=
  { v := 50
    e := 1
    edges := [⟨32, 0, 1⟩]
    output_order := [0] }

/-- The constants `print_hash` emits for `tail_graph`. -/
def tail_tables : tables :=
  { v := 50
    g := [4294967295, 4294967295, 4294967292, 15]
    holes64k := [0]
    holes256 := [0]
    holes256_64 := [0]
    holes256_128 := [0]
    holes256_192 := [0] }

/-- A graph of 40 keys with the 50 vertices `bdz_compute` takes for them at the default
`c = 1.24`: edge `k` joins the vertices `k`, `k + 1`, `k + 2`, walked in index order. -/
def chain_graph : graph3 :=
  { v := 50
    e := 40
    edges := (List.range 40).map (fun k => ⟨k, k + 1, k + 2⟩)
    output_order := List.range 40 }

/-- The constants `print_hash` emits for `chain_graph`. -/
def chain_tables : tables :=
  { v := 50
    g := [2181570748, 545392672, 4293952008, 15]
    holes64k := [0]
    holes256 := [0]
    holes256_64 := [0]
    holes256_128 := [0]
    holes256_192 := [0] }

/-- The loop invariant of the labeling loop (lines 89-115) before iteration `p`, for the
arrays `visited` and `g`: the nonzero `visited` entries are the endpoints of the edges
walked so far, the entries from 2 on record the chosen vertices, `g` is 3 exactly where no
vertex was chosen, untouched beyond `v`, and the label sums of the walked edges point to
their chosen vertices. -/
structure label_inv (gr : graph3) (p : Nat) (vis G : List Nat) : Prop where
  vis_len : vis.length = gr.v
  g_len : G.length = 4 * gr.v
  vis_seen : ∀ x, x < gr.v → (cell vis x ≠ 0 ↔ seen gr p x)
  vis_win : ∀ x, x < gr.v → 2 ≤ cell vis x → ∃ q, q < p ∧ x = (fresh_choice gr q).2
  win_vis : ∀ q, q < p → cell vis (fresh_choice gr q).2 = 2 + cell gr.output_order q
  g_hole : ∀ x, x < gr.v → cell vis x ≤ 1 → cell G x = 3
  g_label : ∀ x, x < gr.v → 2 ≤ cell vis x → cell G x < 3
  g_pad : ∀ x, gr.v ≤ x → cell G x = 0
  law : ∀ q, q < p →
    (cell G (edge_at gr q).left + cell G (edge_at gr q).middle
      + cell G (edge_at gr q).right) % 3 = (fresh_choice gr q).1
  holes : holes_before G gr.v + p = gr.v

/-- The loop invariant of the pass of lines 118-141 before iteration `n`, over the final
`visited` and `g`: `holes` counts the holes below `n`, every summary entry whose boundary
lies below `n` holds the hole count of its level (absolute for `holes64k`, relative to the
64K block for `holes256`, relative to the 256 block for the three others), every other
entry is still zero, and `result_map` holds the rank of every chosen vertex below `n`. -/
structure rank_inv (gr : graph3) (vis G : List Nat) (n : Nat) (s : state) (holes : Nat) :
    Prop where
  graph_eq : s.graph = gr
  vis_eq : s.visited = vis
  g_eq : s.g = G
  len64k : s.holes64k.length = (gr.v + 65535) / 65536 + 1
  len256 : s.holes256.length = (gr.v + 255) / 256 + 1
  len256_64 : s.holes256_64.length = (gr.v + 255) / 256 + 1
  len256_128 : s.holes256_128.length = (gr.v + 255) / 256 + 1
  len256_192 : s.holes256_192.length = (gr.v + 255) / 256 + 1
  len_map : s.result_map.length = gr.e
  holes_eq : holes = holes_before G n
  h64k : ∀ k, 65536 * k < n → cell s.holes64k k = holes_before G (65536 * k)
  h256 : ∀ k, 256 * k < n →
    cell s.holes256 k + holes_before G (65536 * (k / 256)) = holes_before G (256 * k)
  h256_64 : ∀ k, 256 * k + 64 < n →
    cell s.holes256_64 k + holes_before G (256 * k) = holes_before G (256 * k + 64)
  h256_128 : ∀ k, 256 * k + 128 < n →
    cell s.holes256_128 k + holes_before G (256 * k) = holes_before G (256 * k + 128)
  h256_192 : ∀ k, 256 * k + 192 < n →
    cell s.holes256_192 k + holes_before G (256 * k) = holes_before G (256 * k + 192)
  z64k : ∀ k, n ≤ 65536 * k → cell s.holes64k k = 0
  z256 : ∀ k, n ≤ 256 * k → cell s.holes256 k = 0
  z256_64 : ∀ k, n ≤ 256 * k + 64 → cell s.holes256_64 k = 0
  z256_128 : ∀ k, n ≤ 256 * k + 128 → cell s.holes256_128 k = 0
  z256_192 : ∀ k, n ≤ 256 * k + 192 → cell s.holes256_192 k = 0
  rmap : ∀ x, x < n → 2 ≤ cell vis x →
    cell s.result_map (cell vis x - 2) + holes_before G x = x

/-! ## Graphs with repeated endpoints, and the writes after the loop up to line 147 -/

/-- Lines 143-147: the writes to the two upper levels after the loop, with `i` the final
loop counter. -/
def trailing_upper (s : state) (i holes : Nat) : Except Fault state := do
  let h64k ←
    (if i % 65536 ≠ 0 then wr s.holes64k ((i >>> 16) + 1) (u32 holes) else pure s.holes64k)
  let h256 ←
    (if i % 256 ≠ 0 then do
      let a ← rd h64k (((i >>> 8) + 1) >>> 8)
      wr s.holes256 ((i >>> 8) + 1) (u16 (sub32 holes a))
    else pure s.holes256)
  pure { s with holes64k := h64k, holes256 := h256 }

/-- Lines 86-147 of `assign_nodes`: everything up to the writes to the two upper levels
that follow the last loop. -/
def assign_upper (s : state) : Except Fault state := do
  let sh ← assign_main s
  trailing_upper sh.1 sh.1.graph.v sh.2

/-- A graph of one key with 256 vertices (`nbperf` run on one key with `-c 256`). -/
def block_graph : graph3 :=
  { v := 256
    e := 1
    edges := [⟨0, 1, 2⟩]
    output_order := [0] }

/-- A graph with endpoints below `v` whose `output_order` is a permutation of the edge
indices; nothing is asked of the order beyond that. -/
structure graph_ok (gr : graph3) : Prop where
  edges_len : gr.edges.length = gr.e
  in_range : ∀ e ∈ gr.edges, e.left < gr.v ∧ e.middle < gr.v ∧ e.right < gr.v
  order_perm : gr.output_order.Perm (List.range gr.e)

/-- All three endpoints of the edge of iteration `p` are endpoints of edges walked
earlier. -/
def blocked (gr : graph3) (p : Nat) : Prop :=
  ∀ x ∈ endpoints (edge_at gr p), seen gr p x

instance blocked_decidable (gr : graph3) (p : Nat) : Decidable (blocked gr p) := by
  unfold blocked
  exact inferInstance

/-- The part of the loop invariant of the labeling loop that holds on every graph, before
iteration `p`: the nonzero `visited` entries are the endpoints of the edges walked so far
and every byte of `g` is at most 3. -/
structure weak_inv (gr : graph3) (p : Nat) (vis G : List Nat) : Prop where
  vis_len : vis.length = gr.v
  g_len : G.length = 4 * gr.v
  vis_seen : ∀ x, x < gr.v → (cell vis x ≠ 0 ↔ seen gr p x)
  g_le : ∀ x, cell G x ≤ 3

/-- A graph whose second edge has all its endpoints on the first one. -/
def cyclic_graph : graph3 :=
  { v := 10
    e := 2
    edges := [⟨0, 1, 2⟩, ⟨2, 1, 0⟩]
    output_order := [0, 1] }

/-- The part of the invariant of the labeling loop that concerns `visited`, before
iteration `p`, on graphs whose edges may repeat an endpoint: an entry is nonzero exactly at
the endpoints of the edges visited so far, an entry of 2 or more belongs to the vertex an
earlier iteration chose, and the chosen vertex of iteration `q` holds `2 + output_order[q]`. -/
structure visit_inv (gr : graph3) (p : Nat) (vis : List Nat) : Prop where
  vis_seen : ∀ x, x < gr.v → (cell vis x ≠ 0 ↔ seen gr p x)
  vis_win : ∀ x, x < gr.v → 2 ≤ cell vis x → ∃ q, q < p ∧ x = (fresh_choice gr q).2
  win_vis : ∀ q, q < p → cell vis (fresh_choice gr q).2 = 2 + cell gr.output_order q

/-! ## bdz_compute -/

/-- The fields of `struct nbperf` that `bdz_compute` reads: the expansion constant `c`
(a `double`, taken as an exact rational, as is the literal `1.24`), the number of hash
words `hash_size`, the number of keys `n`, and whether `map_output` is not `NULL`. -/
structure nbperf where
  c : ℚ
  hash_size : Nat
  n : Nat
  map_output : Bool

/-- What the functions outside `nbperf-bdz.c` answer during one call of `bdz_compute`:
which of the eight `calloc` calls (numbered in source order) return `NULL`, the return
values of `graph3_hash` and `graph3_output_order`, and the edges and the order the two
leave in the graph. -/
structure callees where
  calloc_null : Nat → Bool
  hash_result : Int
  order_result : Int
  edges : List edge3
  output_order : List Nat

/-- The calls `bdz_compute` makes, in the order it makes them. -/
inductive call where
  | seed_hash
  | graph3_setup (v e : Nat)
  | calloc (size count : Nat)
  | graph3_hash
  | graph3_output_order
  | assign_nodes
  | print_hash
  | graph3_free
  | free
  deriving DecidableEq, Repr

/-- How a call of `bdz_compute` ends: `errx`/`err` leave the process with an exit status
and a message, the conversion of an out-of-range `double` to `uint32_t` is undefined,
`assign_nodes` or `print_hash` can fault, and otherwise the function returns `retval`. -/
inductive ending where
  | exited (status : Nat) (message : String)
  | undefined
  | faulted (f : Fault)
  | returned (retval : Int)
  deriving DecidableEq, Repr

/-- A call of `bdz_compute`: the calls made, how it ended, and what `print_hash` wrote to
the output and the map output (`none` when `print_hash` did not complete). -/
structure run where
  trace : List call
  result : ending
  written : Option (tables × List Nat)

/-- The message of line 321. -/
def c_message : String := "The argument for option -c must be at least 1.24"

/-- The message of line 323. -/
def hash_size_message : String := "The hash function must generate at least 3 values"

/-- The message of line 348. -/
def malloc_message : String := "malloc failed"

/-- Lines 327-331: `v = c * n; if (1.24 * n > v) ++v; if (v < 10) v = 10;` for a product
below `2^32`; the conversion to `uint32_t` truncates. -/
def vertex_count (c : ℚ) (n : Nat) : Nat :=
  let v := u32 ⌊c * (n : ℚ)⌋₊
  let v := if (1.24 : ℚ) * (n : ℚ) > (v : ℚ) then add32 v 1 else v
  if v < 10 then 10 else v

/-- Lines 335-342: the eight `calloc` calls, element size and element count. -/
def allocations (v e : Nat) : List call :=
  [call.calloc 4 (u32 (u32 (v + 65535) / 65536 + 1)),
   call.calloc 2 (u32 (u32 (v + 255) / 256 + 1)),
   call.calloc 1 (u32 (u32 (v + 255) / 256 + 1)),
   call.calloc 1 (u32 (u32 (v + 255) / 256 + 1)),
   call.calloc 1 (u32 (u32 (v + 255) / 256 + 1)),
   call.calloc 4 v,
   call.calloc 4 v,
   call.calloc 4 e]

/-- Lines 359-368: `graph3_free` and the eight calls of `free`. -/
def releases : List call := call.graph3_free :: List.replicate 8 call.free

/-- Modelled from the spec: the graph `assign_nodes` receives once `graph3_setup`,
`graph3_hash` and `graph3_output_order` (all three outside `nbperf-bdz.c`) have run: `v`
and `e` as passed to `graph3_setup`, the edges and the order as the other two left them. -/
def built_graph (v e : Nat) (w : callees) : graph3 :=
  { v := v, e := e, edges := w.edges, output_order := w.output_order }

/-- Lines 333-369 of `bdz_compute`, for the vertex count `v` and the edge count `e`: set
up the graph, allocate, build and peel the graph, and on success label and print. -/
def attempt (v e : Nat) (map_output : Bool) (w : callees) : run :=
  let start := call.graph3_setup v e :: allocations v e
  if (List.range 8).any w.calloc_null then
    { trace := start, result := ending.exited 1 malloc_message, written := none }
  else if w.hash_result ≠ 0 then
    { trace := start ++ [call.graph3_hash] ++ releases,
      result := ending.returned (-1), written := none }
  else if w.order_result ≠ 0 then
    { trace := start ++ [call.graph3_hash, call.graph3_output_order] ++ releases,
      result := ending.returned (-1), written := none }
  else
    match assign_nodes (bdz_alloc (built_graph v e w)) with
    | Except.error f =>
      { trace := start ++ [call.graph3_hash, call.graph3_output_order, call.assign_nodes],
        result := ending.faulted f, written := none }
    | Except.ok s =>
      match print_hash s map_output with
      | Except.error f =>
        { trace := start ++ [call.graph3_hash, call.graph3_output_order, call.assign_nodes,
            call.print_hash],
          result := ending.faulted f, written := none }
      | Except.ok out =>
        { trace := start ++ [call.graph3_hash, call.graph3_output_order, call.assign_nodes,
            call.print_hash] ++ releases,
          result := ending.returned 0, written := some out }

/-- The function `bdz_compute` (lines 311-370). -/
def bdz_compute (nb : nbperf) (w : callees) : run :=
  let c := if nb.c = 0 then (1.24 : ℚ) else nb.c
  if c < 1.24 then { trace := [], result := ending.exited 1 c_message, written := none }
  else if nb.hash_size < 3 then
    { trace := [], result := ending.exited 1 hash_size_message, written := none }
  else if 4294967296 ≤ c * (nb.n : ℚ) then
    { trace := [call.seed_hash], result := ending.undefined, written := none }
  else
    let r := attempt (vertex_count c nb.n) (u32 nb.n) nb.map_output w
    { r with trace := call.seed_hash :: r.trace }

/-- Five keys and three hash words, the expansion constant left at 0. -/
def default_request : nbperf := { c := 0, hash_size := 3, n := 5, map_output := false }

/-- Callees of a failed attempt: every allocation succeeds and `graph3_hash` reports a
failure. -/
def failing_callees : callees :=
  { calloc_null := fun _ => false, hash_result := -1, order_result := 0,
    edges := [], output_order := [] }

/-- The graph of a single key with 45 vertices; the key hashes to the vertices 40, 0
and 1. -/
def short_graph : graph3 :=
  { v := 45
    e := 1
    edges := [⟨40, 0, 1⟩]
    output_order := [0] }

/-- The constants `print_hash` emits for `short_graph`. -/
def short_tables : tables :=
  { v := 45
    g := [4294967295, 4294967295, 66912255]
    holes64k := [0]
    holes256 := [0]
    holes256_64 := [0]
    holes256_128 := [0]
    holes256_192 := [0] }

/-- The graph of a single key with 250 vertices; the key hashes to the vertices 230, 0
and 1. -/
def wide_graph : graph3 :=
  { v := 250
    e := 1
    edges := [⟨230, 0, 1⟩]
    output_order := [0] }

/-- The constants `print_hash` emits for `wide_graph`. -/
def wide_tables : tables :=
  { v := 250
    g := [4294967295, 4294967295, 4294967295, 4294967295, 4294967295, 4294967295,
          4294967295, 4294967295, 4294967295, 4294967295, 4294967295, 4294967295,
          4294967295, 4294967295, 4294955007, 1048575]
    holes64k := [0]
    holes256 := [0]
    holes256_64 := [64]
    holes256_128 := [128]
    holes256_192 := [192] }

/-! ## The pass over the vertices on arbitrary label arrays -/

/-- The invariant of the pass of lines 118-141 before iteration `n` that holds for every
label array: started in the state `s0`, the pass has changed neither the graph nor
`visited` nor `g` nor an array length, `holes` counts the holes below `n`, and every
summary entry whose boundary lies below `n` holds the hole count of its level (absolute for
`holes64k`, relative to the 64K block for `holes256`, relative to the 256 block for the
three others). -/
structure count_inv (s0 : state) (n : Nat) (s : state) (holes : Nat) : Prop where
  graph_eq : s.graph = s0.graph
  vis_eq : s.visited = s0.visited
  g_eq : s.g = s0.g
  len64k : s.holes64k.length = s0.holes64k.length
  len256 : s.holes256.length = s0.holes256.length
  len256_64 : s.holes256_64.length = s0.holes256_64.length
  len256_128 : s.holes256_128.length = s0.holes256_128.length
  len256_192 : s.holes256_192.length = s0.holes256_192.length
  len_map : s.result_map.length = s0.result_map.length
  holes_eq : holes = holes_before s0.g n
  h64k : ∀ k, 65536 * k < n → cell s.holes64k k = holes_before s0.g (65536 * k)
  h256 : ∀ k, 256 * k < n →
    cell s.holes256 k + holes_before s0.g (65536 * (k / 256)) = holes_before s0.g (256 * k)
  h256_64 : ∀ k, 256 * k + 64 < n →
    cell s.holes256_64 k + holes_before s0.g (256 * k) = holes_before s0.g (256 * k + 64)
  h256_128 : ∀ k, 256 * k + 128 < n →
    cell s.holes256_128 k + holes_before s0.g (256 * k) = holes_before s0.g (256 * k + 128)
  h256_192 : ∀ k, 256 * k + 192 < n →
    cell s.holes256_192 k + holes_before s0.g (256 * k) = holes_before s0.g (256 * k + 192)

/-- The arrays of `s` are long enough for the pass of lines 118-141 to stay inside them:
every index the pass forms for a vertex below `v` lies inside its array. -/
structure pass_fits (s : state) : Prop where
  v_fits : s.graph.v < 4294967296
  len64k : ∀ i, i < s.graph.v → i / 65536 < s.holes64k.length
  len256 : ∀ i, i < s.graph.v → i / 256 < s.holes256.length
  len256_64 : ∀ i, i < s.graph.v → i / 256 < s.holes256_64.length
  len256_128 : ∀ i, i < s.graph.v → i / 256 < s.holes256_128.length
  len256_192 : ∀ i, i < s.graph.v → i / 256 < s.holes256_192.length
  len_g : s.graph.v ≤ s.g.length
  len_vis : s.graph.v ≤ s.visited.length
  map_fits : ∀ i, i < s.graph.v → 1 < cell s.visited i →
    sub32 (cell s.visited i) 2 < s.result_map.length

/-- The arrays `bdz_compute` allocates for `sample_graph`, with every vertex a hole. -/
def hollow_state : state := { bdz_alloc sample_graph with g := List.replicate 40 3 }

/-! ## What the emitted lookup needs of its constants -/

/-- The constants `T` of the emitted function hold what the lookup needs for the labels
`G` of a graph with `v` vertices: the packed table has the declared number of words and
decodes to `G`, and every summary entry whose boundary lies below `v` is inside its table
and holds the hole count of its level. -/
structure lookup_ready (v : Nat) (G : List Nat) (T : tables) : Prop where
  g_len : T.g.length = (v + 15) / 16
  g_field : ∀ m, m < T.g.length → ∀ j, j < 16 →
    (cell T.g m >>> (2 * j)) &&& 3 = cell G (16 * m + j)
  h64k : ∀ k, 65536 * k < v →
    k < T.holes64k.length ∧ cell T.holes64k k = holes_before G (65536 * k)
  h256 : ∀ k, 256 * k < v →
    k < T.holes256.length ∧
    cell T.holes256 k + holes_before G (65536 * (k / 256)) = holes_before G (256 * k)
  h256_64 : ∀ k, 256 * k + 64 < v →
    k < T.holes256_64.length ∧
    cell T.holes256_64 k + holes_before G (256 * k) = holes_before G (256 * k + 64)
  h256_128 : ∀ k, 256 * k + 128 < v →
    k < T.holes256_128.length ∧
    cell T.holes256_128 k + holes_before G (256 * k) = holes_before G (256 * k + 128)
  h256_192 : ∀ k, 256 * k + 192 < v →
    k < T.holes256_192.length ∧
    cell T.holes256_192 k + holes_before G (256 * k) = holes_before G (256 * k + 192)

/-! ## A run of bdz_compute on 256 vertices -/

end Bdz

namespace Curses

/-!
# libcurses: subwindows (`lib/libcurses/newwin.c`)

A shallow embedding of `subwin`, `__set_subwin`, `__makenew` and `__swflags`.

* The windows live in a heap; a `WINDOW *` is an index into it and `NULL` is `none`.
* `int` values are integers; every `int` operation is followed by an explicit conversion
  `wrap` to 32 bits two's complement.
* Freshly allocated memory holds whatever the allocator hands out: the answers of `malloc`
  are a parameter of the model (`allocator`), including the content of the new memory.
* The screen size `COLS`/`LINES` and the four flag masks of `curses.h` that `__swflags`
  uses are parameters (`screen`).
-/


/-- Conversion of an exact result to `int`. -/
def wrap (x : Int) : Int := (x + 2147483648) % 4294967296 - 2147483648

/-- The value fits `int`. -/
def int_range (x : Int) : Prop := -2147483648 ≤ x ∧ x ≤ 2147483647

instance int_range_decidable (x : Int) : Decidable (int_range x) := by
  unfold int_range
  exact inferInstance

/-- Where the text of a `__LINE` points (`lp->line`): nowhere yet, into the window space of
its own window (`&win->wspace[start]`), or into a line of the parent window
(`&olp->line[column]` with `olp = orig->lines[line]`). -/
inductive text_ref where
  | unset
  | own (start : Int)
  | parent (line column : Int)
  deriving DecidableEq, Repr

/-- Modelled from the spec: the fields of `__LINE` (`curses_private.h`, not in the source
tree) that `newwin.c` assigns in `__makenew`, `subwin` and `__set_subwin`.  `marks` says
where `firstchp`/`lastchp` point: `none` for the line's own `firstch`/`lastch`, `some k`
for those of line `k` of the parent.  The field `hash` is not modelled (`__hash` is
outside the file). -/
structure LINE where
  flags : Nat
  firstch : Int
  lastch : Int
  line : text_ref
  marks : Option Int
  deriving DecidableEq, Repr

/-- Modelled from the spec: the fields of `WINDOW` (`curses_private.h`, not in the source
tree) that `newwin.c` uses.  `lspace` is the array of lines; `lines[i]` always points to
`lspace[i]` and is not modelled apart; `wspace` is the number of cells of the window space
(`none` for a subwindow, which has none of its own). -/
structure WINDOW where
  nextp : Option Nat
  orig : Option Nat
  begy : Int
  begx : Int
  cury : Int
  curx : Int
  maxy : Int
  maxx : Int
  ch_off : Int
  flags : Nat
  wattr : Nat
  bchar : Nat
  battr : Nat
  lspace : List LINE
  wspace : Option Int
  deriving DecidableEq, Repr

/-- Modelled from the spec: the globals `COLS` and `LINES` and the values of the flag
masks `__ENDLINE`, `__FULLWIN`, `__SCROLLWIN` and `__LEAVEOK` (`curses.h`, not in the
source tree). -/
structure screen where
  COLS : Int
  LINES : Int
  ENDLINE : Nat
  FULLWIN : Nat
  SCROLLWIN : Nat
  LEAVEOK : Nat
  deriving DecidableEq, Repr

/-- The allocated windows and the window list `__winlistp` (the windows of its entries,
in list order). -/
structure heap where
  windows : List WINDOW
  winlist : List Nat
  deriving DecidableEq, Repr

/-- The answers of the `malloc` calls of one call of `__makenew`: the content of the new
`WINDOW` (`none` for `NULL`), whether the array `lines` is obtained, the content of each
new `__LINE` (`none` for `NULL`), and whether the window space and the list entry are
obtained. -/
structure allocator where
  win : Option WINDOW
  lines : Bool
  lspace : Option LINE
  wspace : Bool
  wlp : Bool
  deriving DecidableEq, Repr

/-- The statement `flags &= ~mask` on an `unsigned int`. -/
def clear_bits (flags mask : Nat) : Nat := flags &&& (4294967295 - mask % 4294967296)

/-- The function `__swflags` (lines 260-271). -/
def __swflags (scr : screen) (win : WINDOW) : WINDOW :=
  let f := clear_bits win.flags (scr.ENDLINE ||| scr.FULLWIN ||| scr.SCROLLWIN ||| scr.LEAVEOK)
  if wrap (win.begx + win.maxx) = scr.COLS then
    let f := f ||| scr.ENDLINE
    let f := if win.begx = 0 ∧ win.maxy = scr.LINES ∧ win.begy = 0 then f ||| scr.FULLWIN else f
    let f := if wrap (win.begy + win.maxy) = scr.LINES then f ||| scr.SCROLLWIN else f
    { win with flags := f }
  else { win with flags := f }

/-- The function `__makenew` (lines 152-258): the new window, or `NULL` with the heap
unchanged when an allocation fails (the memory obtained so far is freed).  The new window
gets the next free index. -/
def __makenew (scr : screen) (a : allocator) (h : heap) (nl nc by_ bx : Int) (sub : Bool) :
    Option Nat × heap :=
  match a.win with
  | none => (none, h)
  | some fresh =>
    if !a.lines then (none, h)
    else
      match a.lspace with
      | none => (none, h)
      | some fresh_line =>
        let p := h.windows.length
        let settle := fun (w : WINDOW) =>
          __swflags scr { w with cury := 0, curx := 0, maxy := nl, maxx := nc, begy := by_,
                                 begx := bx, flags := 0, wattr := 0, bchar := 32, battr := 0 }
        if !sub then
          if !a.wspace then (none, h)
          else if !a.wlp then (none, h)
          else
            let ls := (List.range nl.toNat).map (fun i =>
              { fresh_line with line := text_ref.own (wrap ((i : Int) * nc)), marks := none,
                                firstch := 0, lastch := 0 })
            let w := settle { fresh with lspace := ls, wspace := some (wrap (nc * nl)) }
            (some p, { windows := h.windows ++ [w], winlist := h.winlist ++ [p] })
        else
          let w := settle { fresh with lspace := List.replicate nl.toNat fresh_line }
          (some p, { windows := h.windows ++ [w], winlist := h.winlist })

/-- The function `__set_subwin` (lines 135-150): the offset of the subwindow and, for
every line below `maxy`, the place in the parent its text and its marks point to.  The
window has the `maxy` lines `__makenew` gave it. -/
def __set_subwin (orig win : WINDOW) : WINDOW :=
  { win with
    ch_off := wrap (win.begx - orig.begx)
    lspace := (List.range win.lspace.length).map (fun i =>
      let lp := win.lspace.getD i ⟨0, 0, 0, text_ref.unset, none⟩
      if (i : Int) < win.maxy then
        { lp with line := text_ref.parent (wrap (wrap ((i : Int) + win.begy) - orig.begy))
                    (wrap (win.begx - orig.begx)),
                  marks := some (wrap (wrap ((i : Int) + win.begy) - orig.begy)) }
      else lp) }

/-- The loop of lines 125-126 of `subwin`: `lp->flags = 0` for every line below `maxy`. -/
def clear_line_flags (win : WINDOW) : WINDOW :=
  { win with
    lspace := (List.range win.lspace.length).map (fun i =>
      let lp := win.lspace.getD i ⟨0, 0, 0, text_ref.unset, none⟩
      if (i : Int) < win.maxy then { lp with flags := 0 } else lp) }

/-- A window with every field zero and no lines. -/
def blank_window : WINDOW := ⟨none, none, 0, 0, 0, 0, 0, 0, 0, 0, 0, 0, 0, [], none⟩

/-- The function `subwin` (lines 100-130).  `orig` must point to a window of the heap. -/
def subwin (scr : screen) (a : allocator) (h : heap) (orig : Nat) (nl nc by_ bx : Int) :
    Option Nat × heap :=
  match h.windows[orig]? with
  | none => (none, h)
  | some o =>
    if by_ < o.begy ∨ bx < o.begx ∨ wrap (by_ + nl) > wrap (o.maxy + o.begy)
        ∨ wrap (bx + nc) > wrap (o.maxx + o.begx) then (none, h)
    else
      let nl := if nl = 0 then wrap (wrap (o.maxy + o.begy) - by_) else nl
      let nc := if nc = 0 then wrap (wrap (o.maxx + o.begx) - bx) else nc
      match __makenew scr a h nl nc by_ bx true with
      | (none, h1) => (none, h1)
      | (some p, h1) =>
        let win := h1.windows.getD p blank_window
        let win := { win with nextp := o.nextp, orig := some orig }
        let o1 := { o with nextp := some p }
        let win := __set_subwin o1 (clear_line_flags win)
        (some p, { h1 with windows := (h1.windows.set orig o1).set p win })

/-- A full screen of 24 lines and 80 columns. -/
def sample_screen : screen :=
  { COLS := 80, LINES := 24, ENDLINE := 1, FULLWIN := 4, SCROLLWIN := 16, LEAVEOK := 256 }

/-- A window covering the sample screen, the only window of its list. -/
def sample_window : WINDOW :=
  { nextp := some 0, orig := none, begy := 0, begx := 0, cury := 0, curx := 0, maxy := 24,
    maxx := 80, ch_off := 0, flags := 21, wattr := 0, bchar := 32, battr := 0,
    lspace := List.replicate 24 ⟨0, 0, 0, text_ref.own 0, none⟩, wspace := some 1920 }

/-- The heap holding the sample window. -/
def sample_heap : heap := { windows := [sample_window], winlist := [0] }

/-- An allocator whose every `malloc` succeeds and hands out zeroed memory. -/
def sample_allocator : allocator :=
  { win := some blank_window, lines := true,
    lspace := some ⟨0, 0, 0, text_ref.unset, none⟩, wspace := true, wlp := true }

/-! ## Scrolling (`lib/libcurses/scroll.c`) -/

/-- Modelled from the spec: the two results `OK` and `ERR` of a curses function
(`curses.h`, not in the source tree); they are different values. -/
inductive status where
  | OK
  | ERR
  deriving DecidableEq, Repr

/-- What `wscrl` does besides changing its window: the calls of `wmove` and `winsdelln`
with their arguments, and the character it writes with `putchar`. -/
inductive effect where
  | wmove (y x : Int)
  | winsdelln (n : Int)
  | putchar (c : Nat)
  deriving DecidableEq, Repr

/-- Modelled from the spec: what `scroll.c` takes from outside: the flag mask `__SCROLLOK`
(`curses.h`), the terminal capability `NONL`, and what `wmove(win, y, x)` and
`winsdelln(win, n)` do to the window they are given (their results are not used). -/
structure library where
  SCROLLOK : Nat
  NONL : Int
  wmove : WINDOW → Int → Int → WINDOW
  winsdelln : WINDOW → Int → WINDOW

/-- The function `wscrl` (lines 64-93) on the window `win`; `is_curscr` says whether `win`
is the pointer `curscr`.  The result, the window afterwards, and the effects in order.
`getyx(win, oy, ox)` reads `win->cury` and `win->curx`. -/
def wscrl (lib : library) (win : WINDOW) (is_curscr : Bool) (lines : Int) :
    status × WINDOW × List effect :=
  if win.flags &&& lib.SCROLLOK = 0 then (status.ERR, win, [])
  else if lines = 0 then (status.OK, win, [])
  else
    let oy := win.cury
    let ox := win.curx
    let w1 := lib.wmove win 0 0
    let w2 := lib.winsdelln w1 (wrap (0 - lines))
    let w3 := lib.wmove w2 oy ox
    let calls := [effect.wmove 0 0, effect.winsdelln (wrap (0 - lines)), effect.wmove oy ox]
    if is_curscr then
      (status.OK, (if lib.NONL = 0 then { w3 with curx := 0 } else w3),
        calls ++ [effect.putchar 10])
    else (status.OK, w3, calls)

/-- The function `scroll` (lines 52-57). -/
def scroll (lib : library) (win : WINDOW) (is_curscr : Bool) : status × WINDOW × List effect :=
  wscrl lib win is_curscr 1

/-- A library whose `wmove` sets the cursor and whose `winsdelln` leaves the window
as it is; `__SCROLLOK` is bit 5. -/
def sample_library : library :=
  { SCROLLOK := 32, NONL := 0,
    wmove := fun w y x => { w with cury := y, curx := x },
    winsdelln := fun w _ => w }

end Curses

namespace Slave

/-!
# The curses test slave: `command_execute` (`tests/lib/libcurses/slave/commands.c`)

A shallow embedding of `command_execute`.

* The command table `commands` and the table `restricted_commands` (`command_table.h`, not
  in the source tree) are parameters: the list of command names in table order, and the
  list of restricted names.
* A call of a command function and a call of `report_status` are recorded as actions; the
  command functions are outside the file and the model takes them to leave `initdone` as
  it is.
* The global `initdone` is passed in and returned.
-/


/-- Modelled from the spec: the two tables of `command_table.h`: `commands[i].name` in
table order (`ncmds` entries) and `restricted_commands` (`nrcmds` entries). -/
structure command_table where
  commands : List String
  restricted_commands : List String
  deriving DecidableEq, Repr

/-- What `command_execute` does to its surroundings: the call `commands[i].func(nargs,
args)` or a call of `report_status`. -/
inductive action where
  | run (i : Nat) (nargs : Int) (args : List String)
  | report_status (message : String)
  deriving DecidableEq, Repr

/-- The message of line 77. -/
def need_init_message : String := "YOU NEED TO CALL INITSCR/NEWTERM FIRST"

/-- The message of line 87. -/
def unknown_message : String := "UNKNOWN_FUNCTION"

/-- The name compared in line 67. -/
def initscr_name : String := "initscr"

/-- The name compared in line 68. -/
def newterm_name : String := "newterm"

/-- Modelled from the spec: `tolower` of libc in the C locale, on a character code. -/
def tolower (c : Nat) : Nat := if 65 ≤ c ∧ c ≤ 90 then c + 32 else c

/-- Modelled from the spec: `strcmp` of libc as far as the code uses it: the result is 0
exactly for equal strings (the sign of a nonzero result is not modelled). -/
def strcmp (a b : String) : Int := if a = b then 0 else 1

/-- Modelled from the spec: `strcasecmp` of libc as far as the code uses it: the result is
0 exactly for strings that are equal once every character is mapped by `tolower`. -/
def strcasecmp (a b : String) : Int :=
  if a.toList.map (fun c => tolower c.toNat) = b.toList.map (fun c => tolower c.toNat) then 0
  else 1

/-- The loop of lines 65-76 over the entries of `restricted_commands` not yet compared:
whether `func` matches one of them. -/
def restricted_loop (func : String) : List String → Bool
  | [] => false
  | r :: rest => if strcasecmp func r = 0 then true else restricted_loop func rest

/-- The loop of lines 59-85 over the entries of `commands` from index `i` on, and line 87
when none matches: the new value of `initdone` and the actions. -/
def command_loop (T : command_table) (func : String) (nargs : Int) (args : List String)
    (initdone : Int) : List String → Nat → Int × List action
  | [], _ => (initdone, [action.report_status unknown_message])
  | name :: rest, i =>
    if strcmp func name = 0 then
      if initdone = 0 then
        if restricted_loop func T.restricted_commands then
          (if strcasecmp func initscr_name = 0 ∨ strcasecmp func newterm_name = 0 then 1
            else initdone,
           [action.run i nargs args])
        else (initdone, [action.report_status need_init_message])
      else (initdone, [action.run i nargs args])
    else command_loop T func nargs args initdone rest (i + 1)

/-- The function `command_execute` (lines 54-88), run with the given value of the global
`initdone`: the new value of `initdone` and the actions. -/
def command_execute (T : command_table) (initdone : Int) (func : String) (nargs : Int)
    (args : List String) : Int × List action :=
  command_loop T func nargs args initdone T.commands 0

/-- A small command table: four commands, two of them usable before initialisation. -/
def sample_table : command_table :=
  { commands := ["addch", "initscr", "newterm", "putenv"],
    restricted_commands := ["INITSCR", "newterm", "putenv"] }

end Slave

namespace Bdz

/-! ## Basic facts: the monad, checked access, the walk order, fresh endpoints -/

@[simp] theorem bind_ok {α β : Type} (a : α) (f : α → Except Fault β) :
    (Except.ok a >>= f) = f a := rfl

@[simp] theorem bind_error {α β : Type} (e : Fault) (f : α → Except Fault β) :
    ((Except.error e : Except Fault α) >>= f) = Except.error e := rfl

@[simp] theorem pure_eq_ok {α : Type} (a : α) : (pure a : Except Fault α) = Except.ok a := rfl

theorem rd_ok {a : List Nat} {i : Nat} (h : i < a.length) : rd a i = Except.ok (cell a i) := by
  simp [rd, cell, List.getD, List.getElem?_eq_getElem h]

theorem wr_ok {a : List Nat} {i : Nat} (x : Nat) (h : i < a.length) :
    wr a i x = Except.ok (a.set i x) := by
  simp [wr, h]

theorem cell_set (a : List Nat) (i x k : Nat) (h : i < a.length) :
    cell (a.set i x) k = if k = i then x else cell a k := by
  simp only [cell, List.getD_eq_getElem?_getD, List.getElem?_set]
  by_cases hk : k = i
  · subst hk; simp [h]
  · have : ¬ i = k := fun h => hk h.symm
    simp [hk, this]

theorem foldlM_range_succ {σ : Type} (f : σ → Nat → Except Fault σ) (s : σ) (n : Nat) :
    (List.range (n + 1)).foldlM f s = ((List.range n).foldlM f s >>= fun s => f s n) := by
  rw [List.range_succ, List.foldlM_append]
  congr 1
  funext s
  simp [List.foldlM]
  cases f s n <;> rfl

theorem order_length {gr : graph3} (hv : valid_graph gr) : gr.output_order.length = gr.e := by
  have := hv.order_perm.length_eq
  simpa using this

theorem order_cell_mem {gr : graph3} (hv : valid_graph gr) {p : Nat} (hp : p < gr.e) :
    cell gr.output_order p ∈ gr.output_order := by
  have hl := order_length hv
  unfold cell
  rw [List.getD_eq_getElem _ _ (by omega)]
  exact List.getElem_mem _

theorem order_lt {gr : graph3} (hv : valid_graph gr) {p : Nat} (hp : p < gr.e) :
    cell gr.output_order p < gr.e := by
  have := (hv.order_perm.mem_iff).1 (order_cell_mem hv hp)
  simpa using this

theorem order_inj {gr : graph3} (hv : valid_graph gr) {p q : Nat} (hp : p < gr.e)
    (hq : q < gr.e) (h : cell gr.output_order p = cell gr.output_order q) : p = q := by
  have hl := order_length hv
  have hnd : gr.output_order.Nodup := (hv.order_perm.nodup_iff).2 (List.nodup_range _)
  have hp2 : p < gr.output_order.length := by omega
  have hq2 : q < gr.output_order.length := by omega
  unfold cell at h
  rw [List.getD_eq_getElem _ _ hp2, List.getD_eq_getElem _ _ hq2] at h
  exact (List.Nodup.getElem_inj_iff hnd).1 h

theorem order_surj {gr : graph3} (hv : valid_graph gr) {j : Nat} (hj : j < gr.e) :
    ∃ p, p < gr.e ∧ cell gr.output_order p = j := by
  have hl := order_length hv
  have hm : j ∈ gr.output_order := (hv.order_perm.mem_iff).2 (by simpa using hj)
  obtain ⟨p, hp, hpj⟩ := List.getElem_of_mem hm
  exact ⟨p, by omega, by unfold cell; rw [List.getD_eq_getElem _ _ hp]; exact hpj⟩

theorem edge_at_mem {gr : graph3} (hv : valid_graph gr) {p : Nat} (hp : p < gr.e) :
    edge_at gr p ∈ gr.edges := by
  have hj := order_lt hv hp
  unfold edge_at
  rw [List.getD_eq_getElem _ _ (by rw [hv.edges_len]; exact hj)]
  exact List.getElem_mem _

theorem seen_succ (gr : graph3) (p x : Nat) :
    seen gr (p + 1) x ↔ seen gr p x ∨ x ∈ endpoints (edge_at gr p) := by
  unfold seen
  constructor
  · rintro ⟨q, hq, hx⟩
    rcases Nat.lt_succ_iff_lt_or_eq.1 hq with h | h
    · exact Or.inl ⟨q, h, hx⟩
    · subst h; exact Or.inr hx
  · rintro (⟨q, hq, hx⟩ | hx)
    · exact ⟨q, by omega, hx⟩
    · exact ⟨p, by omega, hx⟩

theorem seen_mono {gr : graph3} {p q x : Nat} (h : p ≤ q) (hs : seen gr p x) : seen gr q x := by
  obtain ⟨k, hk, hx⟩ := hs
  exact ⟨k, by omega, hx⟩

theorem not_seen_zero (gr : graph3) (x : Nat) : ¬ seen gr 0 x := by
  rintro ⟨q, hq, _⟩
  omega

theorem mem_endpoints (e : edge3) (x : Nat) :
    x ∈ endpoints e ↔ x = e.left ∨ x = e.middle ∨ x = e.right := by
  simp [endpoints]

/-- The choice of iteration `p` is an endpoint that belongs to no earlier edge. -/
theorem fresh_choice_spec {gr : graph3} (hv : valid_graph gr) {p : Nat} (hp : p < gr.e) :
    ¬ seen gr p (fresh_choice gr p).2 ∧
    (((fresh_choice gr p).1 = 0 ∧ (fresh_choice gr p).2 = (edge_at gr p).left) ∨
     ((fresh_choice gr p).1 = 1 ∧ (fresh_choice gr p).2 = (edge_at gr p).middle ∧
        seen gr p (edge_at gr p).left) ∨
     ((fresh_choice gr p).1 = 2 ∧ (fresh_choice gr p).2 = (edge_at gr p).right ∧
        seen gr p (edge_at gr p).left ∧ seen gr p (edge_at gr p).middle)) := by
  obtain ⟨x, hx, hfresh⟩ := hv.peel p hp
  have hns : ¬ seen gr p x := by
    rintro ⟨q, hq, hm⟩
    exact hfresh q hq hm
  unfold fresh_choice
  by_cases h1 : seen gr p (edge_at gr p).left
  · by_cases h2 : seen gr p (edge_at gr p).middle
    · have hx3 : x = (edge_at gr p).right := by
        rcases (mem_endpoints _ _).1 hx with h | h | h
        · exact absurd (h ▸ h1) hns
        · exact absurd (h ▸ h2) hns
        · exact h
      simp [h1, h2]
      exact hx3 ▸ hns
    · simp [h1, h2]
  · simp [h1]

theorem fresh_choice_mem {gr : graph3} (hv : valid_graph gr) {p : Nat} (hp : p < gr.e) :
    (fresh_choice gr p).2 ∈ endpoints (edge_at gr p) := by
  rcases (fresh_choice_spec hv hp).2 with h | h | h
  · simp [endpoints, h.2]
  · simp [endpoints, h.2.1]
  · simp [endpoints, h.2.1]

theorem fresh_choice_lt {gr : graph3} (hv : valid_graph gr) {p : Nat} (hp : p < gr.e) :
    (fresh_choice gr p).2 < gr.v := by
  have hr := hv.in_range _ (edge_at_mem hv hp)
  rcases (mem_endpoints _ _).1 (fresh_choice_mem hv hp) with h | h | h <;> rw [h]
  · exact hr.1
  · exact hr.2.1
  · exact hr.2.2

/-- Distinct iterations choose distinct vertices. -/
theorem fresh_choice_inj {gr : graph3} (hv : valid_graph gr) {p q : Nat} (hp : p < gr.e)
    (hq : q < gr.e) (h : (fresh_choice gr p).2 = (fresh_choice gr q).2) : p = q := by
  by_contra hne
  rcases Nat.lt_or_gt_of_ne hne with hlt | hlt
  · exact (fresh_choice_spec hv hq).1 ⟨p, hlt, h ▸ fresh_choice_mem hv hp⟩
  · exact (fresh_choice_spec hv hp).1 ⟨q, hlt, h ▸ fresh_choice_mem hv hq⟩

/-- The vertices seen before iteration `p`, as a finite set. -/
theorem seen_card {gr : graph3} (hv : valid_graph gr) :
    ∀ p, 1 ≤ p → p ≤ gr.e → p + 2 ≤ ((Finset.range gr.v).filter (fun x => seen gr p x)).card := by
  intro p
  induction p with
  | zero => intro h; omega
  | succ p ih =>
    intro _ hp
    rcases Nat.eq_zero_or_pos p with h0 | hpos
    · subst h0
      have hm := edge_at_mem hv (show 0 < gr.e by omega)
      have hr := hv.in_range _ hm
      have hd := hv.distinct _ hm
      have hsub : ({(edge_at gr 0).left, (edge_at gr 0).middle, (edge_at gr 0).right} : Finset Nat)
          ⊆ (Finset.range gr.v).filter (fun x => seen gr (0 + 1) x) := by
        intro x hx
        simp only [Finset.mem_insert, Finset.mem_singleton] at hx
        simp only [Finset.mem_filter, Finset.mem_range]
        refine ⟨by rcases hx with h | h | h <;> rw [h] <;> [exact hr.1; exact hr.2.1; exact hr.2.2], ?_⟩
        exact ⟨0, by omega, (mem_endpoints _ _).2 hx⟩
      have hc : ({(edge_at gr 0).left, (edge_at gr 0).middle, (edge_at gr 0).right} : Finset Nat).card = 3 := by
        rw [Finset.card_insert_of_not_mem, Finset.card_insert_of_not_mem, Finset.card_singleton]
        · simpa using hd.2.2
        · simp only [Finset.mem_insert, Finset.mem_singleton]
          rintro (h | h)
          · exact hd.1 h
          · exact hd.2.1 h
      have := Finset.card_le_card hsub
      omega
    · have ih := ih hpos (by omega)
      have hp2 : p < gr.e := by omega
      have hns := (fresh_choice_spec hv hp2).1
      have hsub : insert (fresh_choice gr p).2 ((Finset.range gr.v).filter (fun x => seen gr p x))
          ⊆ (Finset.range gr.v).filter (fun x => seen gr (p + 1) x) := by
        intro x hx
        simp only [Finset.mem_insert, Finset.mem_filter, Finset.mem_range] at hx ⊢
        rcases hx with h | ⟨h1, h2⟩
        · rw [h]
          exact ⟨fresh_choice_lt hv hp2, (seen_succ _ _ _).2 (Or.inr (fresh_choice_mem hv hp2))⟩
        · exact ⟨h1, seen_mono (by omega) h2⟩
      have hc := Finset.card_le_card hsub
      rw [Finset.card_insert_of_not_mem (by simp [hns])] at hc
      omega

/-- A peelable graph with at least one edge has two more vertices than edges. -/
theorem edges_add_two_le {gr : graph3} (hv : valid_graph gr) (hE : 0 < gr.e) :
    gr.e + 2 ≤ gr.v := by
  have h := seen_card hv gr.e hE (Nat.le_refl _)
  have h2 : ((Finset.range gr.v).filter (fun x => seen gr gr.e x)).card ≤ gr.v := by
    have := Finset.card_filter_le (Finset.range gr.v) (fun x => seen gr gr.e x)
    simpa using this
  omega

/-! ## The statements of the labeling loop -/

theorem cell_replicate_zero (n k : Nat) : cell (List.replicate n 0) k = 0 := by
  unfold cell
  by_cases h : k < n
  · rw [List.getD_eq_getElem _ _ (by simpa using h)]
    simp
  · rw [List.getD_eq_default _ _ (by simpa using h)]

/-- The loop of lines 86-87 sets the first `n` bytes of `g` to 3 and leaves the rest. -/
theorem init_g_loop (s : state) (n : Nat) (hn : n ≤ s.g.length) :
    ∃ G, (List.range n).foldlM
        (fun (s : state) (i : Nat) => do
          let g ← wr s.g i 3
          pure { s with g := g }) s = Except.ok { s with g := G } ∧
      G.length = s.g.length ∧ ∀ k, cell G k = if k < n then 3 else cell s.g k := by
  induction n with
  | zero => exact ⟨s.g, rfl, rfl, fun k => by simp⟩
  | succ n ih =>
    obtain ⟨G, hG, hlen, hget⟩ := ih (by omega)
    refine ⟨G.set n 3, ?_, by simp [hlen], ?_⟩
    · rw [foldlM_range_succ, hG]
      simp [wr_ok 3 (show n < G.length by omega)]
    · intro k
      rw [cell_set _ _ _ _ (by omega), hget]
      by_cases h1 : k = n
      · simp [h1]
      · by_cases h2 : k < n
        · simp [h1, h2, Nat.lt_succ_of_lt h2]
        · have : ¬ k < n + 1 := by omega
          simp [h1, h2, this]

theorem init_g_alloc (gr : graph3) :
    ∃ G, init_g (bdz_alloc gr) = Except.ok { bdz_alloc gr with g := G } ∧
      G.length = 4 * gr.v ∧ ∀ k, cell G k = if k < gr.v then 3 else 0 := by
  obtain ⟨G, hG, hlen, hget⟩ := init_g_loop (bdz_alloc gr) gr.v (by simp [bdz_alloc]; omega)
  refine ⟨G, hG, by simpa [bdz_alloc] using hlen, ?_⟩
  intro k
  rw [hget]
  simp [bdz_alloc, cell_replicate_zero]

theorem mark_seen_spec (vis : List Nat) (x : Nat) (hx : x < vis.length) :
    ∃ vis1, mark_seen vis x = Except.ok vis1 ∧ vis1.length = vis.length ∧
      ∀ k, cell vis1 k = if k = x ∧ cell vis x = 0 then 1 else cell vis k := by
  unfold mark_seen
  rw [rd_ok hx]
  by_cases h0 : cell vis x = 0
  · refine ⟨vis.set x 1, by simp [h0, wr_ok 1 hx], by simp, ?_⟩
    intro k
    rw [cell_set _ _ _ _ hx]
    simp [h0]
  · exact ⟨vis, by simp [h0], rfl, fun k => by simp [h0]⟩

theorem mark_seen_step (vis visA S : List Nat) (t J x : Nat) (hJ : J ≠ 0) (hx : x < visA.length)
    (hA : ∀ k, cell visA k =
      if k = t then J else if k ∈ S ∧ cell vis k = 0 then 1 else cell vis k) :
    ∃ visB, mark_seen visA x = Except.ok visB ∧ visB.length = visA.length ∧
      ∀ k, cell visB k =
        if k = t then J else if k ∈ x :: S ∧ cell vis k = 0 then 1 else cell vis k := by
  obtain ⟨visB, hB, hlen, hget⟩ := mark_seen_spec visA x hx
  refine ⟨visB, hB, hlen, ?_⟩
  intro k
  rw [hget, hA k, hA x]
  by_cases hkt : k = t
  · subst hkt
    by_cases hkx : k = x
    · subst hkx
      simp [hJ]
    · simp [hkx]
  · by_cases hkx : k = x
    · subst hkx
      by_cases h0 : cell vis k = 0
      · by_cases hS : k ∈ S <;> simp [hkt, h0, hS]
      · simp [hkt, h0]
    · simp [hkt, hkx]

theorem mark_edge_spec (vis : List Nat) (e : edge3) (t j : Nat)
    (hl : e.left < vis.length) (hm : e.middle < vis.length) (hr : e.right < vis.length)
    (ht : t < vis.length) (hj : u32 (2 + j) ≠ 0) :
    ∃ vis1, mark_edge vis e t j = Except.ok vis1 ∧ vis1.length = vis.length ∧
      ∀ k, cell vis1 k =
        if k = t then u32 (2 + j)
        else if k ∈ endpoints e ∧ cell vis k = 0 then 1 else cell vis k := by
  unfold mark_edge
  rw [wr_ok _ ht]
  have g1 : ∀ k, cell (vis.set t (u32 (2 + j))) k =
      if k = t then u32 (2 + j) else if k ∈ ([] : List Nat) ∧ cell vis k = 0 then 1 else cell vis k := by
    intro k
    rw [cell_set _ _ _ _ ht]
    simp
  obtain ⟨v2, h2, l2, g2⟩ := mark_seen_step vis _ [] t _ e.left hj (by simpa using hl) g1
  obtain ⟨v3, h3, l3, g3⟩ := mark_seen_step vis v2 _ t _ e.middle hj (by rw [l2]; simpa using hm) g2
  obtain ⟨v4, h4, l4, g4⟩ := mark_seen_step vis v3 _ t _ e.right hj (by rw [l3, l2]; simpa using hr) g3
  refine ⟨v4, by simp [h2, h3, h4], by simp [l4, l3, l2], ?_⟩
  intro k
  rw [g4]
  have hmem : k ∈ [e.right, e.middle, e.left] ↔ k ∈ endpoints e := by
    simp only [mem_endpoints, List.mem_cons, List.mem_singleton, List.not_mem_nil, or_false]
    tauto
  simp only [hmem]

theorem assign_label_spec (G : List Nat) (e : edge3) (r t : Nat)
    (hl : e.left < G.length) (hm : e.middle < G.length) (hr : e.right < G.length)
    (ht : t < G.length) :
    assign_label G e r t = Except.ok (G.set t
      (u8 (sub32 (sub32 (sub32 (add32 9 r) (cell G e.left)) (cell G e.middle))
        (cell G e.right) % 3))) := by
  unfold assign_label
  rw [rd_ok hl, rd_ok hm, rd_ok hr]
  simp [wr_ok _ ht]

/-- The label arithmetic of lines 113-114 does not wrap when the three labels are at
most 3. -/
theorem label_value (r a b c : Nat) (hr : r ≤ 2) (ha : a ≤ 3) (hb : b ≤ 3) (hc : c ≤ 3) :
    u8 (sub32 (sub32 (sub32 (add32 9 r) a) b) c % 3) = (9 + r - a - b - c) % 3 := by
  unfold u8 sub32 add32
  omega

theorem holes_before_set (G : List Nat) (t x n : Nat) (ht : t < G.length)
    (h3 : cell G t = 3) (hx : x ≠ 3) :
    holes_before (G.set t x) n + (if t < n then 1 else 0) = holes_before G n := by
  induction n with
  | zero => simp [holes_before]
  | succ n ih =>
    simp only [holes_before, cell_set _ _ _ _ ht]
    by_cases h1 : n = t
    · subst h1
      simp [hx, h3] at ih ⊢
      omega
    · by_cases h2 : t < n
      · have : t < n + 1 := by omega
        simp [h1, h2, this] at ih ⊢
        omega
      · have : ¬ t < n + 1 := by omega
        simp [h1, h2, this] at ih ⊢
        omega

theorem rd_edge_ok {es : List edge3} {j : Nat} (h : j < es.length) :
    rd_edge es j = Except.ok (es.getD j ⟨0, 0, 0⟩) := by
  simp [rd_edge, List.getD, List.getElem?_eq_getElem h]

theorem label_inv_le3 {gr : graph3} {p : Nat} {vis G : List Nat} (hI : label_inv gr p vis G)
    {x : Nat} (hx : x < gr.v) : cell G x ≤ 3 := by
  by_cases h : cell vis x ≤ 1
  · rw [hI.g_hole x hx h]
  · have := hI.g_label x hx (by omega)
    omega

/-- Lines 92-103 pick the first endpoint that belongs to no earlier edge, and never reach
`abort()`. -/
theorem choose_vertex_spec {gr : graph3} (hv : valid_graph gr) {p : Nat} (hp : p < gr.e)
    {vis G : List Nat} (hI : label_inv gr p vis G) :
    choose_vertex vis (edge_at gr p) = Except.ok (fresh_choice gr p) := by
  have hr := hv.in_range _ (edge_at_mem hv hp)
  have hspec := fresh_choice_spec hv hp
  have hlen := hI.vis_len
  unfold choose_vertex
  rw [rd_ok (by omega : (edge_at gr p).left < vis.length)]
  by_cases h1 : seen gr p (edge_at gr p).left
  · have hv1 : cell vis (edge_at gr p).left ≠ 0 := (hI.vis_seen _ hr.1).2 h1
    rw [bind_ok, if_neg hv1, rd_ok (by omega : (edge_at gr p).middle < vis.length)]
    by_cases h2 : seen gr p (edge_at gr p).middle
    · have hv2 : cell vis (edge_at gr p).middle ≠ 0 := (hI.vis_seen _ hr.2.1).2 h2
      rw [bind_ok, if_neg hv2, rd_ok (by omega : (edge_at gr p).right < vis.length)]
      have hfc : fresh_choice gr p = (2, (edge_at gr p).right) := by
        simp [fresh_choice, h1, h2]
      have h3 : ¬ seen gr p (edge_at gr p).right := by
        have := hspec.1
        rwa [hfc] at this
      have hv3 : cell vis (edge_at gr p).right = 0 := by
        by_contra h
        exact h3 ((hI.vis_seen _ hr.2.2).1 h)
      simp [hv3, hfc]
    · have hv2 : cell vis (edge_at gr p).middle = 0 := by
        by_contra h
        exact h2 ((hI.vis_seen _ hr.2.1).1 h)
      simp [hv2, fresh_choice, h1, h2]
  · have hv1 : cell vis (edge_at gr p).left = 0 := by
      by_contra h
      exact h1 ((hI.vis_seen _ hr.1).1 h)
    simp [hv1, fresh_choice, h1]

set_option maxHeartbeats 1000000 in
/-- One iteration of the labeling loop runs without fault and re-establishes the loop
invariant. -/
theorem label_step_spec {gr : graph3} (hv : valid_graph gr) {p : Nat} (hp : p < gr.e)
    (s : state) (hs : s.graph = gr) (hI : label_inv gr p s.visited s.g) :
    ∃ vis G, label_step s p = Except.ok { s with visited := vis, g := G } ∧
      label_inv gr (p + 1) vis G := by
  have hEV := edges_add_two_le hv (by omega : 0 < gr.e)
  have hol := order_length hv
  have hj := order_lt hv hp
  have hmem := edge_at_mem hv hp
  have hr := hv.in_range _ hmem
  have hd := hv.distinct _ hmem
  have hspec := fresh_choice_spec hv hp
  have htlt := fresh_choice_lt hv hp
  have htmem := fresh_choice_mem hv hp
  have hcv := choose_vertex_spec hv hp hI
  have hfit := hv.v_fits
  have hu : u32 (2 + cell gr.output_order p) = 2 + cell gr.output_order p := by
    unfold u32; omega
  rcases hfc : fresh_choice gr p with ⟨r, t⟩
  rw [hfc] at hspec htlt htmem hcv
  simp only at hspec htlt htmem
  have hvl := hI.vis_len
  have hgl := hI.g_len
  obtain ⟨vis1, hm1, hl1, hg1⟩ := mark_edge_spec s.visited (edge_at gr p) t
    (cell gr.output_order p) (by omega) (by omega) (by omega) (by omega) (by rw [hu]; omega)
  have hal := assign_label_spec s.g (edge_at gr p) r t (by omega) (by omega) (by omega)
    (by omega)
  have ht0 : cell s.visited t = 0 := by
    by_contra h
    exact hspec.1 ((hI.vis_seen t htlt).1 h)
  have hgt : cell s.g t = 3 := hI.g_hole t htlt (by omega)
  have ha := label_inv_le3 hI hr.1
  have hb := label_inv_le3 hI hr.2.1
  have hc := label_inv_le3 hI hr.2.2
  have hr2 : r ≤ 2 := by rcases hspec.2 with h | h | h <;> omega
  have hval := label_value r _ _ _ hr2 ha hb hc
  rw [hval] at hal
  rw [hu] at hg1
  obtain ⟨val, hvd⟩ : ∃ val, val = (9 + r - cell s.g (edge_at gr p).left
      - cell s.g (edge_at gr p).middle - cell s.g (edge_at gr p).right) % 3 := ⟨_, rfl⟩
  rw [← hvd] at hal
  have hG1 : ∀ k, cell (s.g.set t val) k = if k = t then val else cell s.g k :=
    fun k => cell_set _ _ _ _ (by omega)
  have hseen_ne : ∀ x, seen gr p x → x ≠ t := fun x hx h => hspec.1 (h ▸ hx)
  refine ⟨vis1, s.g.set t val, ?_, ?_⟩
  · unfold label_step
    rw [hs, rd_ok (by omega : p < gr.output_order.length), bind_ok,
      rd_edge_ok (by rw [hv.edges_len]; exact hj), bind_ok]
    have he : gr.edges.getD (cell gr.output_order p) ⟨0, 0, 0⟩ = edge_at gr p := rfl
    simp only [he, hcv, bind_ok, hm1, hal, pure_eq_ok]
  · constructor
    · rw [hl1]; exact hvl
    · simpa using hgl
    · intro x hx
      rw [hg1, seen_succ]
      by_cases hxt : x = t
      · subst hxt
        simp [htmem]
      · by_cases hxe : x ∈ endpoints (edge_at gr p)
        · by_cases hx0 : cell s.visited x = 0 <;> simp [hxt, hxe, hx0]
        · simp only [hxt, hxe, if_false, false_and, or_false]
          exact hI.vis_seen x hx
    · intro x hx h2
      rw [hg1] at h2
      by_cases hxt : x = t
      · exact ⟨p, by omega, by rw [hfc]; exact hxt⟩
      · simp only [hxt, if_false] at h2
        have h3 : 2 ≤ cell s.visited x := by
          by_cases hc1 : x ∈ endpoints (edge_at gr p) ∧ cell s.visited x = 0
          · rw [if_pos hc1] at h2; omega
          · rwa [if_neg hc1] at h2
        obtain ⟨q, hq, hxq⟩ := hI.vis_win x hx h3
        exact ⟨q, by omega, hxq⟩
    · intro q hq
      rcases Nat.lt_succ_iff_lt_or_eq.1 hq with hlt | heq
      · have hw := hI.win_vis q hlt
        have hqlt := fresh_choice_lt hv (by omega : q < gr.e)
        have hne : (fresh_choice gr q).2 ≠ t :=
          hseen_ne _ ((hI.vis_seen _ hqlt).1 (by rw [hw]; omega))
        rw [hg1]
        simp only [hne, if_false]
        have : ¬ ((fresh_choice gr q).2 ∈ endpoints (edge_at gr p) ∧
            cell s.visited (fresh_choice gr q).2 = 0) := by
          rw [hw]; omega
        rw [if_neg this, hw]
      · subst heq
        rw [hfc, hg1]
        simp
    · intro x hx h1
      rw [hg1] at h1
      have hxt : x ≠ t := by
        intro h
        rw [if_pos h] at h1
        omega
      rw [if_neg hxt] at h1
      have h3 : cell s.visited x ≤ 1 := by
        by_cases hc1 : x ∈ endpoints (edge_at gr p) ∧ cell s.visited x = 0
        · omega
        · rwa [if_neg hc1] at h1
      rw [hG1, if_neg hxt]
      exact hI.g_hole x hx h3
    · intro x hx h2
      rw [hG1]
      by_cases hxt : x = t
      · rw [if_pos hxt]
        omega
      · rw [if_neg hxt]
        rw [hg1, if_neg hxt] at h2
        have h3 : 2 ≤ cell s.visited x := by
          by_cases hc1 : x ∈ endpoints (edge_at gr p) ∧ cell s.visited x = 0
          · rw [if_pos hc1] at h2; omega
          · rwa [if_neg hc1] at h2
        exact hI.g_label x hx h3
    · intro x hx
      rw [hG1, if_neg (by omega)]
      exact hI.g_pad x hx
    · intro q hq
      rcases Nat.lt_succ_iff_lt_or_eq.1 hq with hlt | heq
      · have hq1 : (edge_at gr q).left ≠ t :=
          hseen_ne _ ⟨q, hlt, by simp [endpoints]⟩
        have hq2 : (edge_at gr q).middle ≠ t :=
          hseen_ne _ ⟨q, hlt, by simp [endpoints]⟩
        have hq3 : (edge_at gr q).right ≠ t :=
          hseen_ne _ ⟨q, hlt, by simp [endpoints]⟩
        rw [hG1, hG1, hG1, if_neg hq1, if_neg hq2, if_neg hq3]
        exact hI.law q hlt
      · subst heq
        rw [hfc, hG1, hG1, hG1]
        simp only
        rcases hspec.2 with ⟨h1, h2⟩ | ⟨h1, h2, _⟩ | ⟨h1, h2, _⟩
        · subst h1
          have e0 : (edge_at gr q).left = t := h2.symm
          have e1 : ¬ (edge_at gr q).middle = t := fun h => hd.1 (e0.trans h.symm)
          have e2 : ¬ (edge_at gr q).right = t := fun h => hd.2.1 (e0.trans h.symm)
          have e3 : cell s.g (edge_at gr q).left = 3 := by rw [e0]; exact hgt
          rw [if_pos e0, if_neg e1, if_neg e2]
          omega
        · subst h1
          have e0 : (edge_at gr q).middle = t := h2.symm
          have e1 : ¬ (edge_at gr q).left = t := fun h => hd.1 (h.trans e0.symm)
          have e2 : ¬ (edge_at gr q).right = t := fun h => hd.2.2 (e0.trans h.symm)
          have e3 : cell s.g (edge_at gr q).middle = 3 := by rw [e0]; exact hgt
          rw [if_neg e1, if_pos e0, if_neg e2]
          omega
        · subst h1
          have e0 : (edge_at gr q).right = t := h2.symm
          have e1 : ¬ (edge_at gr q).left = t := fun h => hd.2.1 (h.trans e0.symm)
          have e2 : ¬ (edge_at gr q).middle = t := fun h => hd.2.2 (h.trans e0.symm)
          have e3 : cell s.g (edge_at gr q).right = 3 := by rw [e0]; exact hgt
          rw [if_neg e1, if_neg e2, if_pos e0]
          omega
    · have hcount := holes_before_set s.g t val gr.v (by omega) hgt (by omega)
      have := hI.holes
      rw [if_pos htlt] at hcount
      omega

/-! ## The labeling loop -/

theorem holes_before_all (G : List Nat) (n : Nat) (h : ∀ k, k < n → cell G k = 3) :
    holes_before G n = n := by
  induction n with
  | zero => rfl
  | succ n ih =>
    simp only [holes_before]
    rw [ih (fun k hk => h k (by omega)), h n (by omega)]
    simp

theorem holes_before_le (G : List Nat) (n : Nat) : holes_before G n ≤ n := by
  induction n with
  | zero => simp [holes_before]
  | succ n ih =>
    simp only [holes_before]
    split_ifs <;> omega

theorem holes_before_mono (G : List Nat) {m n : Nat} (h : m ≤ n) :
    holes_before G m ≤ holes_before G n ∧ holes_before G n ≤ holes_before G m + (n - m) := by
  induction n with
  | zero =>
    have : m = 0 := by omega
    subst this
    simp
  | succ n ih =>
    rcases Nat.lt_or_ge m (n + 1) with hlt | hge
    · have ih := ih (by omega)
      simp only [holes_before]
      split_ifs <;> omega
    · have : m = n + 1 := by omega
      subst this
      simp

theorem labelled_add_holes (G : List Nat) (n : Nat) :
    labelled_before G n + holes_before G n = n := by
  induction n with
  | zero => rfl
  | succ n ih =>
    simp only [labelled_before, holes_before]
    split_ifs <;> omega

theorem label_inv_init (gr : graph3) (G : List Nat) (hlen : G.length = 4 * gr.v)
    (hG : ∀ k, cell G k = if k < gr.v then 3 else 0) :
    label_inv gr 0 (List.replicate gr.v 0) G where
  vis_len := by simp
  g_len := hlen
  vis_seen := fun x _ => by
    simp only [cell_replicate_zero]
    exact ⟨fun h => absurd rfl h, fun h => absurd h (not_seen_zero gr x)⟩
  vis_win := fun x _ h => by
    rw [cell_replicate_zero] at h
    omega
  win_vis := fun q hq => by omega
  g_hole := fun x hx _ => by rw [hG, if_pos hx]
  g_label := fun x _ h => by
    rw [cell_replicate_zero] at h
    omega
  g_pad := fun x hx => by rw [hG, if_neg (by omega)]
  law := fun q hq => by omega
  holes := by
    rw [holes_before_all G gr.v (fun k hk => by rw [hG, if_pos hk])]
    rfl

/-- The first `n` iterations of the labeling loop run without fault and establish the
loop invariant. -/
theorem label_loop_spec {gr : graph3} (hv : valid_graph gr) (s : state) (hs : s.graph = gr)
    (h0 : label_inv gr 0 s.visited s.g) (n : Nat) (hn : n ≤ gr.e) :
    ∃ vis G, label_loop s n = Except.ok { s with visited := vis, g := G } ∧
      label_inv gr n vis G := by
  induction n with
  | zero => exact ⟨s.visited, s.g, rfl, h0⟩
  | succ n ih =>
    obtain ⟨vis, G, hrun, hI⟩ := ih (by omega)
    obtain ⟨vis1, G1, hstep, hI1⟩ := label_step_spec hv (by omega : n < gr.e)
      { s with visited := vis, g := G } hs hI
    refine ⟨vis1, G1, ?_, hI1⟩
    unfold label_loop at hrun ⊢
    rw [foldlM_range_succ, hrun, bind_ok, hstep]

theorem label_state_spec {gr : graph3} (hv : valid_graph gr) (p : Nat) (hp : p ≤ gr.e) :
    ∃ vis G, label_state gr p = Except.ok { bdz_alloc gr with visited := vis, g := G } ∧
      label_inv gr p vis G := by
  obtain ⟨G0, hinit, hlen, hG0⟩ := init_g_alloc gr
  have h0 := label_inv_init gr G0 hlen hG0
  obtain ⟨vis, G, hrun, hI⟩ := label_loop_spec hv { bdz_alloc gr with g := G0 } rfl h0 p hp
  refine ⟨vis, G, ?_, hI⟩
  unfold label_state
  rw [hinit, bind_ok, hrun]

theorem assign_labels_eq (gr : graph3) :
    assign_labels (bdz_alloc gr) = label_state gr gr.e := by
  obtain ⟨G0, hinit, _, _⟩ := init_g_alloc gr
  unfold assign_labels label_state
  rw [hinit]
  rfl

/-- The code's choice in iteration `p` is the first endpoint that belongs to no earlier
edge. -/
theorem chosen_eq {gr : graph3} (hv : valid_graph gr) {p : Nat} (hp : p < gr.e) :
    chosen gr p = Except.ok (fresh_choice gr p) := by
  obtain ⟨vis, G, hrun, hI⟩ := label_state_spec hv p (by omega)
  unfold chosen
  rw [hrun, bind_ok]
  exact choose_vertex_spec hv hp hI

/-- Two vertices with the same `visited` entry of at least 2 are the same vertex. -/
theorem label_inv_vis_inj {gr : graph3} (hv : valid_graph gr) {p : Nat} (hp : p ≤ gr.e)
    {vis G : List Nat} (hI : label_inv gr p vis G) {x y : Nat} (hx : x < gr.v) (hy : y < gr.v)
    (h2 : 2 ≤ cell vis x) (h : cell vis x = cell vis y) : x = y := by
  obtain ⟨q, hq, hxq⟩ := hI.vis_win x hx h2
  obtain ⟨q1, hq1, hyq⟩ := hI.vis_win y hy (by omega)
  have e1 := hI.win_vis q hq
  have e2 := hI.win_vis q1 hq1
  rw [← hxq] at e1
  rw [← hyq] at e2
  have : q = q1 := order_inj hv (by omega) (by omega) (by omega)
  subst this
  rw [hxq, hyq]

/-! ## The pass over the vertices -/

theorem shr16 (n : Nat) : n >>> 16 = n / 65536 := by
  rw [Nat.shiftRight_eq_div_pow]

theorem shr8 (n : Nat) : n >>> 8 = n / 256 := by
  rw [Nat.shiftRight_eq_div_pow]

/-- Line 119-120 in iteration `n`. -/
theorem store64k_spec (G tbl : List Nat) (v n : Nat) (hn : n < v) (hv : v < 4294967296)
    (hlen : tbl.length = (v + 65535) / 65536 + 1)
    (hh : ∀ k, 65536 * k < n → cell tbl k = holes_before G (65536 * k))
    (hz : ∀ k, n ≤ 65536 * k → cell tbl k = 0) :
    ∃ t, (if n % 65536 = 0 then wr tbl (n >>> 16) (u32 (holes_before G n))
          else pure tbl) = Except.ok t ∧
      t.length = tbl.length ∧
      (∀ k, 65536 * k < n + 1 → cell t k = holes_before G (65536 * k)) ∧
      (∀ k, n + 1 ≤ 65536 * k → cell t k = 0) := by
  have hle := holes_before_le G n
  by_cases h0 : n % 65536 = 0
  · have hi : n / 65536 < tbl.length := by omega
    refine ⟨tbl.set (n / 65536) (holes_before G n), ?_, by simp, ?_, ?_⟩
    · rw [if_pos h0, shr16, wr_ok _ hi]
      congr 2
      unfold u32
      omega
    · intro k hk
      rw [cell_set _ _ _ _ hi]
      by_cases hkn : k = n / 65536
      · rw [if_pos hkn]
        congr 1
        omega
      · rw [if_neg hkn]
        exact hh k (by omega)
    · intro k hk
      rw [cell_set _ _ _ _ hi, if_neg (by omega)]
      exact hz k (by omega)
  · refine ⟨tbl, by rw [if_neg h0]; rfl, rfl, ?_, ?_⟩
    · intro k hk
      exact hh k (by omega)
    · intro k hk
      exact hz k (by omega)

/-- Line 122-123 in iteration `n`. -/
theorem store256_spec (G tbl t64 : List Nat) (v n : Nat) (hn : n < v) (hv : v < 4294967296)
    (hlen : tbl.length = (v + 255) / 256 + 1)
    (hlen64 : t64.length = (v + 65535) / 65536 + 1)
    (h64 : ∀ k, 65536 * k < n + 1 → cell t64 k = holes_before G (65536 * k))
    (hh : ∀ k, 256 * k < n →
      cell tbl k + holes_before G (65536 * (k / 256)) = holes_before G (256 * k))
    (hz : ∀ k, n ≤ 256 * k → cell tbl k = 0) :
    ∃ t, (if n % 256 = 0 then do
            let a ← rd t64 (n >>> 16)
            wr tbl (n >>> 8) (u16 (sub32 (holes_before G n) a))
          else pure tbl) = Except.ok t ∧
      t.length = tbl.length ∧
      (∀ k, 256 * k < n + 1 →
        cell t k + holes_before G (65536 * (k / 256)) = holes_before G (256 * k)) ∧
      (∀ k, n + 1 ≤ 256 * k → cell t k = 0) := by
  have hle := holes_before_le G n
  by_cases h0 : n % 256 = 0
  · have hi : n / 256 < tbl.length := by omega
    have hi64 : n / 65536 < t64.length := by omega
    have ha := h64 (n / 65536) (by omega)
    have hm := holes_before_mono G (show 65536 * (n / 65536) ≤ n by omega)
    refine ⟨tbl.set (n / 256) (holes_before G n - holes_before G (65536 * (n / 65536))),
      ?_, by simp, ?_, ?_⟩
    · rw [if_pos h0, shr16, shr8, rd_ok hi64, bind_ok, wr_ok _ hi, ha]
      congr 2
      unfold u16 sub32
      omega
    · intro k hk
      rw [cell_set _ _ _ _ hi]
      by_cases hkn : k = n / 256
      · rw [if_pos hkn]
        have e1 : 65536 * (k / 256) = 65536 * (n / 65536) := by omega
        have e2 : 256 * k = n := by omega
        rw [e1, e2]
        omega
      · rw [if_neg hkn]
        exact hh k (by omega)
    · intro k hk
      rw [cell_set _ _ _ _ hi, if_neg (by omega)]
      exact hz k (by omega)
  · refine ⟨tbl, by rw [if_neg h0]; rfl, rfl, ?_, ?_⟩
    · intro k hk
      exact hh k (by omega)
    · intro k hk
      exact hz k (by omega)

/-- Lines 125-132 in iteration `n`, for the offset `q` of the table. -/
theorem store_sub_spec (G tbl t256 t64 : List Nat) (v n q : Nat) (hn : n < v)
    (hv : v < 4294967296) (hq : q < 256)
    (hlen : tbl.length = (v + 255) / 256 + 1)
    (hlen256 : t256.length = (v + 255) / 256 + 1)
    (hlen64 : t64.length = (v + 65535) / 65536 + 1)
    (h64 : ∀ k, 65536 * k < n + 1 → cell t64 k = holes_before G (65536 * k))
    (h256 : ∀ k, 256 * k < n + 1 →
      cell t256 k + holes_before G (65536 * (k / 256)) = holes_before G (256 * k))
    (hh : ∀ k, 256 * k + q < n →
      cell tbl k + holes_before G (256 * k) = holes_before G (256 * k + q))
    (hz : ∀ k, n ≤ 256 * k + q → cell tbl k = 0) :
    ∃ t, (if n % 256 = q then do
            let b ← rd t256 (n >>> 8)
            let a ← rd t64 (n >>> 16)
            wr tbl (n >>> 8) (u8 (sub32 (sub32 (holes_before G n) b) a))
          else pure tbl) = Except.ok t ∧
      t.length = tbl.length ∧
      (∀ k, 256 * k + q < n + 1 →
        cell t k + holes_before G (256 * k) = holes_before G (256 * k + q)) ∧
      (∀ k, n + 1 ≤ 256 * k + q → cell t k = 0) := by
  have hle := holes_before_le G n
  by_cases h0 : n % 256 = q
  · have hi : n / 256 < tbl.length := by omega
    have hi256 : n / 256 < t256.length := by omega
    have hi64 : n / 65536 < t64.length := by omega
    have ha := h64 (n / 65536) (by omega)
    have hb := h256 (n / 256) (by omega)
    have e0 : 65536 * (n / 256 / 256) = 65536 * (n / 65536) := by omega
    rw [e0] at hb
    have hm := holes_before_mono G (show 65536 * (n / 65536) ≤ 256 * (n / 256) by omega)
    have hm2 := holes_before_mono G (show 256 * (n / 256) ≤ n by omega)
    refine ⟨tbl.set (n / 256) (holes_before G n - holes_before G (256 * (n / 256))),
      ?_, by simp, ?_, ?_⟩
    · rw [if_pos h0, shr16, shr8, rd_ok hi256, bind_ok, rd_ok hi64, bind_ok, wr_ok _ hi, ha]
      congr 2
      unfold u8 sub32
      omega
    · intro k hk
      rw [cell_set _ _ _ _ hi]
      by_cases hkn : k = n / 256
      · rw [if_pos hkn]
        have e2 : 256 * k + q = n := by omega
        have e3 : 256 * k = 256 * (n / 256) := by omega
        rw [e2, e3]
        omega
      · rw [if_neg hkn]
        exact hh k (by omega)
    · intro k hk
      rw [cell_set _ _ _ _ hi, if_neg (by omega)]
      exact hz k (by omega)
  · refine ⟨tbl, by rw [if_neg h0]; rfl, rfl, ?_, ?_⟩
    · intro k hk
      exact hh k (by omega)
    · intro k hk
      exact hz k (by omega)

/-- A `visited` entry of at least 2 is `2 + j` for an edge index `j`. -/
theorem label_inv_vis_bound {gr : graph3} (hv : valid_graph gr) {p : Nat} (hp : p ≤ gr.e)
    {vis G : List Nat} (hI : label_inv gr p vis G) {x : Nat} (hx : x < gr.v)
    (h2 : 2 ≤ cell vis x) : cell vis x - 2 < gr.e := by
  obtain ⟨q, hq, hxq⟩ := hI.vis_win x hx h2
  have e1 := hI.win_vis q hq
  rw [← hxq] at e1
  have := order_lt hv (by omega : q < gr.e)
  omega

/-- Lines 134-137 in iteration `n`. -/
theorem store_map_spec {gr : graph3} (hv : valid_graph gr) {vis G : List Nat}
    (hI : label_inv gr gr.e vis G) (rmap : List Nat) (n : Nat) (hn : n < gr.v)
    (hlen : rmap.length = gr.e)
    (hh : ∀ x, x < n → 2 ≤ cell vis x → cell rmap (cell vis x - 2) + holes_before G x = x) :
    ∃ t, (if cell vis n > 1 then wr rmap (sub32 (cell vis n) 2) (sub32 n (holes_before G n))
          else pure rmap) = Except.ok t ∧
      t.length = rmap.length ∧
      (∀ x, x < n + 1 → 2 ≤ cell vis x →
        cell t (cell vis x - 2) + holes_before G x = x) := by
  have hle := holes_before_le G n
  have hfit := hv.v_fits
  by_cases h1 : cell vis n > 1
  · have hb := label_inv_vis_bound hv (Nat.le_refl _) hI hn (by omega)
    have hEV := edges_add_two_le hv (by omega : 0 < gr.e)
    have hi : cell vis n - 2 < rmap.length := by omega
    refine ⟨rmap.set (cell vis n - 2) (n - holes_before G n), ?_, by simp, ?_⟩
    · rw [if_pos h1]
      have e1 : sub32 (cell vis n) 2 = cell vis n - 2 := by unfold sub32; omega
      have e2 : sub32 n (holes_before G n) = n - holes_before G n := by unfold sub32; omega
      rw [e1, e2, wr_ok _ hi]
    · intro x hx h2
      rw [cell_set _ _ _ _ hi]
      by_cases hxn : x = n
      · subst hxn
        rw [if_pos rfl]
        omega
      · have hne : cell vis x ≠ cell vis n := fun h =>
          hxn (label_inv_vis_inj hv (Nat.le_refl _) hI (by omega) hn h2 h)
        rw [if_neg (by omega)]
        exact hh x (by omega) h2
  · refine ⟨rmap, by rw [if_neg h1]; rfl, rfl, ?_⟩
    intro x hx h2
    by_cases hxn : x = n
    · subst hxn; omega
    · exact hh x (by omega) h2

set_option maxHeartbeats 1000000 in
/-- One iteration of the pass of lines 118-141 runs without fault and re-establishes its
invariant. -/
theorem rank_step_spec {gr : graph3} (hv : valid_graph gr) {vis G : List Nat}
    (hI : label_inv gr gr.e vis G) (n : Nat) (hn : n < gr.v) (s : state) (holes : Nat)
    (hR : rank_inv gr vis G n s holes) :
    ∃ s1 h1, rank_step (s, holes) n = Except.ok (s1, h1) ∧ rank_inv gr vis G (n + 1) s1 h1 := by
  have hfit := hv.v_fits
  have hV : gr.v < 4294967296 := by omega
  have hh := hR.holes_eq
  subst hh
  obtain ⟨t64, hA, lA, pA, zA⟩ := store64k_spec G s.holes64k gr.v n hn hV hR.len64k hR.h64k hR.z64k
  obtain ⟨t256, hB, lB, pB, zB⟩ := store256_spec G s.holes256 t64 gr.v n hn hV hR.len256
    (by rw [lA]; exact hR.len64k) pA hR.h256 hR.z256
  obtain ⟨u64, hC1, lC1, pC1, zC1⟩ := store_sub_spec G s.holes256_64 t256 t64 gr.v n 64 hn hV
    (by omega) hR.len256_64 (by rw [lB]; exact hR.len256) (by rw [lA]; exact hR.len64k)
    pA pB hR.h256_64 hR.z256_64
  obtain ⟨u128, hC2, lC2, pC2, zC2⟩ := store_sub_spec G s.holes256_128 t256 t64 gr.v n 128 hn hV
    (by omega) hR.len256_128 (by rw [lB]; exact hR.len256) (by rw [lA]; exact hR.len64k)
    pA pB hR.h256_128 hR.z256_128
  obtain ⟨u192, hC3, lC3, pC3, zC3⟩ := store_sub_spec G s.holes256_192 t256 t64 gr.v n 192 hn hV
    (by omega) hR.len256_192 (by rw [lB]; exact hR.len256) (by rw [lA]; exact hR.len64k)
    pA pB hR.h256_192 hR.z256_192
  obtain ⟨rm, hD, lD, pD⟩ := store_map_spec hv hI s.result_map n hn hR.len_map hR.rmap
  have hvl : n < s.visited.length := by rw [hR.vis_eq, hI.vis_len]; exact hn
  have hgl : n < s.g.length := by rw [hR.g_eq, hI.g_len]; omega
  have hle := holes_before_le G n
  refine ⟨{ s with holes64k := t64, holes256 := t256, holes256_64 := u64,
                   holes256_128 := u128, holes256_192 := u192, result_map := rm },
    holes_before G (n + 1), ?_, ?_⟩
  · unfold rank_step
    simp only [hA, bind_ok, hB, hC1, hC2, hC3, rd_ok hvl, rd_ok hgl]
    rw [hR.vis_eq, hR.g_eq, hD, bind_ok, pure_eq_ok]
    congr 2
    simp only [holes_before]
    by_cases h3 : cell G n = 3
    · rw [if_pos h3, if_pos h3]
      unfold add32
      omega
    · rw [if_neg h3, if_neg h3]
      rfl
  · exact
      { graph_eq := hR.graph_eq
        vis_eq := hR.vis_eq
        g_eq := hR.g_eq
        len64k := by rw [← hR.len64k]; exact lA
        len256 := by rw [← hR.len256]; exact lB
        len256_64 := by rw [← hR.len256_64]; exact lC1
        len256_128 := by rw [← hR.len256_128]; exact lC2
        len256_192 := by rw [← hR.len256_192]; exact lC3
        len_map := by rw [← hR.len_map]; exact lD
        holes_eq := rfl
        h64k := pA
        h256 := pB
        h256_64 := pC1
        h256_128 := pC2
        h256_192 := pC3
        z64k := zA
        z256 := zB
        z256_64 := zC1
        z256_128 := zC2
        z256_192 := zC3
        rmap := pD }

theorem rank_inv_init {gr : graph3} (hv : valid_graph gr) (vis G : List Nat) :
    rank_inv gr vis G 0 { bdz_alloc gr with visited := vis, g := G } 0 := by
  have hfit := hv.v_fits
  have e1 : u32 (u32 (gr.v + 65535) / 65536 + 1) = (gr.v + 65535) / 65536 + 1 := by
    unfold u32; omega
  have e2 : u32 (u32 (gr.v + 255) / 256 + 1) = (gr.v + 255) / 256 + 1 := by
    unfold u32; omega
  exact
    { graph_eq := rfl
      vis_eq := rfl
      g_eq := rfl
      len64k := by simp [bdz_alloc, e1]
      len256 := by simp [bdz_alloc, e2]
      len256_64 := by simp [bdz_alloc, e2]
      len256_128 := by simp [bdz_alloc, e2]
      len256_192 := by simp [bdz_alloc, e2]
      len_map := by simp [bdz_alloc]
      holes_eq := rfl
      h64k := fun k hk => by omega
      h256 := fun k hk => by omega
      h256_64 := fun k hk => by omega
      h256_128 := fun k hk => by omega
      h256_192 := fun k hk => by omega
      z64k := fun k _ => cell_replicate_zero _ _
      z256 := fun k _ => cell_replicate_zero _ _
      z256_64 := fun k _ => cell_replicate_zero _ _
      z256_128 := fun k _ => cell_replicate_zero _ _
      z256_192 := fun k _ => cell_replicate_zero _ _
      rmap := fun x hx => by omega }

/-- The first `n` iterations of the pass of lines 118-141 run without fault and establish
its invariant. -/
theorem rank_loop_spec {gr : graph3} (hv : valid_graph gr) {vis G : List Nat}
    (hI : label_inv gr gr.e vis G) (n : Nat) (hn : n ≤ gr.v) :
    ∃ s1 h1, rank_loop { bdz_alloc gr with visited := vis, g := G } n = Except.ok (s1, h1) ∧
      rank_inv gr vis G n s1 h1 := by
  induction n with
  | zero => exact ⟨_, _, rfl, rank_inv_init hv vis G⟩
  | succ n ih =>
    obtain ⟨s1, h1, hrun, hR⟩ := ih (by omega)
    obtain ⟨s2, h2, hstep, hR2⟩ := rank_step_spec hv hI n (by omega) s1 h1 hR
    refine ⟨s2, h2, ?_, hR2⟩
    unfold rank_loop at hrun ⊢
    rw [foldlM_range_succ, hrun, bind_ok, hstep]

/-- Lines 86-141 of `assign_nodes` run without fault on every valid graph. -/
theorem assign_main_spec {gr : graph3} (hv : valid_graph gr) :
    ∃ vis G s h, assign_labels (bdz_alloc gr) =
        Except.ok { bdz_alloc gr with visited := vis, g := G } ∧
      label_inv gr gr.e vis G ∧
      assign_main (bdz_alloc gr) = Except.ok (s, h) ∧
      rank_inv gr vis G gr.v s h := by
  obtain ⟨vis, G, hlab, hI⟩ := label_state_spec hv gr.e (Nat.le_refl _)
  obtain ⟨s, h, hrun, hR⟩ := rank_loop_spec hv hI gr.v (Nat.le_refl _)
  refine ⟨vis, G, s, h, by rw [assign_labels_eq]; exact hlab, hI, ?_, hR⟩
  unfold assign_main
  rw [assign_labels_eq, hlab, bind_ok]
  exact hrun

/-! ## The writes after the loop -/

theorem bind_eq_ok {α β : Type} {m : Except Fault α} {f : α → Except Fault β} {b : β}
    (h : (m >>= f) = Except.ok b) : ∃ a, m = Except.ok a ∧ f a = Except.ok b := by
  cases m with
  | error e => exact absurd h (by simp)
  | ok a => exact ⟨a, rfl, h⟩

theorem wr_frame {a b : List Nat} {i x : Nat} (h : wr a i x = Except.ok b) :
    b.length = a.length ∧ ∀ k, k ≠ i → cell b k = cell a k := by
  unfold wr at h
  by_cases hi : i < a.length
  · rw [if_pos hi] at h
    cases h
    exact ⟨by simp, fun k hk => by rw [cell_set _ _ _ _ hi, if_neg hk]⟩
  · rw [if_neg hi] at h
    cases h

theorem cond_wr_frame {c : Prop} [Decidable c] {tbl t : List Nat} {m : Except Fault (List Nat)}
    {i : Nat} (hm : ∀ b, m = Except.ok b → b.length = tbl.length ∧ ∀ k, k ≠ i → cell b k = cell tbl k)
    (h : (if c then m else pure tbl) = Except.ok t) :
    t.length = tbl.length ∧ ∀ k, k ≠ i → cell t k = cell tbl k := by
  by_cases hc : c
  · rw [if_pos hc] at h
    exact hm t h
  · rw [if_neg hc] at h
    cases h
    exact ⟨rfl, fun _ _ => rfl⟩

/-- The writes of lines 143-156 change no array but the five summaries, and in these only
the entry one past the last block. -/
theorem trailing_writes_frame {s s1 : state} {i holes : Nat}
    (h : trailing_writes s i holes = Except.ok s1) :
    s1.graph = s.graph ∧ s1.visited = s.visited ∧ s1.g = s.g ∧ s1.result_map = s.result_map ∧
    (∀ k, k ≠ (i >>> 16) + 1 → cell s1.holes64k k = cell s.holes64k k) ∧
    (∀ k, k ≠ (i >>> 8) + 1 → cell s1.holes256 k = cell s.holes256 k) ∧
    (∀ k, k ≠ (i >>> 8) + 1 → cell s1.holes256_64 k = cell s.holes256_64 k) ∧
    (∀ k, k ≠ (i >>> 8) + 1 → cell s1.holes256_128 k = cell s.holes256_128 k) ∧
    (∀ k, k ≠ (i >>> 8) + 1 → cell s1.holes256_192 k = cell s.holes256_192 k) := by
  unfold trailing_writes at h
  obtain ⟨t64, h1, h⟩ := bind_eq_ok h
  obtain ⟨t256, h2, h⟩ := bind_eq_ok h
  obtain ⟨u64, h3, h⟩ := bind_eq_ok h
  obtain ⟨u128, h4, h⟩ := bind_eq_ok h
  obtain ⟨u192, h5, h⟩ := bind_eq_ok h
  cases h
  have f1 := cond_wr_frame (fun b hb => wr_frame hb) h1
  have f2 := cond_wr_frame (fun b hb => by
    obtain ⟨a, _, hw⟩ := bind_eq_ok hb
    exact wr_frame hw) h2
  have sub : ∀ (tbl t : List Nat) (c : Prop) [Decidable c],
      (if c then do
          let b ← rd t256 ((i >>> 8) + 1)
          let a ← rd t64 (((i >>> 8) + 1) >>> 8)
          wr tbl ((i >>> 8) + 1) (u8 (sub32 (sub32 holes b) a))
        else pure tbl) = Except.ok t →
      t.length = tbl.length ∧ ∀ k, k ≠ (i >>> 8) + 1 → cell t k = cell tbl k := by
    intro tbl t c _ ht
    exact cond_wr_frame (fun b hb => by
      obtain ⟨_, _, hb⟩ := bind_eq_ok hb
      obtain ⟨_, _, hw⟩ := bind_eq_ok hb
      exact wr_frame hw) ht
  exact ⟨rfl, rfl, rfl, rfl, f1.2, f2.2, (sub _ _ _ h3).2, (sub _ _ _ h4).2, (sub _ _ _ h5).2⟩

/-- The writes of lines 143-156 stay inside the allocations when `v` is not a multiple of
256. -/
theorem trailing_writes_ok (s : state) (v holes : Nat) (hv : v % 256 ≠ 0)
    (l1 : s.holes64k.length = (v + 65535) / 65536 + 1)
    (l2 : s.holes256.length = (v + 255) / 256 + 1)
    (l3 : s.holes256_64.length = (v + 255) / 256 + 1)
    (l4 : s.holes256_128.length = (v + 255) / 256 + 1)
    (l5 : s.holes256_192.length = (v + 255) / 256 + 1) :
    ∃ s1, trailing_writes s v holes = Except.ok s1 := by
  have hA : ∃ t64, (if v % 65536 ≠ 0 then wr s.holes64k ((v >>> 16) + 1) (u32 holes)
      else pure s.holes64k) = Except.ok t64 ∧ t64.length = s.holes64k.length := by
    by_cases h : v % 65536 ≠ 0
    · rw [if_pos h, shr16, wr_ok _ (by omega)]
      exact ⟨_, rfl, by simp⟩
    · rw [if_neg h]
      exact ⟨_, rfl, rfl⟩
  obtain ⟨t64, hA, lA⟩ := hA
  have i64 : (v / 256 + 1) / 256 < t64.length := by omega
  have hB : ∃ t256, (if v % 256 ≠ 0 then do
        let a ← rd t64 (((v >>> 8) + 1) >>> 8)
        wr s.holes256 ((v >>> 8) + 1) (u16 (sub32 holes a))
      else pure s.holes256) = Except.ok t256 ∧ t256.length = s.holes256.length := by
    rw [if_pos hv, shr8, shr8, rd_ok i64, bind_ok, wr_ok _ (by omega)]
    exact ⟨_, rfl, by simp⟩
  obtain ⟨t256, hB, lB⟩ := hB
  have sub : ∀ (tbl : List Nat) (c : Prop) [Decidable c], tbl.length = (v + 255) / 256 + 1 →
      ∃ t, (if c then do
          let b ← rd t256 ((v >>> 8) + 1)
          let a ← rd t64 (((v >>> 8) + 1) >>> 8)
          wr tbl ((v >>> 8) + 1) (u8 (sub32 (sub32 holes b) a))
        else pure tbl) = Except.ok t := by
    intro tbl c _ hl
    by_cases h : c
    · rw [if_pos h, shr8, shr8, rd_ok (by omega : v / 256 + 1 < t256.length), bind_ok,
        rd_ok i64, bind_ok, wr_ok _ (by omega)]
      exact ⟨_, rfl⟩
    · rw [if_neg h]
      exact ⟨_, rfl⟩
  obtain ⟨u64, hC1⟩ := sub s.holes256_64 (v % 256 ≠ 64) l3
  obtain ⟨u128, hC2⟩ := sub s.holes256_128 (v % 256 ≠ 128) l4
  obtain ⟨u192, hC3⟩ := sub s.holes256_192 (v % 256 ≠ 192) l5
  refine ⟨{ s with holes64k := t64, holes256 := t256, holes256_64 := u64,
                   holes256_128 := u128, holes256_192 := u192 }, ?_⟩
  unfold trailing_writes
  simp only [hA, bind_ok, hB, hC1, hC2, hC3]
  rfl

/-- The state after `assign_nodes` agrees with the state after lines 86-141 except for
the summary entries one past the last block. -/
theorem assign_nodes_frame {gr : graph3} {s : state} {h : Nat} {s1 : state}
    (hm : assign_main (bdz_alloc gr) = Except.ok (s, h)) (hg : s.graph = gr)
    (hn : assign_nodes (bdz_alloc gr) = Except.ok s1) :
    s1.graph = gr ∧ s1.visited = s.visited ∧ s1.g = s.g ∧ s1.result_map = s.result_map ∧
    (∀ k, k ≠ (gr.v >>> 16) + 1 → cell s1.holes64k k = cell s.holes64k k) ∧
    (∀ k, k ≠ (gr.v >>> 8) + 1 → cell s1.holes256 k = cell s.holes256 k) ∧
    (∀ k, k ≠ (gr.v >>> 8) + 1 → cell s1.holes256_64 k = cell s.holes256_64 k) ∧
    (∀ k, k ≠ (gr.v >>> 8) + 1 → cell s1.holes256_128 k = cell s.holes256_128 k) ∧
    (∀ k, k ≠ (gr.v >>> 8) + 1 → cell s1.holes256_192 k = cell s.holes256_192 k) := by
  unfold assign_nodes at hn
  rw [hm, bind_ok] at hn
  simp only [hg] at hn
  have := trailing_writes_frame hn
  rw [hg] at this
  exact this

/-- On a valid graph `assign_nodes` runs without fault when `v` is not a multiple of
256. -/
theorem assign_nodes_ok {gr : graph3} (hv : valid_graph gr) (h256 : gr.v % 256 ≠ 0) :
    ∃ s, assign_nodes (bdz_alloc gr) = Except.ok s := by
  obtain ⟨vis, G, s, h, _, _, hm, hR⟩ := assign_main_spec hv
  obtain ⟨s1, h1⟩ := trailing_writes_ok s gr.v h h256 hR.len64k hR.len256 hR.len256_64
    hR.len256_128 hR.len256_192
  refine ⟨s1, ?_⟩
  unfold assign_nodes
  rw [hm, bind_ok]
  simp only [hR.graph_eq]
  exact h1

/-! ## The map of ranks -/

theorem mapM_rd_range (l : List Nat) (n : Nat) (hn : n ≤ l.length) :
    (List.range n).mapM (fun i => rd l i) = Except.ok (l.take n) := by
  induction n with
  | zero => rfl
  | succ n ih =>
    rw [List.range_succ, List.mapM_append, ih (by omega)]
    simp only [bind_ok, List.mapM_cons, List.mapM_nil, rd_ok (show n < l.length by omega),
      pure_eq_ok]
    congr 1
    rw [List.take_succ]
    simp [cell, List.getD_eq_getElem?_getD, List.getElem?_eq_getElem (show n < l.length by omega)]

theorem print_map_eq (s : state) (h : s.result_map.length = s.graph.e) :
    print_map s = Except.ok s.result_map := by
  unfold print_map
  rw [mapM_rd_range _ _ (by omega), ← h, List.take_length]

theorem perm_range_of_nodup (l : List Nat) (n : Nat) (hl : l.length = n)
    (hlt : ∀ x ∈ l, x < n) (hnd : l.Nodup) : l.Perm (List.range n) := by
  apply List.perm_of_nodup_nodup_toFinset_eq hnd (List.nodup_range n)
  apply Finset.eq_of_subset_of_card_le
  · intro x hx
    simp only [List.mem_toFinset, List.mem_range] at hx ⊢
    exact hlt x hx
  · rw [List.toFinset_card_of_nodup hnd, List.toFinset_card_of_nodup (List.nodup_range n)]
    simp [hl]

theorem cell_eq_getElem (l : List Nat) (i : Nat) (h : i < l.length) : cell l i = l[i] := by
  unfold cell
  exact List.getD_eq_getElem _ _ h

theorem labelled_mono (G : List Nat) {m n : Nat} (h : m ≤ n) :
    labelled_before G m ≤ labelled_before G n := by
  induction n with
  | zero =>
    have : m = 0 := by omega
    subst this
    exact Nat.le_refl _
  | succ n ih =>
    rcases Nat.lt_or_ge m (n + 1) with hlt | hge
    · have ih := ih (by omega)
      simp only [labelled_before]
      omega
    · have : m = n + 1 := by omega
      subst this
      exact Nat.le_refl _

theorem labelled_strict (G : List Nat) {t n : Nat} (h : t < n) (ht : cell G t ≠ 3) :
    labelled_before G t < labelled_before G n := by
  have h1 : labelled_before G (t + 1) = labelled_before G t + 1 := by
    simp [labelled_before, ht]
  have h2 := labelled_mono G (show t + 1 ≤ n by omega)
  omega

/-- What the state after lines 86-141 records for the edge with index `j`: the vertex
chosen for it is labelled, and `result_map[j]` is its rank. -/
theorem edge_facts {gr : graph3} (hv : valid_graph gr) {vis G : List Nat} {s : state} {h : Nat}
    (hI : label_inv gr gr.e vis G) (hR : rank_inv gr vis G gr.v s h) {j : Nat} (hj : j < gr.e) :
    ∃ p, p < gr.e ∧ cell gr.output_order p = j ∧ (fresh_choice gr p).2 < gr.v ∧
      cell G (fresh_choice gr p).2 < 3 ∧
      cell s.result_map j + holes_before G (fresh_choice gr p).2 = (fresh_choice gr p).2 := by
  obtain ⟨p, hp, hpj⟩ := order_surj hv hj
  have htlt := fresh_choice_lt hv hp
  have hw := hI.win_vis p hp
  have hr := hR.rmap _ htlt (by omega)
  rw [hw, hpj] at hr
  have e : 2 + j - 2 = j := by omega
  rw [e] at hr
  exact ⟨p, hp, hpj, htlt, hI.g_label _ htlt (by omega), hr⟩

theorem total_labelled {gr : graph3} {vis G : List Nat} (hI : label_inv gr gr.e vis G) :
    labelled_before G gr.v = gr.e := by
  have h1 := labelled_add_holes G gr.v
  have h2 := hI.holes
  omega

theorem result_map_lt {gr : graph3} (hv : valid_graph gr) {vis G : List Nat} {s : state}
    {h : Nat} (hI : label_inv gr gr.e vis G) (hR : rank_inv gr vis G gr.v s h) {j : Nat}
    (hj : j < gr.e) : cell s.result_map j < gr.e := by
  obtain ⟨p, _, _, htlt, hlab, hr⟩ := edge_facts hv hI hR hj
  have h1 := labelled_add_holes G (fresh_choice gr p).2
  have h2 := labelled_strict G htlt (show cell G (fresh_choice gr p).2 ≠ 3 by omega)
  have h3 := total_labelled hI
  omega

theorem result_map_inj {gr : graph3} (hv : valid_graph gr) {vis G : List Nat} {s : state}
    {h : Nat} (hI : label_inv gr gr.e vis G) (hR : rank_inv gr vis G gr.v s h) {j k : Nat}
    (hj : j < gr.e) (hk : k < gr.e) (heq : cell s.result_map j = cell s.result_map k) :
    j = k := by
  obtain ⟨p, hp, hpj, hplt, hplab, hpr⟩ := edge_facts hv hI hR hj
  obtain ⟨q, hq, hqk, hqlt, hqlab, hqr⟩ := edge_facts hv hI hR hk
  have h1 := labelled_add_holes G (fresh_choice gr p).2
  have h2 := labelled_add_holes G (fresh_choice gr q).2
  have hl : labelled_before G (fresh_choice gr p).2 = labelled_before G (fresh_choice gr q).2 := by
    omega
  have ht : (fresh_choice gr p).2 = (fresh_choice gr q).2 := by
    by_contra hne
    rcases Nat.lt_or_gt_of_ne hne with hlt | hlt
    · have := labelled_strict G hlt (show cell G (fresh_choice gr p).2 ≠ 3 by omega)
      omega
    · have := labelled_strict G hlt (show cell G (fresh_choice gr q).2 ≠ 3 by omega)
      omega
  have hpq := fresh_choice_inj hv hp hq ht
  subst hpq
  rw [← hpj, ← hqk]

theorem result_map_nodup {gr : graph3} (hv : valid_graph gr) {vis G : List Nat} {s : state}
    {h : Nat} (hI : label_inv gr gr.e vis G) (hR : rank_inv gr vis G gr.v s h) :
    s.result_map.Nodup := by
  rw [List.nodup_iff_injective_get]
  intro a b hab
  have ha := a.isLt
  have hb := b.isLt
  have hlen := hR.len_map
  apply Fin.ext
  apply result_map_inj hv hI hR (by omega) (by omega)
  rw [cell_eq_getElem _ _ ha, cell_eq_getElem _ _ hb]
  exact hab

theorem result_map_mem_lt {gr : graph3} (hv : valid_graph gr) {vis G : List Nat} {s : state}
    {h : Nat} (hI : label_inv gr gr.e vis G) (hR : rank_inv gr vis G gr.v s h) :
    ∀ x ∈ s.result_map, x < gr.e := by
  intro x hx
  obtain ⟨i, hi, hix⟩ := List.getElem_of_mem hx
  have hlen := hR.len_map
  have := result_map_lt hv hI hR (show i < gr.e by omega)
  rw [cell_eq_getElem _ _ hi, hix] at this
  exact this

/-! ## The properties of the labels -/

/-- Everything the later proofs use about a run of `assign_nodes` on a valid graph: the
labels after lines 86-115, the state after lines 86-141, both with their invariants, and
the fields in which a final state of `assign_nodes` agrees with them. -/
theorem after_main {gr : graph3} (hv : valid_graph gr) :
    ∃ vis G s2 h,
      assign_labels (bdz_alloc gr) = Except.ok { bdz_alloc gr with visited := vis, g := G } ∧
      label_inv gr gr.e vis G ∧
      assign_main (bdz_alloc gr) = Except.ok (s2, h) ∧
      rank_inv gr vis G gr.v s2 h ∧
      ∀ s, (s = s2 ∨ assign_nodes (bdz_alloc gr) = Except.ok s) →
        s.graph = gr ∧ s.visited = vis ∧ s.g = G ∧ s.result_map = s2.result_map ∧
        (∀ k, k ≤ gr.v / 65536 → cell s.holes64k k = cell s2.holes64k k) ∧
        (∀ k, k ≤ gr.v / 256 → cell s.holes256 k = cell s2.holes256 k) ∧
        (∀ k, k ≤ gr.v / 256 → cell s.holes256_64 k = cell s2.holes256_64 k) ∧
        (∀ k, k ≤ gr.v / 256 → cell s.holes256_128 k = cell s2.holes256_128 k) ∧
        (∀ k, k ≤ gr.v / 256 → cell s.holes256_192 k = cell s2.holes256_192 k) := by
  obtain ⟨vis, G, s2, h, hlab, hI, hm, hR⟩ := assign_main_spec hv
  refine ⟨vis, G, s2, h, hlab, hI, hm, hR, ?_⟩
  rintro s (rfl | hn)
  · exact ⟨hR.graph_eq, hR.vis_eq, hR.g_eq, rfl, fun _ _ => rfl, fun _ _ => rfl,
      fun _ _ => rfl, fun _ _ => rfl, fun _ _ => rfl⟩
  · obtain ⟨f1, f2, f3, f4, f5, f6, f7, f8, f9⟩ := assign_nodes_frame hm hR.graph_eq hn
    rw [shr16] at f5
    rw [shr8] at f6 f7 f8 f9
    exact ⟨f1, f2.trans hR.vis_eq, f3.trans hR.g_eq, f4,
      fun k hk => f5 k (by omega), fun k hk => f6 k (by omega), fun k hk => f7 k (by omega),
      fun k hk => f8 k (by omega), fun k hk => f9 k (by omega)⟩

/-- The label array of a final state of `assign_nodes` is the one lines 86-115 built. -/
theorem labels_final {gr : graph3} (hv : valid_graph gr) :
    ∃ vis G, assign_labels (bdz_alloc gr) =
        Except.ok { bdz_alloc gr with visited := vis, g := G } ∧
      label_inv gr gr.e vis G ∧
      ∀ s, (s = { bdz_alloc gr with visited := vis, g := G } ∨
          assign_nodes (bdz_alloc gr) = Except.ok s) → s.g = G ∧ s.graph = gr := by
  obtain ⟨vis, G, s2, h, hlab, hI, _, _, hfin⟩ := after_main hv
  refine ⟨vis, G, hlab, hI, ?_⟩
  rintro s (rfl | hn)
  · exact ⟨rfl, rfl⟩
  · have := hfin s (Or.inr hn)
    exact ⟨this.2.2.1, this.1⟩

theorem sample_graph_valid : valid_graph sample_graph where
  v_fits := by decide
  edges_len := by decide
  in_range := by decide
  distinct := by decide
  order_perm := by decide
  peel := by decide

/-- Claim C3 (label-sum law).  On every valid graph lines 86-115 of `assign_nodes` run without
fault and `assign_nodes` as a whole does when `v` is not a multiple of 256; in the label
array they build, which is the one of every final state of `assign_nodes`, each edge `j`
satisfies: with `p` the iteration that walks it and `(r, t)` the position and vertex the
code chooses there, `t` is the endpoint at position `r`, `g[t]` was 3 just before the
iteration, ends in {0,1,2}, and `(g[left] + g[middle] + g[right]) mod 3 = r`. -/
theorem label_sum_law (gr : graph3) (hv : valid_graph gr) :
    ∃ s1, assign_labels (bdz_alloc gr) = Except.ok s1 ∧
      (gr.v % 256 ≠ 0 → ∃ s, assign_nodes (bdz_alloc gr) = Except.ok s) ∧
      ∀ s, (s = s1 ∨ assign_nodes (bdz_alloc gr) = Except.ok s) →
        ∀ j, j < gr.e → ∃ p sp r t,
          p < gr.e ∧ cell gr.output_order p = j ∧
          label_state gr p = Except.ok sp ∧
          choose_vertex sp.visited (edge_at gr p) = Except.ok (r, t) ∧
          (endpoints (edge_at gr p))[r]? = some t ∧
          cell sp.g t = 3 ∧
          cell s.g t < 3 ∧
          (cell s.g (edge_at gr p).left + cell s.g (edge_at gr p).middle
            + cell s.g (edge_at gr p).right) % 3 = r := by
  obtain ⟨vis, G, hlab, hI, hfin⟩ := labels_final hv
  refine ⟨_, hlab, assign_nodes_ok hv, ?_⟩
  intro s hs j hj
  obtain ⟨hg, _⟩ := hfin s hs
  obtain ⟨p, hp, hpj⟩ := order_surj hv hj
  obtain ⟨visp, Gp, hsp, hIp⟩ := label_state_spec hv p (by omega)
  have hspec := fresh_choice_spec hv hp
  have htlt := fresh_choice_lt hv hp
  refine ⟨p, _, (fresh_choice gr p).1, (fresh_choice gr p).2, hp, hpj, hsp,
    choose_vertex_spec hv hp hIp, ?_, ?_, ?_, ?_⟩
  · rcases hspec.2 with ⟨h1, h2⟩ | ⟨h1, h2, _⟩ | ⟨h1, h2, _⟩ <;> rw [h1, h2] <;> rfl
  · apply hIp.g_hole _ htlt
    have : cell visp (fresh_choice gr p).2 = 0 := by
      by_contra h
      exact hspec.1 ((hIp.vis_seen _ htlt).1 h)
    show cell visp (fresh_choice gr p).2 ≤ 1
    omega
  · rw [hg]
    exact hI.g_label _ htlt (by rw [hI.win_vis p hp]; omega)
  · rw [hg]
    exact hI.law p hp

theorem label_sum_law_witness :
    valid_graph sample_graph ∧
    ∃ s1, assign_labels (bdz_alloc sample_graph) = Except.ok s1 ∧
      (sample_graph.v % 256 ≠ 0 → ∃ s, assign_nodes (bdz_alloc sample_graph) = Except.ok s) ∧
      ∀ s, (s = s1 ∨ assign_nodes (bdz_alloc sample_graph) = Except.ok s) →
        ∀ j, j < sample_graph.e → ∃ p sp r t,
          p < sample_graph.e ∧ cell sample_graph.output_order p = j ∧
          label_state sample_graph p = Except.ok sp ∧
          choose_vertex sp.visited (edge_at sample_graph p) = Except.ok (r, t) ∧
          (endpoints (edge_at sample_graph p))[r]? = some t ∧
          cell sp.g t = 3 ∧
          cell s.g t < 3 ∧
          (cell s.g (edge_at sample_graph p).left + cell s.g (edge_at sample_graph p).middle
            + cell s.g (edge_at sample_graph p).right) % 3 = r :=
  ⟨sample_graph_valid, label_sum_law sample_graph sample_graph_valid⟩

/-- Claim C4 (hole count).  In the label array built by lines 86-115 on a valid graph, which is
the one of every final state of `assign_nodes`, exactly `v - e` of the entries below `v`
are 3, and `g[x] = 3` holds exactly for the vertices `x` that no iteration of the
labeling loop chooses. -/
theorem hole_count (gr : graph3) (hv : valid_graph gr) :
    ∃ s1, assign_labels (bdz_alloc gr) = Except.ok s1 ∧
      (gr.v % 256 ≠ 0 → ∃ s, assign_nodes (bdz_alloc gr) = Except.ok s) ∧
      ∀ s, (s = s1 ∨ assign_nodes (bdz_alloc gr) = Except.ok s) →
        holes_before s.g gr.v = gr.v - gr.e ∧
        ∀ x, x < gr.v →
          (cell s.g x = 3 ↔ ∀ p, p < gr.e → ∀ r, chosen gr p ≠ Except.ok (r, x)) := by
  obtain ⟨vis, G, hlab, hI, hfin⟩ := labels_final hv
  refine ⟨_, hlab, assign_nodes_ok hv, ?_⟩
  intro s hs
  obtain ⟨hg, _⟩ := hfin s hs
  rw [hg]
  refine ⟨by have := hI.holes; omega, ?_⟩
  intro x hx
  constructor
  · intro h3 p hp r hc
    rw [chosen_eq hv hp] at hc
    have hx2 : (fresh_choice gr p).2 = x := by
      have := congrArg Prod.snd (Except.ok.inj hc)
      exact this
    have := hI.g_label x hx (by rw [← hx2, hI.win_vis p hp]; omega)
    omega
  · intro hall
    by_contra h3
    have h2 : 2 ≤ cell vis x := by
      by_contra hle
      exact h3 (hI.g_hole x hx (by omega))
    obtain ⟨q, hq, hxq⟩ := hI.vis_win x hx h2
    apply hall q hq (fresh_choice gr q).1
    rw [chosen_eq hv hq, hxq]

theorem hole_count_witness :
    valid_graph sample_graph ∧
    ∃ s1, assign_labels (bdz_alloc sample_graph) = Except.ok s1 ∧
      (sample_graph.v % 256 ≠ 0 → ∃ s, assign_nodes (bdz_alloc sample_graph) = Except.ok s) ∧
      ∀ s, (s = s1 ∨ assign_nodes (bdz_alloc sample_graph) = Except.ok s) →
        holes_before s.g sample_graph.v = sample_graph.v - sample_graph.e ∧
        ∀ x, x < sample_graph.v →
          (cell s.g x = 3 ↔
            ∀ p, p < sample_graph.e → ∀ r, chosen sample_graph p ≠ Except.ok (r, x)) :=
  ⟨sample_graph_valid, hole_count sample_graph sample_graph_valid⟩

/-! ## The properties of the rank index and of the map -/

/-- Claim C5 (permutation map).  On every valid graph lines 86-141 of `assign_nodes` run
without fault; in the state they reach and in every final state of `assign_nodes` the map
output written by `print_hash` is `result_map[0..e)`, and this list has `e` entries, all
below `e`, no two equal: it is a permutation of `0, ..., e-1`. -/
theorem result_map_permutation (gr : graph3) (hv : valid_graph gr) :
    ∃ s2 h, assign_main (bdz_alloc gr) = Except.ok (s2, h) ∧
      (gr.v % 256 ≠ 0 → ∃ s, assign_nodes (bdz_alloc gr) = Except.ok s) ∧
      ∀ s, (s = s2 ∨ assign_nodes (bdz_alloc gr) = Except.ok s) →
        print_map s = Except.ok s.result_map ∧
        s.result_map.length = gr.e ∧
        (∀ x ∈ s.result_map, x < gr.e) ∧
        s.result_map.Nodup ∧
        s.result_map.Perm (List.range gr.e) := by
  obtain ⟨vis, G, s2, h, _, hI, hm, hR, hfin⟩ := after_main hv
  refine ⟨s2, h, hm, assign_nodes_ok hv, ?_⟩
  intro s hs
  obtain ⟨hgr, _, _, hmap, _⟩ := hfin s hs
  have hlen : s.result_map.length = gr.e := by rw [hmap]; exact hR.len_map
  have hlt : ∀ x ∈ s.result_map, x < gr.e := by
    rw [hmap]; exact result_map_mem_lt hv hI hR
  have hnd : s.result_map.Nodup := by
    rw [hmap]; exact result_map_nodup hv hI hR
  exact ⟨print_map_eq s (by rw [hgr]; exact hlen), hlen, hlt, hnd,
    perm_range_of_nodup _ _ hlen hlt hnd⟩

theorem result_map_permutation_witness :
    valid_graph sample_graph ∧
    ∃ s2 h, assign_main (bdz_alloc sample_graph) = Except.ok (s2, h) ∧
      (sample_graph.v % 256 ≠ 0 → ∃ s, assign_nodes (bdz_alloc sample_graph) = Except.ok s) ∧
      ∀ s, (s = s2 ∨ assign_nodes (bdz_alloc sample_graph) = Except.ok s) →
        print_map s = Except.ok s.result_map ∧
        s.result_map.length = sample_graph.e ∧
        (∀ x ∈ s.result_map, x < sample_graph.e) ∧
        s.result_map.Nodup ∧
        s.result_map.Perm (List.range sample_graph.e) :=
  ⟨sample_graph_valid, result_map_permutation sample_graph sample_graph_valid⟩

/-- Claim C6 (rank stored in the map).  In the state after lines 86-141 on a valid graph and
in every final state of `assign_nodes`, for every edge `j`, with `t` the vertex chosen in
the iteration `p` that walks the edge, `result_map[j] = t - holes_before(t)` over the final
label array (a subtraction that does not go below zero), which is the number of labelled
vertices below `t`. -/
theorem result_map_rank (gr : graph3) (hv : valid_graph gr) :
    ∃ s2 h, assign_main (bdz_alloc gr) = Except.ok (s2, h) ∧
      (gr.v % 256 ≠ 0 → ∃ s, assign_nodes (bdz_alloc gr) = Except.ok s) ∧
      ∀ s, (s = s2 ∨ assign_nodes (bdz_alloc gr) = Except.ok s) →
        ∀ j, j < gr.e → ∃ p r t,
          p < gr.e ∧ cell gr.output_order p = j ∧
          chosen gr p = Except.ok (r, t) ∧
          holes_before s.g t ≤ t ∧
          cell s.result_map j = t - holes_before s.g t ∧
          cell s.result_map j = labelled_before s.g t := by
  obtain ⟨vis, G, s2, h, _, hI, hm, hR, hfin⟩ := after_main hv
  refine ⟨s2, h, hm, assign_nodes_ok hv, ?_⟩
  intro s hs j hj
  obtain ⟨_, _, hg, hmap, _⟩ := hfin s hs
  obtain ⟨p, hp, hpj, _, _, hr⟩ := edge_facts hv hI hR hj
  have hl := labelled_add_holes G (fresh_choice gr p).2
  refine ⟨p, (fresh_choice gr p).1, (fresh_choice gr p).2, hp, hpj, chosen_eq hv hp, ?_, ?_, ?_⟩
  · rw [hg]; exact holes_before_le _ _
  · rw [hg, hmap]; omega
  · rw [hg, hmap]; omega

theorem result_map_rank_witness :
    valid_graph sample_graph ∧
    ∃ s2 h, assign_main (bdz_alloc sample_graph) = Except.ok (s2, h) ∧
      (sample_graph.v % 256 ≠ 0 → ∃ s, assign_nodes (bdz_alloc sample_graph) = Except.ok s) ∧
      ∀ s, (s = s2 ∨ assign_nodes (bdz_alloc sample_graph) = Except.ok s) →
        ∀ j, j < sample_graph.e → ∃ p r t,
          p < sample_graph.e ∧ cell sample_graph.output_order p = j ∧
          chosen sample_graph p = Except.ok (r, t) ∧
          holes_before s.g t ≤ t ∧
          cell s.result_map j = t - holes_before s.g t ∧
          cell s.result_map j = labelled_before s.g t :=
  ⟨sample_graph_valid, result_map_rank sample_graph sample_graph_valid⟩

/-- Claim C10 (upper rank levels).  In the state after lines 86-141 on a valid graph and in
every final state of `assign_nodes`, `holes64k[k]` is the number of holes below `65536 k`
for every `k` with `65536 k < v`, and `holes64k[k >> 8] + holes256[k]` is the number of
holes below `256 k` for every `k` with `256 k < v`. -/
theorem upper_rank_levels (gr : graph3) (hv : valid_graph gr) :
    ∃ s2 h, assign_main (bdz_alloc gr) = Except.ok (s2, h) ∧
      (gr.v % 256 ≠ 0 → ∃ s, assign_nodes (bdz_alloc gr) = Except.ok s) ∧
      ∀ s, (s = s2 ∨ assign_nodes (bdz_alloc gr) = Except.ok s) →
        (∀ k, 65536 * k < gr.v → cell s.holes64k k = holes_before s.g (65536 * k)) ∧
        (∀ k, 256 * k < gr.v →
          cell s.holes64k (k >>> 8) + cell s.holes256 k = holes_before s.g (256 * k)) := by
  obtain ⟨vis, G, s2, h, _, hI, hm, hR, hfin⟩ := after_main hv
  refine ⟨s2, h, hm, assign_nodes_ok hv, ?_⟩
  intro s hs
  obtain ⟨_, _, hg, _, h64, h256, _⟩ := hfin s hs
  rw [hg]
  constructor
  · intro k hk
    rw [h64 k (by omega)]
    exact hR.h64k k hk
  · intro k hk
    rw [shr8, h64 (k / 256) (by omega), h256 k (by omega), hR.h64k (k / 256) (by omega)]
    have := hR.h256 k hk
    omega

theorem upper_rank_levels_witness :
    valid_graph sample_graph ∧
    ∃ s2 h, assign_main (bdz_alloc sample_graph) = Except.ok (s2, h) ∧
      (sample_graph.v % 256 ≠ 0 → ∃ s, assign_nodes (bdz_alloc sample_graph) = Except.ok s) ∧
      ∀ s, (s = s2 ∨ assign_nodes (bdz_alloc sample_graph) = Except.ok s) →
        (∀ k, 65536 * k < sample_graph.v →
          cell s.holes64k k = holes_before s.g (65536 * k)) ∧
        (∀ k, 256 * k < sample_graph.v →
          cell s.holes64k (k >>> 8) + cell s.holes256 k = holes_before s.g (256 * k)) :=
  ⟨sample_graph_valid, upper_rank_levels sample_graph sample_graph_valid⟩

/-- The sub-256 tables of the blocks whose offset lies below `v`: in the state after lines
86-141 on a valid graph and in every final state of `assign_nodes`, `holes256_q[k]` is the
number of holes in `[256 k, 256 k + q)` whenever `256 k + q < v`, for `q` = 64, 128, 192;
an entry whose offset is not below `v` is still 0 after lines 86-141. -/
theorem sub256_levels_below {gr : graph3} (hv : valid_graph gr) :
    ∃ s2 h, assign_main (bdz_alloc gr) = Except.ok (s2, h) ∧
      (∀ s, (s = s2 ∨ assign_nodes (bdz_alloc gr) = Except.ok s) →
        (∀ k, 256 * k + 64 < gr.v →
          cell s.holes256_64 k + holes_before s.g (256 * k) = holes_before s.g (256 * k + 64)) ∧
        (∀ k, 256 * k + 128 < gr.v →
          cell s.holes256_128 k + holes_before s.g (256 * k)
            = holes_before s.g (256 * k + 128)) ∧
        (∀ k, 256 * k + 192 < gr.v →
          cell s.holes256_192 k + holes_before s.g (256 * k)
            = holes_before s.g (256 * k + 192))) ∧
      (∀ k, gr.v ≤ 256 * k + 64 → cell s2.holes256_64 k = 0) ∧
      (∀ k, gr.v ≤ 256 * k + 128 → cell s2.holes256_128 k = 0) ∧
      (∀ k, gr.v ≤ 256 * k + 192 → cell s2.holes256_192 k = 0) := by
  obtain ⟨vis, G, s2, h, _, hI, hm, hR, hfin⟩ := after_main hv
  refine ⟨s2, h, hm, ?_, hR.z256_64, hR.z256_128, hR.z256_192⟩
  intro s hs
  obtain ⟨_, _, hg, _, _, _, h1, h2, h3⟩ := hfin s hs
  rw [hg]
  refine ⟨fun k hk => ?_, fun k hk => ?_, fun k hk => ?_⟩
  · rw [h1 k (by omega)]; exact hR.h256_64 k hk
  · rw [h2 k (by omega)]; exact hR.h256_128 k hk
  · rw [h3 k (by omega)]; exact hR.h256_192 k hk

/-- When `v` is a multiple of 256 the writes of lines 149-150 read `holes256[(v >> 8) + 1]`,
one entry past the `(v + 255) / 256 + 1` allocated: `assign_nodes` ends in an out-of-bounds
access. -/
theorem assign_nodes_out_of_bounds {gr : graph3} (hv : valid_graph gr) (h256 : gr.v % 256 = 0) :
    assign_nodes (bdz_alloc gr) = Except.error Fault.out_of_bounds := by
  obtain ⟨vis, G, s, h, _, _, hm, hR⟩ := assign_main_spec hv
  unfold assign_nodes
  rw [hm, bind_ok]
  simp only [hR.graph_eq]
  unfold trailing_writes
  have hA : ∃ t64, (if gr.v % 65536 ≠ 0 then wr s.holes64k ((gr.v >>> 16) + 1) (u32 h)
      else pure s.holes64k) = Except.ok t64 := by
    by_cases hc : gr.v % 65536 ≠ 0
    · rw [if_pos hc, shr16, wr_ok _ (by have := hR.len64k; omega)]
      exact ⟨_, rfl⟩
    · rw [if_neg hc]
      exact ⟨_, rfl⟩
  obtain ⟨t64, hA⟩ := hA
  have hB : (if gr.v % 256 ≠ 0 then do
        let a ← rd t64 (((gr.v >>> 8) + 1) >>> 8)
        wr s.holes256 ((gr.v >>> 8) + 1) (u16 (sub32 h a))
      else pure s.holes256) = Except.ok s.holes256 := by
    rw [if_neg (by omega)]
    rfl
  have hC : rd s.holes256 ((gr.v >>> 8) + 1) = Except.error Fault.out_of_bounds := by
    unfold rd
    rw [shr8, List.getElem?_eq_none (by have := hR.len256; omega)]
  simp only [hA, bind_ok, hB]
  rw [if_pos (by omega), hC]
  rfl

/-! ## The packed label table -/

theorem and_three (x : Nat) : x &&& 3 = x % 4 :=
  Nat.and_pow_two_sub_one_eq_mod x 2

theorem and_fifteen (x : Nat) : x &&& 15 = x % 16 :=
  Nat.and_pow_two_sub_one_eq_mod x 4

theorem shr4 (n : Nat) : n >>> 4 = n / 16 := by
  rw [Nat.shiftRight_eq_div_pow]

/-- The 2-bit field at slot `j` of a packed word. -/
theorem field_eq (w j : Nat) : (w >>> (2 * j)) &&& 3 = w / 4 ^ j % 4 := by
  rw [and_three, Nat.shiftRight_eq_div_pow, pow_mul]
  rfl

theorem digit_extract (s x k j : Nat) (hs : s < 4 ^ k) (hj : j ≤ k) :
    (4 ^ k * x + s) / 4 ^ j % 4 = if j = k then x % 4 else s / 4 ^ j % 4 := by
  by_cases hjk : j = k
  · subst hjk
    rw [if_pos rfl, Nat.mul_add_div (Nat.pow_pos (by omega)), Nat.div_eq_of_lt hs, Nat.add_zero]
  · rw [if_neg hjk]
    obtain ⟨d, hd⟩ : ∃ d, k = j + (d + 1) := ⟨k - j - 1, by omega⟩
    have e : 4 ^ k * x = 4 ^ j * (4 * (4 ^ d * x)) := by
      rw [hd, pow_add, pow_succ]
      ring
    rw [e, Nat.mul_add_div (Nat.pow_pos (by omega)), Nat.mul_add_mod]

/-- The packing loop of lines 178-179 stores the label of vertex `i + j` in slot `j` of the
word, provided the 16 bytes are allocated and hold values up to 3. -/
theorem pack_word_spec (G : List Nat) (i : Nat) (hlen : i + 16 ≤ G.length)
    (h3 : ∀ j, j < 16 → cell G (i + j) ≤ 3) :
    ∃ w, pack_word G i = Except.ok w ∧ w < 4294967296 ∧
      ∀ j, j < 16 → (w >>> (2 * j)) &&& 3 = cell G (i + j) := by
  have key : ∀ k, k ≤ 16 → ∃ w, (List.range k).foldlM
      (fun (sum : Nat) (j : Nat) => do
        let x ← rd G (i + j)
        pure (sum ||| u32 (x <<< (2 * j)))) 0 = Except.ok w ∧ w < 4 ^ k ∧
      ∀ j, j < k → w / 4 ^ j % 4 = cell G (i + j) := by
    intro k
    induction k with
    | zero => intro _; exact ⟨0, rfl, by simp, fun j hj => by omega⟩
    | succ k ih =>
      intro hk
      obtain ⟨w, hw, hlt, hd⟩ := ih (by omega)
      have hx := h3 k (by omega)
      have hpow : (4 : Nat) ^ k ≤ 4 ^ 15 := Nat.pow_le_pow_right (by omega) (by omega)
      have h415 : (4 : Nat) ^ 15 = 1073741824 := by norm_num
      have hu : u32 (cell G (i + k) <<< (2 * k)) = 4 ^ k * cell G (i + k) := by
        rw [Nat.shiftLeft_eq, pow_mul, Nat.mul_comm]
        unfold u32
        apply Nat.mod_eq_of_lt
        have : 4 ^ k * cell G (i + k) ≤ 4 ^ 15 * 3 := Nat.mul_le_mul hpow hx
        have e2 : (2 : Nat) ^ 2 = 4 := by norm_num
        rw [e2]
        omega
      have hor : w ||| 4 ^ k * cell G (i + k) = 4 ^ k * cell G (i + k) + w := by
        rw [Nat.or_comm]
        have h2 : (4 : Nat) ^ k = 2 ^ (2 * k) := by rw [pow_mul]; rfl
        rw [h2]
        exact (Nat.mul_add_lt_is_or (by rw [← h2]; exact hlt) _).symm
      refine ⟨4 ^ k * cell G (i + k) + w, ?_, ?_, ?_⟩
      · rw [foldlM_range_succ, hw, bind_ok, rd_ok (by omega), bind_ok, pure_eq_ok, hu, hor]
      · rw [pow_succ]
        have : 4 ^ k * cell G (i + k) ≤ 4 ^ k * 3 := Nat.mul_le_mul_left _ hx
        omega
      · intro j hj
        rw [digit_extract w _ k j hlt (by omega)]
        by_cases hjk : j = k
        · subst hjk
          rw [if_pos rfl]
          exact Nat.mod_eq_of_lt (by omega)
        · rw [if_neg hjk]
          exact hd j (by omega)
  obtain ⟨w, hw, hlt, hd⟩ := key 16 (Nat.le_refl _)
  exact ⟨w, hw, by norm_num at hlt; exact hlt, fun j hj => by rw [field_eq]; exact hd j hj⟩

/-- A loop `for (i = start; i < v; i += step)` whose body succeeds below `v` emits one
value per iteration; the iteration bound `fuel` is enough when `v ≤ start + step * fuel`. -/
theorem emit_loop_spec (f : Nat → Except Fault Nat) (Q : Nat → Nat → Prop) (v step : Nat)
    (hstep : 0 < step) (hf : ∀ i, i < v → ∃ w, f i = Except.ok w ∧ Q i w) :
    ∀ fuel i, v ≤ i + step * fuel →
      ∃ ws, emit_loop f v step fuel i = Except.ok ws ∧
        ws.length = (v - i + step - 1) / step ∧
        ∀ k, k < ws.length → Q (i + step * k) (cell ws k) := by
  intro fuel
  induction fuel with
  | zero =>
    intro i hi
    refine ⟨[], rfl, ?_, fun k hk => absurd hk (by simp)⟩
    have : v - i + step - 1 < step := by omega
    rw [Nat.div_eq_of_lt this]
    rfl
  | succ fuel ih =>
    intro i hi
    by_cases hiv : i < v
    · obtain ⟨w, hw, hq⟩ := hf i hiv
      obtain ⟨rest, hrest, hlen, hQ⟩ := ih (i + step) (by rw [Nat.mul_succ] at hi; omega)
      refine ⟨w :: rest, ?_, ?_, ?_⟩
      · simp only [emit_loop, if_pos hiv, hw, bind_ok, hrest, pure_eq_ok]
      · rw [List.length_cons, hlen]
        by_cases hd : i + step ≤ v
        · have e : v - i + step - 1 = (v - (i + step) + step - 1) + step := by omega
          rw [e, Nat.add_div_right _ hstep]
        · have e1 : v - (i + step) + step - 1 < step := by omega
          rw [Nat.div_eq_of_lt e1]
          symm
          apply Nat.div_eq_of_lt_le <;> omega
      · intro k hk
        cases k with
        | zero => simpa [cell] using hq
        | succ k =>
          have := hQ k (by simpa using hk)
          have e : i + step * (k + 1) = i + step + step * k := by rw [Nat.mul_succ]; omega
          rw [e]
          simpa [cell] using this
    · refine ⟨[], by simp only [emit_loop, if_neg hiv, pure_eq_ok], ?_,
        fun k hk => absurd hk (by simp)⟩
      have : v - i + step - 1 < step := by omega
      rw [Nat.div_eq_of_lt this]
      rfl

/-- Claim C8 (packed label table).  For a valid graph with `v ≥ 10` (the minimum `bdz_compute`
sets), in the state after lines 86-115 and in every final state of `assign_nodes`, the
loop of lines 177-185 of `print_hash` reads only allocated bytes of `g` and emits exactly
`(v + 15) / 16` words, each below `2^32`, which fill the emitted array of the declared
size exactly; for every vertex `i < v` the 2-bit field
`(word[i >> 4] >> (2 * (i & 15))) & 3` is `g[i]`, and every slot `i ≥ v` of the last word
decodes to 0. -/
theorem packed_labels (gr : graph3) (hv : valid_graph gr) (h10 : 10 ≤ gr.v) :
    ∃ s1, assign_labels (bdz_alloc gr) = Except.ok s1 ∧
      (gr.v % 256 ≠ 0 → ∃ s, assign_nodes (bdz_alloc gr) = Except.ok s) ∧
      ∀ s, (s = s1 ∨ assign_nodes (bdz_alloc gr) = Except.ok s) →
        ∃ ws, print_g s = Except.ok ws ∧
          ws.length = (gr.v + 15) / 16 ∧
          (∀ k, k < ws.length → cell ws k < 4294967296) ∧
          c_array 32 (u32 (s.graph.v + 15) / 16) ws = ws ∧
          (∀ i, i < gr.v → (cell ws (i >>> 4) >>> (2 * (i &&& 15))) &&& 3 = cell s.g i) ∧
          (∀ i, gr.v ≤ i → i < 16 * ws.length →
            (cell ws (i >>> 4) >>> (2 * (i &&& 15))) &&& 3 = 0) := by
  obtain ⟨vis, G, hlab, hI, hfin⟩ := labels_final hv
  refine ⟨_, hlab, assign_nodes_ok hv, ?_⟩
  intro s hs
  obtain ⟨hg, hgr⟩ := hfin s hs
  have h3 : ∀ x, cell G x ≤ 3 := by
    intro x
    by_cases hx : x < gr.v
    · exact label_inv_le3 hI hx
    · rw [hI.g_pad x (by omega)]
      omega
  have hf : ∀ i, i < gr.v → ∃ w, (fun i => pack_word G i) i = Except.ok w ∧
      (w < 4294967296 ∧ ∀ j, j < 16 → (w >>> (2 * j)) &&& 3 = cell G (i + j)) := by
    intro i hi
    exact pack_word_spec G i (by rw [hI.g_len]; omega) (fun j _ => h3 _)
  obtain ⟨ws, hws, hlen, hQ⟩ := emit_loop_spec (fun i => pack_word G i)
    (fun i w => w < 4294967296 ∧ ∀ j, j < 16 → (w >>> (2 * j)) &&& 3 = cell G (i + j))
    gr.v 16 (by omega) hf gr.v 0 (by omega)
  have hlen2 : ws.length = (gr.v + 15) / 16 := by
    rw [hlen]
    congr 1
  have hfield : ∀ i, i < 16 * ws.length →
      (cell ws (i >>> 4) >>> (2 * (i &&& 15))) &&& 3 = cell G i := by
    intro i hi
    rw [shr4, and_fifteen]
    have := (hQ (i / 16) (by omega)).2 (i % 16) (Nat.mod_lt _ (by omega))
    rw [this]
    congr 1
    omega
  refine ⟨ws, ?_, hlen2, fun k hk => (hQ k hk).1, ?_, ?_, ?_⟩
  · unfold print_g
    rw [hg, hgr]
    exact hws
  · have hfit := hv.v_fits
    have hsize : u32 (s.graph.v + 15) / 16 = ws.length := by
      rw [hgr, hlen2]
      unfold u32
      omega
    have hmap : ws.map (fun x => x % 2 ^ 32) = ws := by
      conv_rhs => rw [← List.map_id ws]
      apply List.map_congr_left
      intro a ha
      obtain ⟨k, hk, hka⟩ := List.getElem_of_mem ha
      have := (hQ k hk).1
      rw [cell_eq_getElem _ _ hk, hka] at this
      exact Nat.mod_eq_of_lt this
    unfold c_array
    rw [hsize, hmap]
    simp
  · intro i hi
    rw [hg]
    exact hfield i (by omega)
  · intro i hi hi2
    rw [hfield i hi2]
    exact hI.g_pad i hi

theorem packed_labels_witness :
    (valid_graph sample_graph ∧ 10 ≤ sample_graph.v) ∧
    ∃ s1, assign_labels (bdz_alloc sample_graph) = Except.ok s1 ∧
      (sample_graph.v % 256 ≠ 0 → ∃ s, assign_nodes (bdz_alloc sample_graph) = Except.ok s) ∧
      ∀ s, (s = s1 ∨ assign_nodes (bdz_alloc sample_graph) = Except.ok s) →
        ∃ ws, print_g s = Except.ok ws ∧
          ws.length = (sample_graph.v + 15) / 16 ∧
          (∀ k, k < ws.length → cell ws k < 4294967296) ∧
          c_array 32 (u32 (s.graph.v + 15) / 16) ws = ws ∧
          (∀ i, i < sample_graph.v →
            (cell ws (i >>> 4) >>> (2 * (i &&& 15))) &&& 3 = cell s.g i) ∧
          (∀ i, sample_graph.v ≤ i → i < 16 * ws.length →
            (cell ws (i >>> 4) >>> (2 * (i &&& 15))) &&& 3 = 0) :=
  ⟨⟨sample_graph_valid, by decide⟩,
    packed_labels sample_graph sample_graph_valid (by decide)⟩

/-! ## The lookup at the tail of the vertex range -/

theorem tail_graph_valid : valid_graph tail_graph where
  v_fits := by decide
  edges_len := by decide
  in_range := by decide
  distinct := by decide
  order_perm := by decide
  peel := by decide

set_option maxRecDepth 1000000 in
theorem chain_graph_valid : valid_graph chain_graph where
  v_fits := by decide
  edges_len := by decide
  in_range := by decide
  distinct := by decide
  order_perm := by decide
  peel := by decide

set_option maxRecDepth 1000000 in
/-- Claim C1 (bijection) fails on the code.  For the single key of `tail_graph` (a valid
graph, `v = 50`) the emitted function returns 49, which is not below `N = 1`; for the 40
keys of `chain_graph` (valid, `v = 50`) it returns 0..29 and 40..49 instead of 0..39. -/
theorem bijection_fails_at_tail :
    (valid_graph tail_graph ∧ 10 ≤ tail_graph.v ∧
      (assign_nodes (bdz_alloc tail_graph) >>= print_tables) = Except.ok tail_tables ∧
      emitted_hash tail_tables 32 0 1 = Except.ok 49 ∧ ¬ 49 < tail_graph.e) ∧
    (valid_graph chain_graph ∧ 10 ≤ chain_graph.v ∧
      (assign_nodes (bdz_alloc chain_graph) >>= print_tables) = Except.ok chain_tables ∧
      chain_graph.edges.mapM (fun e => emitted_hash chain_tables e.left e.middle e.right) =
        Except.ok [0, 1, 2, 3, 4, 5, 6, 7, 8, 9, 10, 11, 12, 13, 14, 15, 16, 17, 18, 19,
          20, 21, 22, 23, 24, 25, 26, 27, 28, 29, 40, 41, 42, 43, 44, 45, 46, 47, 48, 49]) :=
  ⟨⟨tail_graph_valid, by decide, by rfl, by rfl, by decide⟩,
    ⟨chain_graph_valid, by decide, by rfl, by rfl⟩⟩

set_option maxRecDepth 1000000 in
/-- Claim C2 (rank consistency) fails on the code.  In `tail_graph` the labeling loop
chooses vertex 32, all 32 vertices below it are holes, so its rank is `32 - 32 = 0`; the
emitted lookup, on the tables `print_hash` emits, returns 49. -/
theorem rank_wrong_at_tail :
    valid_graph tail_graph ∧ 10 ≤ tail_graph.v ∧
    chosen tail_graph 0 = Except.ok (0, 32) ∧
    Except.map (fun s => (cell s.g 32, holes_before s.g 32))
      (assign_nodes (bdz_alloc tail_graph)) = Except.ok (0, 32) ∧
    (assign_nodes (bdz_alloc tail_graph) >>= print_tables) = Except.ok tail_tables ∧
    emitted_rank tail_tables 32 = Except.ok 49 :=
  ⟨tail_graph_valid, by decide, by rfl, by rfl, by rfl, by rfl⟩

set_option maxRecDepth 1000000 in
/-- Claim C7 (the map output agrees with the emitted function) fails on the code.  For
the key of `tail_graph` the map output holds 0 and the emitted function returns 49. -/
theorem map_disagrees_at_tail :
    valid_graph tail_graph ∧ 10 ≤ tail_graph.v ∧
    (assign_nodes (bdz_alloc tail_graph) >>= print_map) = Except.ok [0] ∧
    (assign_nodes (bdz_alloc tail_graph) >>= print_tables) = Except.ok tail_tables ∧
    emitted_hash tail_tables 32 0 1 = Except.ok 49 :=
  ⟨tail_graph_valid, by decide, by rfl, by rfl, by rfl⟩

set_option maxRecDepth 1000000 in
/-- Claim C9 (sub-256 tables, final block included) fails on the code.  After
`assign_nodes` on `tail_graph` (`v = 50`, one 256-block) 49 of the vertices below 50 are
holes, all of them in `[0, 64)`, but `holes256_64[0]`, `holes256_128[0]` and
`holes256_192[0]` are 0: no iteration of the pass reaches the offsets 64, 128, 192, and
the writes after the loop go to index 1. -/
theorem sub256_unset_at_tail :
    valid_graph tail_graph ∧
    Except.map (fun s => (holes_before s.g 50, cell s.holes256_64 0, cell s.holes256_128 0,
        cell s.holes256_192 0))
      (assign_nodes (bdz_alloc tail_graph)) = Except.ok (49, 0, 0, 0) :=
  ⟨tail_graph_valid, by rfl⟩

/-! ## The entries one past the last block -/

/-- The writes of lines 143-147 on the state after lines 86-141 of a valid graph: they
stay inside the allocations, store the final hole count one past the last block of a
level when `v` is not a multiple of the block size, and leave every other entry. -/
theorem trailing_upper_spec {gr : graph3} (hv : valid_graph gr) {vis G : List Nat}
    {s : state} {h : Nat} (hR : rank_inv gr vis G gr.v s h) :
    ∃ t64 t256, trailing_upper s gr.v h =
        Except.ok { s with holes64k := t64, holes256 := t256 } ∧
      (∀ k, k ≠ gr.v / 65536 + 1 → cell t64 k = cell s.holes64k k) ∧
      (∀ k, k ≠ gr.v / 256 + 1 → cell t256 k = cell s.holes256 k) ∧
      (gr.v % 65536 ≠ 0 → cell t64 (gr.v / 65536 + 1) = holes_before G gr.v) ∧
      (gr.v % 256 ≠ 0 →
        cell t64 ((gr.v / 256 + 1) / 256) + cell t256 (gr.v / 256 + 1) = holes_before G gr.v) := by
  have hfit := hv.v_fits
  have hh := hR.holes_eq
  subst hh
  have hle := holes_before_le G gr.v
  have hu : u32 (holes_before G gr.v) = holes_before G gr.v := by unfold u32; omega
  have l64 := hR.len64k
  have l256 := hR.len256
  -- line 143-144
  have hA : ∃ t64, (if gr.v % 65536 ≠ 0 then
        wr s.holes64k ((gr.v >>> 16) + 1) (u32 (holes_before G gr.v))
      else pure s.holes64k) = Except.ok t64 ∧ t64.length = s.holes64k.length ∧
      (∀ k, k ≠ gr.v / 65536 + 1 → cell t64 k = cell s.holes64k k) ∧
      (gr.v % 65536 ≠ 0 → cell t64 (gr.v / 65536 + 1) = holes_before G gr.v) := by
    by_cases hc : gr.v % 65536 ≠ 0
    · have hi : gr.v / 65536 + 1 < s.holes64k.length := by omega
      refine ⟨s.holes64k.set (gr.v / 65536 + 1) (holes_before G gr.v), ?_, by simp, ?_, ?_⟩
      · rw [if_pos hc, shr16, hu, wr_ok _ hi]
      · intro k hk
        rw [cell_set _ _ _ _ hi, if_neg hk]
      · intro _
        rw [cell_set _ _ _ _ hi, if_pos rfl]
    · exact ⟨s.holes64k, by rw [if_neg hc]; rfl, rfl, fun _ _ => rfl, fun h => absurd h hc⟩
  obtain ⟨t64, hA, lA, fA, vA⟩ := hA
  -- line 146-147
  have hB : ∃ t256, (if gr.v % 256 ≠ 0 then do
        let a ← rd t64 (((gr.v >>> 8) + 1) >>> 8)
        wr s.holes256 ((gr.v >>> 8) + 1) (u16 (sub32 (holes_before G gr.v) a))
      else pure s.holes256) = Except.ok t256 ∧
      (∀ k, k ≠ gr.v / 256 + 1 → cell t256 k = cell s.holes256 k) ∧
      (gr.v % 256 ≠ 0 →
        cell t64 ((gr.v / 256 + 1) / 256) + cell t256 (gr.v / 256 + 1)
          = holes_before G gr.v) := by
    by_cases hc : gr.v % 256 ≠ 0
    · have hi : gr.v / 256 + 1 < s.holes256.length := by omega
      have hi64 : (gr.v / 256 + 1) / 256 < t64.length := by omega
      have h65 : gr.v % 65536 ≠ 0 := by omega
      -- the value read from the upper level
      have hval : cell t64 ((gr.v / 256 + 1) / 256) ≤ holes_before G gr.v ∧
          holes_before G gr.v - cell t64 ((gr.v / 256 + 1) / 256) < 65536 := by
        by_cases hb : (gr.v / 256 + 1) / 256 = gr.v / 65536 + 1
        · rw [hb, vA h65]
          omega
        · have e : (gr.v / 256 + 1) / 256 = gr.v / 65536 := by omega
          rw [e, fA _ (by omega), hR.h64k _ (by omega)]
          have hm := holes_before_mono G (show 65536 * (gr.v / 65536) ≤ gr.v by omega)
          omega
      refine ⟨s.holes256.set (gr.v / 256 + 1)
        (holes_before G gr.v - cell t64 ((gr.v / 256 + 1) / 256)), ?_, ?_, ?_⟩
      · rw [if_pos hc, shr8, shr8, rd_ok hi64, bind_ok, wr_ok _ hi]
        congr 2
        unfold u16 sub32
        omega
      · intro k hk
        rw [cell_set _ _ _ _ hi, if_neg hk]
      · intro _
        rw [cell_set _ _ _ _ hi, if_pos rfl]
        omega
    · exact ⟨s.holes256, by rw [if_neg hc]; rfl, fun _ _ => rfl, fun h => absurd h hc⟩
  obtain ⟨t256, hB, fB, vB⟩ := hB
  refine ⟨t64, t256, ?_, fA, fB, vA, vB⟩
  unfold trailing_upper
  simp only [hA, bind_ok, hB]
  rfl

theorem valid_graph_ok {gr : graph3} (hv : valid_graph gr) : graph_ok gr :=
  ⟨hv.edges_len, hv.in_range, hv.order_perm⟩

theorem ok_order_length {gr : graph3} (hk : graph_ok gr) : gr.output_order.length = gr.e := by
  have := hk.order_perm.length_eq
  simpa using this

theorem ok_order_lt {gr : graph3} (hk : graph_ok gr) {p : Nat} (hp : p < gr.e) :
    cell gr.output_order p < gr.e := by
  have hl := ok_order_length hk
  have hm : cell gr.output_order p ∈ gr.output_order := by
    unfold cell
    rw [List.getD_eq_getElem _ _ (by omega)]
    exact List.getElem_mem _
  have := (hk.order_perm.mem_iff).1 hm
  simpa using this

theorem ok_edge_at_mem {gr : graph3} (hk : graph_ok gr) {p : Nat} (hp : p < gr.e) :
    edge_at gr p ∈ gr.edges := by
  have hj := ok_order_lt hk hp
  unfold edge_at
  rw [List.getD_eq_getElem _ _ (by rw [hk.edges_len]; exact hj)]
  exact List.getElem_mem _

/-- Without an endpoint that belongs to no earlier edge, lines 92-103 reach `abort()`;
with one, they pick the first such endpoint. -/
theorem choose_vertex_weak {gr : graph3} (hk : graph_ok gr) {p : Nat} (hp : p < gr.e)
    {vis G : List Nat} (hI : weak_inv gr p vis G) :
    (blocked gr p → choose_vertex vis (edge_at gr p) = Except.error Fault.abort) ∧
    (¬ blocked gr p → choose_vertex vis (edge_at gr p) = Except.ok (fresh_choice gr p) ∧
      ¬ seen gr p (fresh_choice gr p).2 ∧
      (fresh_choice gr p).2 ∈ endpoints (edge_at gr p) ∧ (fresh_choice gr p).1 ≤ 2) := by
  have hr := hk.in_range _ (ok_edge_at_mem hk hp)
  have hlen := hI.vis_len
  have hz : ∀ x, x < gr.v → (cell vis x = 0 ↔ ¬ seen gr p x) := by
    intro x hx
    have := hI.vis_seen x hx
    constructor
    · intro h0 hs
      exact (this.2 hs) h0
    · intro hns
      by_contra h
      exact hns (this.1 h)
  unfold choose_vertex blocked fresh_choice
  rw [rd_ok (by omega : (edge_at gr p).left < vis.length)]
  by_cases h1 : seen gr p (edge_at gr p).left
  · have hv1 : cell vis (edge_at gr p).left ≠ 0 := (hI.vis_seen _ hr.1).2 h1
    rw [bind_ok, if_neg hv1, rd_ok (by omega : (edge_at gr p).middle < vis.length)]
    by_cases h2 : seen gr p (edge_at gr p).middle
    · have hv2 : cell vis (edge_at gr p).middle ≠ 0 := (hI.vis_seen _ hr.2.1).2 h2
      rw [bind_ok, if_neg hv2, rd_ok (by omega : (edge_at gr p).right < vis.length)]
      by_cases h3 : seen gr p (edge_at gr p).right
      · have hv3 : cell vis (edge_at gr p).right ≠ 0 := (hI.vis_seen _ hr.2.2).2 h3
        constructor
        · intro _
          simp [hv3]
          rfl
        · intro hnb
          exfalso
          apply hnb
          intro x hx
          rcases (mem_endpoints _ _).1 hx with h | h | h <;> rw [h] <;> assumption
      · have hv3 : cell vis (edge_at gr p).right = 0 := (hz _ hr.2.2).2 h3
        constructor
        · intro hb
          exact absurd (hb _ ((mem_endpoints _ _).2 (Or.inr (Or.inr rfl)))) h3
        · intro _
          simp [hv3, h1, h2, h3, endpoints]
    · have hv2 : cell vis (edge_at gr p).middle = 0 := (hz _ hr.2.1).2 h2
      constructor
      · intro hb
        exact absurd (hb _ ((mem_endpoints _ _).2 (Or.inr (Or.inl rfl)))) h2
      · intro _
        simp [hv2, h1, h2, endpoints]
  · have hv1 : cell vis (edge_at gr p).left = 0 := (hz _ hr.1).2 h1
    constructor
    · intro hb
      exact absurd (hb _ ((mem_endpoints _ _).2 (Or.inl rfl))) h1
    · intro _
      simp [hv1, h1, endpoints]

/-- After lines 105-111 the nonzero entries are the old ones and the endpoints of the
edge. -/
theorem mark_edge_weak (vis : List Nat) (e : edge3) (t j : Nat)
    (hl : e.left < vis.length) (hm : e.middle < vis.length) (hr : e.right < vis.length)
    (ht : t ∈ endpoints e) :
    ∃ vis1, mark_edge vis e t j = Except.ok vis1 ∧ vis1.length = vis.length ∧
      ∀ k, (cell vis1 k ≠ 0 ↔ (k ∈ endpoints e ∨ cell vis k ≠ 0)) := by
  have htl : t < vis.length := by
    rcases (mem_endpoints _ _).1 ht with h | h | h <;> rw [h] <;> assumption
  have step : ∀ (a : List Nat) (x : Nat), x < a.length →
      ∃ b, mark_seen a x = Except.ok b ∧ b.length = a.length ∧
        ∀ k, (cell b k ≠ 0 ↔ (k = x ∨ cell a k ≠ 0)) := by
    intro a x hx
    obtain ⟨b, hb, hlen, hg⟩ := mark_seen_spec a x hx
    refine ⟨b, hb, hlen, fun k => ?_⟩
    rw [hg]
    by_cases hkx : k = x
    · subst hkx
      by_cases h0 : cell a k = 0 <;> simp [h0]
    · simp [hkx]
  unfold mark_edge
  rw [wr_ok _ htl]
  obtain ⟨v2, h2, l2, g2⟩ := step (vis.set t (u32 (2 + j))) e.left (by simpa using hl)
  obtain ⟨v3, h3, l3, g3⟩ := step v2 e.middle (by rw [l2]; simpa using hm)
  obtain ⟨v4, h4, l4, g4⟩ := step v3 e.right (by rw [l3, l2]; simpa using hr)
  refine ⟨v4, by simp [h2, h3, h4], by simp [l4, l3, l2], ?_⟩
  intro k
  rw [g4, g3, g2, cell_set _ _ _ _ htl, mem_endpoints]
  by_cases hkt : k = t
  · have hke : k = e.left ∨ k = e.middle ∨ k = e.right := by
      rw [hkt]; exact (mem_endpoints _ _).1 ht
    constructor
    · intro _; exact Or.inl hke
    · intro _
      rcases hke with h | h | h
      · exact Or.inr (Or.inr (Or.inl h))
      · exact Or.inr (Or.inl h)
      · exact Or.inl h
  · rw [if_neg hkt]
    tauto

/-- One iteration of the labeling loop on an arbitrary graph: it reaches `abort()` when
the edge has no endpoint outside the earlier edges, and otherwise runs without fault and
keeps the weak invariant. -/
theorem label_step_weak {gr : graph3} (hk : graph_ok gr) {p : Nat} (hp : p < gr.e)
    (s : state) (hs : s.graph = gr) (hI : weak_inv gr p s.visited s.g) :
    (blocked gr p → label_step s p = Except.error Fault.abort) ∧
    (¬ blocked gr p → ∃ vis G, label_step s p = Except.ok { s with visited := vis, g := G } ∧
      weak_inv gr (p + 1) vis G ∧
      G = s.g.set (fresh_choice gr p).2 (u8 (sub32 (sub32 (sub32 (add32 9 (fresh_choice gr p).1)
        (cell s.g (edge_at gr p).left)) (cell s.g (edge_at gr p).middle))
        (cell s.g (edge_at gr p).right) % 3))) := by
  have hol := ok_order_length hk
  have hj := ok_order_lt hk hp
  have hr := hk.in_range _ (ok_edge_at_mem hk hp)
  have hcv := choose_vertex_weak hk hp hI
  have hvl := hI.vis_len
  have hgl := hI.g_len
  have he : gr.edges.getD (cell gr.output_order p) ⟨0, 0, 0⟩ = edge_at gr p := rfl
  have hstart : label_step s p = (do
      let (r, t) ← choose_vertex s.visited (edge_at gr p)
      let vis ← mark_edge s.visited (edge_at gr p) t (cell gr.output_order p)
      let g ← assign_label s.g (edge_at gr p) r t
      pure { s with visited := vis, g := g }) := by
    unfold label_step
    rw [hs, rd_ok (by omega : p < gr.output_order.length), bind_ok,
      rd_edge_ok (by rw [hk.edges_len]; exact hj), bind_ok, he]
  constructor
  · intro hb
    rw [hstart, hcv.1 hb]
    rfl
  · intro hnb
    obtain ⟨hc, hns, htm, hr2⟩ := hcv.2 hnb
    rcases hfc : fresh_choice gr p with ⟨r, t⟩
    rw [hfc] at hc hns htm hr2
    simp only at hns htm hr2
    have htlt : t < gr.v := by
      rcases (mem_endpoints _ _).1 htm with h | h | h <;> rw [h]
      · exact hr.1
      · exact hr.2.1
      · exact hr.2.2
    obtain ⟨vis1, hm1, hl1, hg1⟩ := mark_edge_weak s.visited (edge_at gr p) t
      (cell gr.output_order p) (by omega) (by omega) (by omega) htm
    have hal := assign_label_spec s.g (edge_at gr p) r t (by omega) (by omega) (by omega)
      (by omega)
    obtain ⟨val, hvd⟩ : ∃ val, val = u8 (sub32 (sub32 (sub32 (add32 9 r)
        (cell s.g (edge_at gr p).left)) (cell s.g (edge_at gr p).middle))
        (cell s.g (edge_at gr p).right) % 3) := ⟨_, rfl⟩
    rw [← hvd] at hal
    have hval : val ≤ 2 := by
      rw [hvd]
      unfold u8
      omega
    refine ⟨vis1, s.g.set t val, ?_, ?_, by rw [hvd]⟩
    · rw [hstart, hc, bind_ok]
      simp only [hm1, bind_ok, hal, pure_eq_ok]
    · constructor
      · rw [hl1]; exact hvl
      · simpa using hgl
      · intro x hx
        rw [hg1, seen_succ, hI.vis_seen x hx]
        tauto
      · intro x
        rw [cell_set _ _ _ _ (by omega)]
        by_cases hxt : x = t
        · rw [if_pos hxt]; omega
        · rw [if_neg hxt]; exact hI.g_le x

theorem weak_inv_init (gr : graph3) (G : List Nat) (hlen : G.length = 4 * gr.v)
    (hG : ∀ k, cell G k = if k < gr.v then 3 else 0) :
    weak_inv gr 0 (List.replicate gr.v 0) G where
  vis_len := by simp
  g_len := hlen
  vis_seen := fun x _ => by
    simp only [cell_replicate_zero]
    exact ⟨fun h => absurd rfl h, fun h => absurd h (not_seen_zero gr x)⟩
  g_le := fun x => by
    rw [hG]
    split_ifs <;> omega

/-- While no walked edge is blocked the labeling loop runs without fault. -/
theorem label_state_weak {gr : graph3} (hk : graph_ok gr) (n : Nat) (hn : n ≤ gr.e)
    (hfree : ∀ q, q < n → ¬ blocked gr q) :
    ∃ vis G, label_state gr n = Except.ok { bdz_alloc gr with visited := vis, g := G } ∧
      weak_inv gr n vis G := by
  obtain ⟨G0, hinit, hlen, hG0⟩ := init_g_alloc gr
  have h0 := weak_inv_init gr G0 hlen hG0
  unfold label_state
  rw [hinit, bind_ok]
  induction n with
  | zero => exact ⟨_, _, rfl, h0⟩
  | succ n ih =>
    obtain ⟨vis, G, hrun, hI⟩ := ih (by omega) (fun q hq => hfree q (by omega))
    obtain ⟨vis1, G1, hstep, hI1, _⟩ := (label_step_weak hk (by omega : n < gr.e)
      { bdz_alloc gr with visited := vis, g := G } rfl hI).2 (hfree n (by omega))
    refine ⟨vis1, G1, ?_, hI1⟩
    unfold label_loop at hrun ⊢
    rw [foldlM_range_succ, hrun, bind_ok, hstep]

/-- From the first blocked edge on the labeling loop has reached `abort()`. -/
theorem label_state_abort {gr : graph3} (hk : graph_ok gr) {p : Nat} (hp : p < gr.e)
    (hb : blocked gr p) (hfree : ∀ q, q < p → ¬ blocked gr q) (n : Nat) (hn : p < n) :
    label_state gr n = Except.error Fault.abort := by
  induction n with
  | zero => omega
  | succ n ih =>
    have hsucc : label_state gr (n + 1) = (label_state gr n >>= fun s => label_step s n) := by
      unfold label_state label_loop
      cases init_g (bdz_alloc gr) with
      | error e => rfl
      | ok s0 =>
        simp only [bind_ok]
        rw [foldlM_range_succ]
    rw [hsucc]
    by_cases hpn : p = n
    · subst hpn
      obtain ⟨vis, G, hrun, hI⟩ := label_state_weak hk p (by omega) hfree
      rw [hrun, bind_ok]
      exact (label_step_weak hk hp _ rfl hI).1 hb
    · rw [ih (by omega)]
      rfl

theorem na_rd (a : List Nat) (i : Nat) : rd a i ≠ Except.error Fault.abort := by
  unfold rd
  cases a[i]? <;> simp

theorem na_wr (a : List Nat) (i x : Nat) : wr a i x ≠ Except.error Fault.abort := by
  unfold wr
  split_ifs <;> simp

theorem na_ok {α : Type} (a : α) : (Except.ok a : Except Fault α) ≠ Except.error Fault.abort := by
  simp

theorem na_pure {α : Type} (a : α) : (pure a : Except Fault α) ≠ Except.error Fault.abort :=
  na_ok a

theorem na_bind {α β : Type} {m : Except Fault α} {f : α → Except Fault β}
    (hm : m ≠ Except.error Fault.abort) (hf : ∀ a, f a ≠ Except.error Fault.abort) :
    (m >>= f) ≠ Except.error Fault.abort := by
  cases m with
  | error e =>
    intro h
    apply hm
    cases e
    · rfl
    · cases h
  | ok a => exact hf a

theorem na_ite {α : Type} {c : Prop} [Decidable c] {a b : Except Fault α}
    (ha : a ≠ Except.error Fault.abort) (hb : b ≠ Except.error Fault.abort) :
    (if c then a else b) ≠ Except.error Fault.abort := by
  split_ifs <;> assumption

theorem na_foldlM {σ : Type} (f : σ → Nat → Except Fault σ)
    (hf : ∀ s i, f s i ≠ Except.error Fault.abort) (l : List Nat) (s : σ) :
    l.foldlM f s ≠ Except.error Fault.abort := by
  induction l generalizing s with
  | nil => exact na_ok s
  | cons a l ih =>
    rw [List.foldlM_cons]
    exact na_bind (hf s a) (fun s1 => ih s1)

/-- The pass of lines 118-141 never reaches `abort()`. -/
theorem na_rank_step (sh : state × Nat) (i : Nat) :
    rank_step sh i ≠ Except.error Fault.abort := by
  unfold rank_step
  dsimp only
  refine na_bind (na_ite (na_wr _ _ _) (na_pure _)) (fun h64k => ?_)
  refine na_bind (na_ite (na_bind (na_rd _ _) (fun _ => na_wr _ _ _)) (na_pure _)) (fun h256 => ?_)
  refine na_bind (na_ite (na_bind (na_rd _ _) (fun _ => na_bind (na_rd _ _)
    (fun _ => na_wr _ _ _))) (na_pure _)) (fun _ => ?_)
  refine na_bind (na_ite (na_bind (na_rd _ _) (fun _ => na_bind (na_rd _ _)
    (fun _ => na_wr _ _ _))) (na_pure _)) (fun _ => ?_)
  refine na_bind (na_ite (na_bind (na_rd _ _) (fun _ => na_bind (na_rd _ _)
    (fun _ => na_wr _ _ _))) (na_pure _)) (fun _ => ?_)
  refine na_bind (na_rd _ _) (fun vi => ?_)
  refine na_bind (na_ite (na_wr _ _ _) (na_pure _)) (fun _ => ?_)
  exact na_bind (na_rd _ _) (fun _ => na_pure _)

/-- The writes of lines 143-156 never reach `abort()`. -/
theorem na_trailing_writes (s : state) (i holes : Nat) :
    trailing_writes s i holes ≠ Except.error Fault.abort := by
  unfold trailing_writes
  refine na_bind (na_ite (na_wr _ _ _) (na_pure _)) (fun h64k => ?_)
  refine na_bind (na_ite (na_bind (na_rd _ _) (fun _ => na_wr _ _ _)) (na_pure _)) (fun h256 => ?_)
  refine na_bind (na_ite (na_bind (na_rd _ _) (fun _ => na_bind (na_rd _ _)
    (fun _ => na_wr _ _ _))) (na_pure _)) (fun _ => ?_)
  refine na_bind (na_ite (na_bind (na_rd _ _) (fun _ => na_bind (na_rd _ _)
    (fun _ => na_wr _ _ _))) (na_pure _)) (fun _ => ?_)
  refine na_bind (na_ite (na_bind (na_rd _ _) (fun _ => na_bind (na_rd _ _)
    (fun _ => na_wr _ _ _))) (na_pure _)) (fun _ => ?_)
  exact na_pure _

/-- A run of `assign_nodes` reaches `abort()` exactly when its labeling loop does. -/
theorem assign_nodes_abort_iff (gr : graph3) :
    assign_nodes (bdz_alloc gr) = Except.error Fault.abort ↔
      assign_labels (bdz_alloc gr) = Except.error Fault.abort := by
  unfold assign_nodes assign_main
  cases hl : assign_labels (bdz_alloc gr) with
  | error e =>
    constructor
    · intro h; exact h
    · intro h; exact h
  | ok s1 =>
    constructor
    · intro h
      exfalso
      refine na_bind (na_bind (na_ok s1) (fun s => ?_)) (fun sh => na_trailing_writes _ _ _) h
      unfold rank_loop
      exact na_foldlM _ na_rank_step _ _
    · intro h
      cases h

/-! ## The trailing entries, the consistency check and the label arithmetic -/

theorem block_graph_valid : valid_graph block_graph where
  v_fits := by decide
  edges_len := by decide
  in_range := by decide
  distinct := by decide
  order_perm := by decide
  peel := by decide

theorem cyclic_graph_ok : graph_ok cyclic_graph where
  edges_len := by decide
  in_range := by decide
  order_perm := by decide

theorem sample_graph_ok : graph_ok sample_graph := valid_graph_ok sample_graph_valid

/-- On a graph with endpoints below `v` and a permutation as order, `assign_nodes` reaches
`abort()` exactly when some edge of the order is blocked. -/
theorem abort_blocked_iff {gr : graph3} (hk : graph_ok gr) :
    assign_nodes (bdz_alloc gr) = Except.error Fault.abort ↔
      ∃ p, p < gr.e ∧ blocked gr p := by
  rw [assign_nodes_abort_iff, assign_labels_eq]
  constructor
  · intro h
    by_contra hne
    have hfree : ∀ q, q < gr.e → ¬ blocked gr q := fun q hq hb => hne ⟨q, hq, hb⟩
    obtain ⟨vis, G, hrun, _⟩ := label_state_weak hk gr.e (Nat.le_refl _) hfree
    rw [hrun] at h
    cases h
  · intro hex
    have hp := Nat.find_spec hex
    exact label_state_abort hk hp.1 hp.2
      (fun q hq hb => Nat.find_min hex hq ⟨by omega, hb⟩) gr.e hp.1

/-- Claim C17 (labeler consistency check).  For every graph with endpoints below `v` and
every `output_order` that is a permutation of the edge indices, on the arrays
`bdz_compute` allocates (`visited` all zero), `assign_nodes` reaches `abort()` exactly when
some edge of the order has all three endpoints among the endpoints of earlier edges; so it
does not reach `abort()` when `output_order` is a reverse peeling order. -/
theorem abort_iff_blocked (gr : graph3) (hk : graph_ok gr) :
    (assign_nodes (bdz_alloc gr) = Except.error Fault.abort ↔
      ∃ p, p < gr.e ∧ ∀ x ∈ endpoints (edge_at gr p),
        ∃ q, q < p ∧ x ∈ endpoints (edge_at gr q)) ∧
    ((∀ p, p < gr.e → ∃ x ∈ endpoints (edge_at gr p),
        ∀ q, q < p → x ∉ endpoints (edge_at gr q)) →
      assign_nodes (bdz_alloc gr) ≠ Except.error Fault.abort) := by
  have key := abort_blocked_iff hk
  refine ⟨key, ?_⟩
  intro hpeel h
  obtain ⟨p, hp, hb⟩ := key.1 h
  obtain ⟨x, hx, hfresh⟩ := hpeel p hp
  obtain ⟨q, hq, hm⟩ := hb x hx
  exact hfresh q hq hm

theorem abort_iff_blocked_witness :
    graph_ok cyclic_graph ∧
    (assign_nodes (bdz_alloc cyclic_graph) = Except.error Fault.abort ↔
      ∃ p, p < cyclic_graph.e ∧ ∀ x ∈ endpoints (edge_at cyclic_graph p),
        ∃ q, q < p ∧ x ∈ endpoints (edge_at cyclic_graph q)) ∧
    ((∀ p, p < cyclic_graph.e → ∃ x ∈ endpoints (edge_at cyclic_graph p),
        ∀ q, q < p → x ∉ endpoints (edge_at cyclic_graph q)) →
      assign_nodes (bdz_alloc cyclic_graph) ≠ Except.error Fault.abort) :=
  ⟨cyclic_graph_ok, abort_iff_blocked cyclic_graph cyclic_graph_ok⟩

/-- Claim C18 (label arithmetic).  For every graph with endpoints below `v` (endpoints of
an edge may repeat) and every `n ≤ e`, the labeling loop has either reached `abort()`
before iteration `n` or is in a state where every entry of `g[0..v)` is at most 3; in that
state, when lines 92-103 choose position `r` and vertex `t` for the edge of iteration `n`,
the three labels sum to at most `9 + r`, so none of the three `uint32_t` subtractions of
`9 + r - g[left] - g[middle] - g[right]` wraps, and the iteration stores a value below 3
into `g[t]`. -/
theorem label_arithmetic (gr : graph3) (hk : graph_ok gr) (n : Nat) (hn : n ≤ gr.e) :
    label_state gr n = Except.error Fault.abort ∨
    ∃ s, label_state gr n = Except.ok s ∧
      (∀ x, x < gr.v → cell s.g x ≤ 3) ∧
      (n < gr.e → ∀ r t, choose_vertex s.visited (edge_at gr n) = Except.ok (r, t) →
        cell s.g (edge_at gr n).left + cell s.g (edge_at gr n).middle
          + cell s.g (edge_at gr n).right ≤ 9 + r ∧
        add32 9 r = 9 + r ∧
        sub32 (add32 9 r) (cell s.g (edge_at gr n).left)
          = 9 + r - cell s.g (edge_at gr n).left ∧
        sub32 (sub32 (add32 9 r) (cell s.g (edge_at gr n).left))
            (cell s.g (edge_at gr n).middle)
          = 9 + r - cell s.g (edge_at gr n).left - cell s.g (edge_at gr n).middle ∧
        sub32 (sub32 (sub32 (add32 9 r) (cell s.g (edge_at gr n).left))
            (cell s.g (edge_at gr n).middle)) (cell s.g (edge_at gr n).right)
          = 9 + r - cell s.g (edge_at gr n).left - cell s.g (edge_at gr n).middle
              - cell s.g (edge_at gr n).right ∧
        ∃ s1, label_step s n = Except.ok s1 ∧
          cell s1.g t = (9 + r - cell s.g (edge_at gr n).left - cell s.g (edge_at gr n).middle
              - cell s.g (edge_at gr n).right) % 3 ∧
          cell s1.g t < 3) := by
  by_cases hex : ∃ p, p < n ∧ blocked gr p
  · left
    have hp := Nat.find_spec hex
    exact label_state_abort hk (by omega) hp.2
      (fun q hq hb => Nat.find_min hex hq ⟨by omega, hb⟩) n hp.1
  · right
    have hfree : ∀ q, q < n → ¬ blocked gr q := fun q hq hb => hex ⟨q, hq, hb⟩
    obtain ⟨vis, G, hrun, hI⟩ := label_state_weak hk n hn hfree
    refine ⟨_, hrun, fun x _ => hI.g_le x, ?_⟩
    intro hlt r t hc
    have hcw := choose_vertex_weak hk hlt hI
    by_cases hb : blocked gr n
    · have := hcw.1 hb
      rw [this] at hc
      cases hc
    · obtain ⟨hc2, _, htm, hr2⟩ := hcw.2 hb
      have hfc : fresh_choice gr n = (r, t) := by
        change choose_vertex vis (edge_at gr n) = _ at hc
        rw [hc2] at hc
        exact Except.ok.inj hc
      obtain ⟨vis1, G1, hstep, hI1, hG1⟩ := (label_step_weak hk hlt
        { bdz_alloc gr with visited := vis, g := G } rfl hI).2 hb
      rw [hfc] at hr2 htm hG1
      simp only at hr2 htm hG1
      have ha := hI.g_le (edge_at gr n).left
      have hb2 := hI.g_le (edge_at gr n).middle
      have hc3 := hI.g_le (edge_at gr n).right
      have htl : t < G.length := by
        have hr := hk.in_range _ (ok_edge_at_mem hk hlt)
        have := hI.g_len
        rcases (mem_endpoints _ _).1 htm with h | h | h <;> rw [h] <;> omega
      dsimp only
      refine ⟨by omega, by unfold add32; omega, by unfold sub32 add32; omega,
        by unfold sub32 add32; omega, by unfold sub32 add32; omega, _, hstep, ?_, ?_⟩
      · show cell G1 t = _
        rw [hG1, cell_set _ _ _ _ htl, if_pos rfl]
        exact label_value r _ _ _ hr2 ha hb2 hc3
      · show cell G1 t < 3
        rw [hG1, cell_set _ _ _ _ htl, if_pos rfl]
        unfold u8
        omega

theorem label_arithmetic_witness :
    (graph_ok sample_graph ∧ 1 ≤ sample_graph.e) ∧
    (label_state sample_graph 1 = Except.error Fault.abort ∨
    ∃ s, label_state sample_graph 1 = Except.ok s ∧
      (∀ x, x < sample_graph.v → cell s.g x ≤ 3) ∧
      (1 < sample_graph.e → ∀ r t,
        choose_vertex s.visited (edge_at sample_graph 1) = Except.ok (r, t) →
        cell s.g (edge_at sample_graph 1).left + cell s.g (edge_at sample_graph 1).middle
          + cell s.g (edge_at sample_graph 1).right ≤ 9 + r ∧
        add32 9 r = 9 + r ∧
        sub32 (add32 9 r) (cell s.g (edge_at sample_graph 1).left)
          = 9 + r - cell s.g (edge_at sample_graph 1).left ∧
        sub32 (sub32 (add32 9 r) (cell s.g (edge_at sample_graph 1).left))
            (cell s.g (edge_at sample_graph 1).middle)
          = 9 + r - cell s.g (edge_at sample_graph 1).left
              - cell s.g (edge_at sample_graph 1).middle ∧
        sub32 (sub32 (sub32 (add32 9 r) (cell s.g (edge_at sample_graph 1).left))
            (cell s.g (edge_at sample_graph 1).middle)) (cell s.g (edge_at sample_graph 1).right)
          = 9 + r - cell s.g (edge_at sample_graph 1).left
              - cell s.g (edge_at sample_graph 1).middle
              - cell s.g (edge_at sample_graph 1).right ∧
        ∃ s1, label_step s 1 = Except.ok s1 ∧
          cell s1.g t = (9 + r - cell s.g (edge_at sample_graph 1).left
              - cell s.g (edge_at sample_graph 1).middle
              - cell s.g (edge_at sample_graph 1).right) % 3 ∧
          cell s1.g t < 3)) :=
  ⟨⟨sample_graph_ok, by decide⟩, label_arithmetic sample_graph sample_graph_ok 1 (by decide)⟩

/-! ## The record of visited vertices -/

theorem fresh_choice_endpoint (gr : graph3) (p : Nat) :
    (fresh_choice gr p).2 ∈ endpoints (edge_at gr p) := by
  unfold fresh_choice
  split_ifs <;> simp [endpoints]

theorem fresh_choice_unblocked {gr : graph3} {p : Nat} (hb : ¬ blocked gr p) :
    ¬ seen gr p (fresh_choice gr p).2 := by
  unfold fresh_choice
  by_cases h1 : seen gr p (edge_at gr p).left
  · by_cases h2 : seen gr p (edge_at gr p).middle
    · rw [if_neg (not_not.2 h1), if_neg (not_not.2 h2)]
      intro h3
      apply hb
      intro x hx
      rcases (mem_endpoints _ _).1 hx with h | h | h <;> rw [h]
      · exact h1
      · exact h2
      · exact h3
    · rw [if_neg (not_not.2 h1), if_pos h2]
      exact h2
  · rw [if_pos h1]
    exact h1

/-- One iteration of the labeling loop on an edge that is not blocked: it runs without
fault, keeps every nonzero entry of `visited`, and re-establishes both invariants. -/
theorem label_step_visit {gr : graph3} (hk : graph_ok gr) (he : gr.e + 1 < 4294967296)
    {p : Nat} (hp : p < gr.e) (hnb : ¬ blocked gr p)
    (s : state) (hs : s.graph = gr) (hI : weak_inv gr p s.visited s.g)
    (hV : visit_inv gr p s.visited) :
    ∃ vis G, label_step s p = Except.ok { s with visited := vis, g := G } ∧
      weak_inv gr (p + 1) vis G ∧ visit_inv gr (p + 1) vis ∧
      ∀ x, cell s.visited x ≠ 0 → cell vis x = cell s.visited x := by
  have hol := ok_order_length hk
  have hj := ok_order_lt hk hp
  have hr := hk.in_range _ (ok_edge_at_mem hk hp)
  obtain ⟨hc, hns, htm, hr2⟩ := (choose_vertex_weak hk hp hI).2 hnb
  have hvl := hI.vis_len
  have hgl := hI.g_len
  have he1 : gr.edges.getD (cell gr.output_order p) ⟨0, 0, 0⟩ = edge_at gr p := rfl
  have hu : u32 (2 + cell gr.output_order p) = 2 + cell gr.output_order p := by
    unfold u32; omega
  rcases hfc : fresh_choice gr p with ⟨r, t⟩
  rw [hfc] at hc hns htm hr2
  simp only at hns htm hr2
  have htlt : t < gr.v := by
    rcases (mem_endpoints _ _).1 htm with h | h | h <;> rw [h]
    · exact hr.1
    · exact hr.2.1
    · exact hr.2.2
  obtain ⟨vis1, hm1, hl1, hg1⟩ := mark_edge_spec s.visited (edge_at gr p) t
    (cell gr.output_order p) (by omega) (by omega) (by omega) (by omega) (by rw [hu]; omega)
  rw [hu] at hg1
  have hal := assign_label_spec s.g (edge_at gr p) r t (by omega) (by omega) (by omega)
    (by omega)
  obtain ⟨val, hvd⟩ : ∃ val, val = u8 (sub32 (sub32 (sub32 (add32 9 r)
      (cell s.g (edge_at gr p).left)) (cell s.g (edge_at gr p).middle))
      (cell s.g (edge_at gr p).right) % 3) := ⟨_, rfl⟩
  rw [← hvd] at hal
  have hval : val ≤ 2 := by
    rw [hvd]
    unfold u8
    omega
  have ht0 : cell s.visited t = 0 := by
    by_contra h
    exact hns ((hV.vis_seen t htlt).1 h)
  have hseen : ∀ x, x < gr.v → (cell vis1 x ≠ 0 ↔ seen gr (p + 1) x) := by
    intro x hx
    rw [hg1, seen_succ]
    by_cases hxt : x = t
    · subst hxt
      simp [htm]
    · by_cases hxe : x ∈ endpoints (edge_at gr p)
      · by_cases hx0 : cell s.visited x = 0 <;> simp [hxt, hxe, hx0]
      · simp only [hxt, hxe, if_false, false_and, or_false]
        exact hV.vis_seen x hx
  refine ⟨vis1, s.g.set t val, ?_, ?_, ?_, ?_⟩
  · unfold label_step
    rw [hs, rd_ok (by omega : p < gr.output_order.length), bind_ok,
      rd_edge_ok (by rw [hk.edges_len]; exact hj), bind_ok, he1, hc, bind_ok]
    simp only [hm1, bind_ok, hal, pure_eq_ok]
  · constructor
    · rw [hl1]; exact hvl
    · simpa using hgl
    · exact hseen
    · intro x
      rw [cell_set _ _ _ _ (by omega)]
      by_cases hxt : x = t
      · rw [if_pos hxt]; omega
      · rw [if_neg hxt]; exact hI.g_le x
  · constructor
    · exact hseen
    · intro x hx h2
      rw [hg1] at h2
      by_cases hxt : x = t
      · exact ⟨p, by omega, by rw [hfc]; exact hxt⟩
      · simp only [hxt, if_false] at h2
        have h3 : 2 ≤ cell s.visited x := by
          by_cases hc1 : x ∈ endpoints (edge_at gr p) ∧ cell s.visited x = 0
          · rw [if_pos hc1] at h2; omega
          · rwa [if_neg hc1] at h2
        obtain ⟨q, hq, hxq⟩ := hV.vis_win x hx h3
        exact ⟨q, by omega, hxq⟩
    · intro q hq
      rcases Nat.lt_succ_iff_lt_or_eq.1 hq with hlt | heq
      · have hw := hV.win_vis q hlt
        have hne : (fresh_choice gr q).2 ≠ t := by
          intro h
          apply hns
          rw [← h]
          exact ⟨q, hlt, fresh_choice_endpoint gr q⟩
        rw [hg1]
        simp only [hne, if_false]
        have : ¬ ((fresh_choice gr q).2 ∈ endpoints (edge_at gr p) ∧
            cell s.visited (fresh_choice gr q).2 = 0) := by
          rw [hw]; omega
        rw [if_neg this, hw]
      · subst heq
        rw [hfc, hg1]
        simp
  · intro x hx0
    rw [hg1]
    have hxt : x ≠ t := fun h => hx0 (h ▸ ht0)
    rw [if_neg hxt, if_neg (fun h => hx0 h.2)]

theorem visit_inv_init (gr : graph3) : visit_inv gr 0 (List.replicate gr.v 0) where
  vis_seen := fun x _ => by
    simp only [cell_replicate_zero]
    exact ⟨fun h => absurd rfl h, fun h => absurd h (not_seen_zero gr x)⟩
  vis_win := fun x _ h => by
    rw [cell_replicate_zero] at h
    omega
  win_vis := fun q hq => by omega

theorem label_state_succ (gr : graph3) (n : Nat) :
    label_state gr (n + 1) = (label_state gr n >>= fun s => label_step s n) := by
  unfold label_state label_loop
  cases init_g (bdz_alloc gr) with
  | error e => rfl
  | ok s0 =>
    simp only [bind_ok]
    rw [foldlM_range_succ]

/-- While no edge is blocked the labeling loop runs without fault, both invariants hold
before every iteration, and no nonzero entry of `visited` changes between two states of the
loop. -/
theorem label_state_visit {gr : graph3} (hk : graph_ok gr) (he : gr.e + 1 < 4294967296)
    (n : Nat) (hn : n ≤ gr.e) (hfree : ∀ q, q < n → ¬ blocked gr q) :
    ∃ vis G, label_state gr n = Except.ok { bdz_alloc gr with visited := vis, g := G } ∧
      weak_inv gr n vis G ∧ visit_inv gr n vis ∧
      ∀ m, m ≤ n → ∃ sm, label_state gr m = Except.ok sm ∧
        ∀ x, cell sm.visited x ≠ 0 → cell vis x = cell sm.visited x := by
  induction n with
  | zero =>
    obtain ⟨G0, hinit, hlen, hG0⟩ := init_g_alloc gr
    have hrun : label_state gr 0 = Except.ok { bdz_alloc gr with g := G0 } := by
      unfold label_state
      rw [hinit]
      rfl
    refine ⟨List.replicate gr.v 0, G0, hrun, weak_inv_init gr G0 hlen hG0, visit_inv_init gr, ?_⟩
    intro m hm
    have hm0 : m = 0 := by omega
    subst hm0
    exact ⟨_, hrun, fun x _ => rfl⟩
  | succ n ih =>
    obtain ⟨vis, G, hrun, hI, hV, hkeep⟩ := ih (by omega) (fun q hq => hfree q (by omega))
    obtain ⟨vis1, G1, hstep, hI1, hV1, hk1⟩ := label_step_visit hk he (by omega : n < gr.e)
      (hfree n (by omega)) { bdz_alloc gr with visited := vis, g := G } rfl hI hV
    have hrun1 : label_state gr (n + 1)
        = Except.ok { bdz_alloc gr with visited := vis1, g := G1 } := by
      rw [label_state_succ, hrun, bind_ok, hstep]
    refine ⟨vis1, G1, hrun1, hI1, hV1, ?_⟩
    intro m hm
    rcases Nat.lt_succ_iff_lt_or_eq.1 (Nat.lt_succ_of_le hm) with hlt | heq
    · obtain ⟨sm, hsm, hx⟩ := hkeep m (by omega)
      refine ⟨sm, hsm, fun x hx0 => ?_⟩
      have h1 := hx x hx0
      rw [hk1 x (by show cell vis x ≠ 0; rw [h1]; exact hx0)]
      exact h1
    · subst heq
      exact ⟨_, hrun1, fun x _ => rfl⟩

theorem rank_step_frame {sh sh1 : state × Nat} {i : Nat}
    (h : rank_step sh i = Except.ok sh1) :
    sh1.1.visited = sh.1.visited ∧ sh1.1.g = sh.1.g ∧ sh1.1.graph = sh.1.graph := by
  unfold rank_step at h
  dsimp only at h
  obtain ⟨_, _, h⟩ := bind_eq_ok h
  obtain ⟨_, _, h⟩ := bind_eq_ok h
  obtain ⟨_, _, h⟩ := bind_eq_ok h
  obtain ⟨_, _, h⟩ := bind_eq_ok h
  obtain ⟨_, _, h⟩ := bind_eq_ok h
  obtain ⟨_, _, h⟩ := bind_eq_ok h
  obtain ⟨_, _, h⟩ := bind_eq_ok h
  obtain ⟨_, _, h⟩ := bind_eq_ok h
  cases h
  exact ⟨rfl, rfl, rfl⟩

theorem rank_loop_frame {s : state} {n : Nat} {sh : state × Nat}
    (h : rank_loop s n = Except.ok sh) :
    sh.1.visited = s.visited ∧ sh.1.g = s.g ∧ sh.1.graph = s.graph := by
  induction n generalizing sh with
  | zero =>
    cases h
    exact ⟨rfl, rfl, rfl⟩
  | succ n ih =>
    unfold rank_loop at h
    rw [foldlM_range_succ] at h
    obtain ⟨sh0, h0, h1⟩ := bind_eq_ok h
    obtain ⟨a, b, c⟩ := ih h0
    obtain ⟨a1, b1, c1⟩ := rank_step_frame h1
    exact ⟨a1.trans a, b1.trans b, c1.trans c⟩

/-- Lines 117-156 leave `visited` and `g` as the labeling loop left them. -/
theorem assign_nodes_keeps {s0 s : state} (h : assign_nodes s0 = Except.ok s) :
    ∃ s1, assign_labels s0 = Except.ok s1 ∧ s.visited = s1.visited ∧ s.g = s1.g := by
  unfold assign_nodes at h
  obtain ⟨sh, hm, ht⟩ := bind_eq_ok h
  unfold assign_main at hm
  obtain ⟨s1, hl, hr⟩ := bind_eq_ok hm
  obtain ⟨a, b, _⟩ := rank_loop_frame hr
  obtain ⟨_, a1, b1, _⟩ := trailing_writes_frame ht
  exact ⟨s1, hl, a1.trans a, b1.trans b⟩

theorem ok_order_inj {gr : graph3} (hk : graph_ok gr) {p q : Nat} (hp : p < gr.e)
    (hq : q < gr.e) (h : cell gr.output_order p = cell gr.output_order q) : p = q := by
  have hl := ok_order_length hk
  have hnd : gr.output_order.Nodup := (hk.order_perm.nodup_iff).2 (List.nodup_range _)
  have hp2 : p < gr.output_order.length := by omega
  have hq2 : q < gr.output_order.length := by omega
  unfold cell at h
  rw [List.getD_eq_getElem _ _ hp2, List.getD_eq_getElem _ _ hq2] at h
  exact (List.Nodup.getElem_inj_iff hnd).1 h

theorem ok_order_surj {gr : graph3} (hk : graph_ok gr) {j : Nat} (hj : j < gr.e) :
    ∃ p, p < gr.e ∧ cell gr.output_order p = j := by
  have hl := ok_order_length hk
  have hm : j ∈ gr.output_order := (hk.order_perm.mem_iff).2 (by simpa using hj)
  obtain ⟨p, hp, hpj⟩ := List.getElem_of_mem hm
  exact ⟨p, by omega, by unfold cell; rw [List.getD_eq_getElem _ _ hp]; exact hpj⟩

/-- Claim C20 (vertex-to-edge record).  For every graph with endpoints below `v`, fewer
than `2^32 - 1` edges and a permutation of the edge indices as order, on which `assign_nodes`
does not reach `abort()`: the labeling loop completes, the rest of `assign_nodes` leaves
`visited` as the loop left it, and in that `visited`, with `j = output_order[p]` the edge
of iteration `p` (every edge index is one) and `t_p` the vertex lines 92-103 choose in
iteration `p`: `visited[x] = 2 + j` exactly when `x = t_p`; `visited[x] = 1` exactly when
`x` is an endpoint of some edge and chosen by no iteration; `visited[x] = 0` exactly when
`x` is an endpoint of no edge.  Between two states of the loop no nonzero entry changes,
distinct iterations choose distinct vertices, and `t_p` is an endpoint of the edge of
iteration `p` and of no edge of an earlier iteration. -/
theorem visited_record (gr : graph3) (hk : graph_ok gr) (he : gr.e + 1 < 4294967296)
    (hna : assign_nodes (bdz_alloc gr) ≠ Except.error Fault.abort) :
    ∃ s1, assign_labels (bdz_alloc gr) = Except.ok s1 ∧
      (∀ s, assign_nodes (bdz_alloc gr) = Except.ok s → s.visited = s1.visited) ∧
      (∀ j, j < gr.e → ∃ p, p < gr.e ∧ cell gr.output_order p = j) ∧
      (∀ p, p < gr.e → ∃ sp, label_state gr p = Except.ok sp ∧
        choose_vertex sp.visited (edge_at gr p) = Except.ok (fresh_choice gr p)) ∧
      (∀ x, x < gr.v → ∀ p, p < gr.e →
        (cell s1.visited x = 2 + cell gr.output_order p ↔ x = (fresh_choice gr p).2)) ∧
      (∀ x, x < gr.v → (cell s1.visited x = 1 ↔
        (∃ q, q < gr.e ∧ x ∈ endpoints (edge_at gr q)) ∧
          ∀ p, p < gr.e → x ≠ (fresh_choice gr p).2)) ∧
      (∀ x, x < gr.v →
        (cell s1.visited x = 0 ↔ ∀ q, q < gr.e → x ∉ endpoints (edge_at gr q))) ∧
      (∀ m n, m ≤ n → n ≤ gr.e → ∃ sm sn, label_state gr m = Except.ok sm ∧
        label_state gr n = Except.ok sn ∧
        ∀ x, cell sm.visited x ≠ 0 → cell sn.visited x = cell sm.visited x) ∧
      (∀ p q, p < gr.e → q < gr.e → (fresh_choice gr p).2 = (fresh_choice gr q).2 → p = q) ∧
      (∀ p, p < gr.e → (fresh_choice gr p).2 ∈ endpoints (edge_at gr p) ∧
        ∀ q, q < p → (fresh_choice gr p).2 ∉ endpoints (edge_at gr q)) := by
  have hfree : ∀ q, q < gr.e → ¬ blocked gr q :=
    fun q hq hb => hna ((abort_blocked_iff hk).2 ⟨q, hq, hb⟩)
  obtain ⟨vis, G, hrun, hI, hV, _⟩ := label_state_visit hk he gr.e (Nat.le_refl _) hfree
  have hinj : ∀ p q, p < gr.e → q < gr.e →
      (fresh_choice gr p).2 = (fresh_choice gr q).2 → p = q := by
    intro p q hp hq h
    by_contra hne
    rcases Nat.lt_or_gt_of_ne hne with hlt | hlt
    · exact fresh_choice_unblocked (hfree q hq) ⟨p, hlt, h ▸ fresh_choice_endpoint gr p⟩
    · exact fresh_choice_unblocked (hfree p hp) ⟨q, hlt, h ▸ fresh_choice_endpoint gr q⟩
  have hlt : ∀ p, p < gr.e → (fresh_choice gr p).2 < gr.v := by
    intro p hp
    have hr := hk.in_range _ (ok_edge_at_mem hk hp)
    rcases (mem_endpoints _ _).1 (fresh_choice_endpoint gr p) with h | h | h <;> rw [h]
    · exact hr.1
    · exact hr.2.1
    · exact hr.2.2
  refine ⟨_, (assign_labels_eq gr).trans hrun, ?_, fun j hj => ok_order_surj hk hj, ?_, ?_, ?_,
    ?_, ?_, hinj, ?_⟩
  · intro s hs
    obtain ⟨s1, h1, hv1, _⟩ := assign_nodes_keeps hs
    rw [assign_labels_eq, hrun] at h1
    cases h1
    exact hv1
  · intro p hp
    obtain ⟨visp, Gp, hrunp, hIp, _⟩ :=
      label_state_visit hk he p (by omega) (fun q hq => hfree q (by omega))
    exact ⟨_, hrunp, ((choose_vertex_weak hk hp hIp).2 (hfree p hp)).1⟩
  · intro x hx p hp
    show cell vis x = _ ↔ _
    constructor
    · intro h
      obtain ⟨q, hq, hxq⟩ := hV.vis_win x hx (by omega)
      have hw := hV.win_vis q hq
      rw [← hxq, h] at hw
      have : p = q := ok_order_inj hk hp hq (by omega)
      rw [this]
      exact hxq
    · intro h
      rw [h]
      exact hV.win_vis p hp
  · intro x hx
    show cell vis x = 1 ↔ _
    constructor
    · intro h
      refine ⟨(hV.vis_seen x hx).1 (by omega), fun p hp hxp => ?_⟩
      have := hV.win_vis p hp
      rw [← hxp] at this
      omega
    · rintro ⟨hs, hnc⟩
      have h0 := (hV.vis_seen x hx).2 hs
      by_contra h1
      obtain ⟨q, hq, hxq⟩ := hV.vis_win x hx (by omega)
      exact hnc q hq hxq
  · intro x hx
    show cell vis x = 0 ↔ _
    have := hV.vis_seen x hx
    constructor
    · intro h0 q hq hm
      exact (this.2 ⟨q, hq, hm⟩) h0
    · intro h
      by_contra h0
      obtain ⟨q, hq, hm⟩ := this.1 h0
      exact h q hq hm
  · intro m n hmn hn
    obtain ⟨visn, Gn, hrunn, _, _, hkeep⟩ :=
      label_state_visit hk he n hn (fun q hq => hfree q (by omega))
    obtain ⟨sm, hsm, hx⟩ := hkeep m hmn
    exact ⟨sm, _, hsm, hrunn, hx⟩
  · intro p hp
    refine ⟨fresh_choice_endpoint gr p, fun q hq hm => ?_⟩
    exact fresh_choice_unblocked (hfree p hp) ⟨q, hq, hm⟩

theorem visited_record_witness :
    (graph_ok sample_graph ∧ sample_graph.e + 1 < 4294967296 ∧
      assign_nodes (bdz_alloc sample_graph) ≠ Except.error Fault.abort) ∧
    ∃ s1, assign_labels (bdz_alloc sample_graph) = Except.ok s1 ∧
      (∀ s, assign_nodes (bdz_alloc sample_graph) = Except.ok s → s.visited = s1.visited) ∧
      (∀ j, j < sample_graph.e → ∃ p, p < sample_graph.e ∧ cell sample_graph.output_order p = j) ∧
      (∀ p, p < sample_graph.e → ∃ sp, label_state sample_graph p = Except.ok sp ∧
        choose_vertex sp.visited (edge_at sample_graph p)
          = Except.ok (fresh_choice sample_graph p)) ∧
      (∀ x, x < sample_graph.v → ∀ p, p < sample_graph.e →
        (cell s1.visited x = 2 + cell sample_graph.output_order p ↔
          x = (fresh_choice sample_graph p).2)) ∧
      (∀ x, x < sample_graph.v → (cell s1.visited x = 1 ↔
        (∃ q, q < sample_graph.e ∧ x ∈ endpoints (edge_at sample_graph q)) ∧
          ∀ p, p < sample_graph.e → x ≠ (fresh_choice sample_graph p).2)) ∧
      (∀ x, x < sample_graph.v →
        (cell s1.visited x = 0 ↔
          ∀ q, q < sample_graph.e → x ∉ endpoints (edge_at sample_graph q))) ∧
      (∀ m n, m ≤ n → n ≤ sample_graph.e → ∃ sm sn,
        label_state sample_graph m = Except.ok sm ∧
        label_state sample_graph n = Except.ok sn ∧
        ∀ x, cell sm.visited x ≠ 0 → cell sn.visited x = cell sm.visited x) ∧
      (∀ p q, p < sample_graph.e → q < sample_graph.e →
        (fresh_choice sample_graph p).2 = (fresh_choice sample_graph q).2 → p = q) ∧
      (∀ p, p < sample_graph.e →
        (fresh_choice sample_graph p).2 ∈ endpoints (edge_at sample_graph p) ∧
        ∀ q, q < p → (fresh_choice sample_graph p).2 ∉ endpoints (edge_at sample_graph q)) :=
  have hna : assign_nodes (bdz_alloc sample_graph) ≠ Except.error Fault.abort := by
    obtain ⟨s, hs⟩ := assign_nodes_ok sample_graph_valid (by decide)
    rw [hs]
    exact fun h => by cases h
  ⟨⟨sample_graph_ok, by decide, hna⟩,
    visited_record sample_graph sample_graph_ok (by decide) hna⟩

/-! ## The emitted selection -/

/-- The packing loop of lines 177-185 on a label array of `4 * v` bytes with entries of at
most 3, for `v ≥ 10`: it reads only allocated bytes, and the words it emits fill the
declared array and hold the label of vertex `i` in the 2-bit field `i & 15` of word
`i >> 4`. -/
theorem print_g_spec (s : state) (v : Nat) (G : List Nat) (hg : s.g = G) (hgv : s.graph.v = v)
    (h10 : 10 ≤ v) (hfit : v + 15 < 4294967296) (hlen : G.length = 4 * v)
    (h3 : ∀ x, cell G x ≤ 3) :
    ∃ ws, print_g s = Except.ok ws ∧ ws.length = (v + 15) / 16 ∧
      c_array 32 (u32 (s.graph.v + 15) / 16) ws = ws ∧
      ∀ i, i < 16 * ws.length →
        (cell ws (i >>> 4) >>> (2 * (i &&& 15))) &&& 3 = cell G i := by
  have hf : ∀ i, i < v → ∃ w, (fun i => pack_word G i) i = Except.ok w ∧
      (w < 4294967296 ∧ ∀ j, j < 16 → (w >>> (2 * j)) &&& 3 = cell G (i + j)) := by
    intro i hi
    exact pack_word_spec G i (by rw [hlen]; omega) (fun j _ => h3 _)
  obtain ⟨ws, hws, hl, hQ⟩ := emit_loop_spec (fun i => pack_word G i)
    (fun i w => w < 4294967296 ∧ ∀ j, j < 16 → (w >>> (2 * j)) &&& 3 = cell G (i + j))
    v 16 (by omega) hf v 0 (by omega)
  have hlen2 : ws.length = (v + 15) / 16 := by
    rw [hl]
    congr 1
  refine ⟨ws, ?_, hlen2, ?_, ?_⟩
  · unfold print_g
    rw [hg, hgv]
    exact hws
  · have hsize : u32 (s.graph.v + 15) / 16 = ws.length := by
      rw [hgv, hlen2]
      unfold u32
      omega
    have hmap : ws.map (fun x => x % 2 ^ 32) = ws := by
      conv_rhs => rw [← List.map_id ws]
      apply List.map_congr_left
      intro a ha
      obtain ⟨k, hk, hka⟩ := List.getElem_of_mem ha
      have := (hQ k hk).1
      rw [cell_eq_getElem _ _ hk, hka] at this
      exact Nat.mod_eq_of_lt this
    unfold c_array
    rw [hsize, hmap]
    simp
  · intro i hi
    rw [shr4, and_fifteen]
    have := (hQ (i / 16) (by omega)).2 (i % 16) (Nat.mod_lt _ (by omega))
    rw [this]
    congr 1
    omega

/-- A loop of `print_hash` that emits `a[i >> sh]` stays inside `a` when every index does. -/
theorem emit_rd_ok (a : List Nat) (v step start sh : Nat) (hstep : 0 < step)
    (hlen : ∀ i, i < v → i >>> sh < a.length) :
    ∃ ws, emit_loop (fun i => rd a (i >>> sh)) v step v start = Except.ok ws := by
  obtain ⟨ws, hws, _⟩ := emit_loop_spec (fun i => rd a (i >>> sh)) (fun _ _ => True) v step
    hstep (fun i hi => ⟨_, rd_ok (hlen i hi), trivial⟩) v start (by nlinarith)
  exact ⟨ws, hws⟩

theorem trailing_writes_lengths {s s1 : state} {i holes : Nat}
    (h : trailing_writes s i holes = Except.ok s1) :
    s1.holes64k.length = s.holes64k.length ∧ s1.holes256.length = s.holes256.length ∧
    s1.holes256_64.length = s.holes256_64.length ∧
    s1.holes256_128.length = s.holes256_128.length ∧
    s1.holes256_192.length = s.holes256_192.length := by
  unfold trailing_writes at h
  obtain ⟨t64, h1, h⟩ := bind_eq_ok h
  obtain ⟨t256, h2, h⟩ := bind_eq_ok h
  obtain ⟨u64, h3, h⟩ := bind_eq_ok h
  obtain ⟨u128, h4, h⟩ := bind_eq_ok h
  obtain ⟨u192, h5, h⟩ := bind_eq_ok h
  cases h
  have f1 := cond_wr_frame (fun b hb => wr_frame hb) h1
  have f2 := cond_wr_frame (fun b hb => by
    obtain ⟨a, _, hw⟩ := bind_eq_ok hb
    exact wr_frame hw) h2
  have sub : ∀ (tbl t : List Nat) (c : Prop) [Decidable c],
      (if c then do
          let b ← rd t256 ((i >>> 8) + 1)
          let a ← rd t64 (((i >>> 8) + 1) >>> 8)
          wr tbl ((i >>> 8) + 1) (u8 (sub32 (sub32 holes b) a))
        else pure tbl) = Except.ok t →
      t.length = tbl.length ∧ ∀ k, k ≠ (i >>> 8) + 1 → cell t k = cell tbl k := by
    intro tbl t c _ ht
    exact cond_wr_frame (fun b hb => by
      obtain ⟨_, _, hb⟩ := bind_eq_ok hb
      obtain ⟨_, _, hw⟩ := bind_eq_ok hb
      exact wr_frame hw) ht
  exact ⟨f1.1, f2.1, (sub _ _ _ h3).1, (sub _ _ _ h4).1, (sub _ _ _ h5).1⟩

/-- The five summary arrays keep their allocated lengths through `assign_nodes`. -/
theorem final_lengths {gr : graph3} (hv : valid_graph gr) :
    ∃ vis G s2 h,
      label_inv gr gr.e vis G ∧
      assign_main (bdz_alloc gr) = Except.ok (s2, h) ∧
      ∀ s, (s = s2 ∨ assign_nodes (bdz_alloc gr) = Except.ok s) →
        s.graph = gr ∧ s.visited = vis ∧ s.g = G ∧
        s.holes64k.length = (gr.v + 65535) / 65536 + 1 ∧
        s.holes256.length = (gr.v + 255) / 256 + 1 ∧
        s.holes256_64.length = (gr.v + 255) / 256 + 1 ∧
        s.holes256_128.length = (gr.v + 255) / 256 + 1 ∧
        s.holes256_192.length = (gr.v + 255) / 256 + 1 := by
  obtain ⟨vis, G, s2, h, _, hI, hm, hR, hfin⟩ := after_main hv
  refine ⟨vis, G, s2, h, hI, hm, ?_⟩
  intro s hs
  obtain ⟨a, b, c, _⟩ := hfin s hs
  refine ⟨a, b, c, ?_⟩
  rcases hs with rfl | hn
  · exact ⟨hR.len64k, hR.len256, hR.len256_64, hR.len256_128, hR.len256_192⟩
  · unfold assign_nodes at hn
    rw [hm, bind_ok] at hn
    obtain ⟨l1, l2, l3, l4, l5⟩ := trailing_writes_lengths hn
    exact ⟨l1.trans hR.len64k, l2.trans hR.len256, l3.trans hR.len256_64,
      l4.trans hR.len256_128, l5.trans hR.len256_192⟩

/-- The table output of `print_hash` succeeds when the packing loop does and the summary
arrays have their allocated lengths; the emitted `g` is the declared array filled with the
packed words. -/
theorem print_tables_ok (s : state) (ws : List Nat) (hg : print_g s = Except.ok ws)
    (l1 : s.holes64k.length = (s.graph.v + 65535) / 65536 + 1)
    (l2 : s.holes256.length = (s.graph.v + 255) / 256 + 1)
    (l3 : s.holes256_64.length = (s.graph.v + 255) / 256 + 1)
    (l4 : s.holes256_128.length = (s.graph.v + 255) / 256 + 1)
    (l5 : s.holes256_192.length = (s.graph.v + 255) / 256 + 1) :
    ∃ T, print_tables s = Except.ok T ∧ T.v = s.graph.v ∧
      T.g = c_array 32 (u32 (s.graph.v + 15) / 16) ws := by
  obtain ⟨w1, e1⟩ := emit_rd_ok s.holes64k s.graph.v 65536 0 16 (by omega)
    (fun i hi => by rw [shr16, l1]; omega)
  obtain ⟨w2, e2⟩ := emit_rd_ok s.holes256 s.graph.v 256 0 8 (by omega)
    (fun i hi => by rw [shr8, l2]; omega)
  obtain ⟨w3, e3⟩ := emit_rd_ok s.holes256_64 s.graph.v 256 64 8 (by omega)
    (fun i hi => by rw [shr8, l3]; omega)
  obtain ⟨w4, e4⟩ := emit_rd_ok s.holes256_128 s.graph.v 256 128 8 (by omega)
    (fun i hi => by rw [shr8, l4]; omega)
  obtain ⟨w5, e5⟩ := emit_rd_ok s.holes256_192 s.graph.v 256 192 8 (by omega)
    (fun i hi => by rw [shr8, l5]; omega)
  refine ⟨{ v := s.graph.v,
             g := c_array 32 (u32 (s.graph.v + 15) / 16) ws,
             holes64k := c_array 32 (u32 (s.graph.v + 65535) / 65536) w1,
             holes256 := c_array 16 (u32 (s.graph.v + 255) / 256) w2,
             holes256_64 := c_array 8 (u32 (s.graph.v + 255) / 256) w3,
             holes256_128 := c_array 8 (u32 (s.graph.v + 255) / 256) w4,
             holes256_192 := c_array 8 (u32 (s.graph.v + 255) / 256) w5 }, ?_, ?_, ?_⟩
  · unfold print_tables print_holes64k print_holes256 print_holes256_64 print_holes256_128
      print_holes256_192
    rw [hg, bind_ok, e1, bind_ok, e2, bind_ok, e3, bind_ok, e4, bind_ok, e5, bind_ok]
    rfl
  · rfl
  · rfl

/-- The emitted selection on three vertices below `v`, over a packed table that decodes to
the labels `G`: it reads inside the table and selects by the label sum modulo 3. -/
theorem emitted_select_spec (T : tables) (G : List Nat) (v : Nat) (hlen : T.g.length = (v + 15) / 16)
    (hfield : ∀ i, i < 16 * T.g.length →
      (cell T.g (i >>> 4) >>> (2 * (i &&& 15))) &&& 3 = cell G i)
    (h3 : ∀ x, cell G x ≤ 3) (l m r : Nat) (hl : l < v) (hm : m < v) (hr : r < v) :
    emitted_select T l m r = Except.ok
      (if (cell G l + cell G m + cell G r) % 3 = 0 then l
       else if (cell G l + cell G m + cell G r) % 3 = 1 then m else r) := by
  unfold emitted_select
  rw [rd_ok (by rw [shr4, hlen]; omega : l >>> 4 < T.g.length), bind_ok,
    rd_ok (by rw [shr4, hlen]; omega : m >>> 4 < T.g.length), bind_ok,
    rd_ok (by rw [shr4, hlen]; omega : r >>> 4 < T.g.length), bind_ok,
    hfield l (by omega), hfield m (by omega), hfield r (by omega)]
  have ha := h3 l
  have hb := h3 m
  have hc := h3 r
  have e : add32 (add32 (cell G l) (cell G m)) (cell G r) = cell G l + cell G m + cell G r := by
    unfold add32
    omega
  simp only [e]
  rfl

/-- Claim C19 (authoritative-vertex selection).  For every valid graph with `v ≥ 10` (the
minimum `bdz_compute` sets), in the state after lines 86-141 and in every final state of
`assign_nodes`, `print_hash` writes its tables without fault, and for the edge of every
iteration `p` of the labeling loop, with endpoints `(h0, h1, h2)`: the emitted selection
step on the emitted `g` words yields exactly the vertex `t` that lines 92-103 chose in that
iteration, and that vertex is the one with `visited[t] = 2 + j` for the edge index
`j = output_order[p]`. -/
theorem selection_yields_choice (gr : graph3) (hv : valid_graph gr) (h10 : 10 ≤ gr.v) :
    ∃ s2 h, assign_main (bdz_alloc gr) = Except.ok (s2, h) ∧
      (gr.v % 256 ≠ 0 → ∃ s, assign_nodes (bdz_alloc gr) = Except.ok s) ∧
      ∀ s, (s = s2 ∨ assign_nodes (bdz_alloc gr) = Except.ok s) →
        ∃ T, print_tables s = Except.ok T ∧
          ∀ p, p < gr.e → ∃ r t,
            chosen gr p = Except.ok (r, t) ∧
            cell s.visited t = 2 + cell gr.output_order p ∧
            emitted_select T (edge_at gr p).left (edge_at gr p).middle (edge_at gr p).right
              = Except.ok t := by
  obtain ⟨vis, G, s2, h, hI, hm, hfin⟩ := final_lengths hv
  refine ⟨s2, h, hm, assign_nodes_ok hv, ?_⟩
  intro s hs
  obtain ⟨hgr, hvis, hg, l1, l2, l3, l4, l5⟩ := hfin s hs
  have hgv : s.graph.v = gr.v := by rw [hgr]
  have h3 : ∀ x, cell G x ≤ 3 := by
    intro x
    by_cases hx : x < gr.v
    · exact label_inv_le3 hI hx
    · rw [hI.g_pad x (by omega)]
      omega
  have hfit := hv.v_fits
  obtain ⟨ws, hws, hwl, hca, hfield⟩ := print_g_spec s gr.v G hg hgv h10 (by omega) hI.g_len h3
  obtain ⟨T, hT, _, hTg⟩ := print_tables_ok s ws hws (by rw [hgv]; exact l1)
    (by rw [hgv]; exact l2) (by rw [hgv]; exact l3) (by rw [hgv]; exact l4)
    (by rw [hgv]; exact l5)
  rw [hca] at hTg
  refine ⟨T, hT, ?_⟩
  intro p hp
  have hr := hv.in_range _ (edge_at_mem hv hp)
  refine ⟨(fresh_choice gr p).1, (fresh_choice gr p).2, chosen_eq hv hp, ?_, ?_⟩
  · rw [hvis]
    exact hI.win_vis p hp
  · rw [emitted_select_spec T G gr.v (by rw [hTg]; exact hwl) (by rw [hTg]; exact hfield) h3
      _ _ _ hr.1 hr.2.1 hr.2.2, hI.law p hp]
    rcases (fresh_choice_spec hv hp).2 with ⟨h1, h2⟩ | ⟨h1, h2, _⟩ | ⟨h1, h2, _⟩
    · rw [h1, h2]
      rfl
    · rw [h1, h2]
      rfl
    · rw [h1, h2]
      rfl

theorem selection_yields_choice_witness :
    (valid_graph sample_graph ∧ 10 ≤ sample_graph.v) ∧
    ∃ s2 h, assign_main (bdz_alloc sample_graph) = Except.ok (s2, h) ∧
      (sample_graph.v % 256 ≠ 0 → ∃ s, assign_nodes (bdz_alloc sample_graph) = Except.ok s) ∧
      ∀ s, (s = s2 ∨ assign_nodes (bdz_alloc sample_graph) = Except.ok s) →
        ∃ T, print_tables s = Except.ok T ∧
          ∀ p, p < sample_graph.e → ∃ r t,
            chosen sample_graph p = Except.ok (r, t) ∧
            cell s.visited t = 2 + cell sample_graph.output_order p ∧
            emitted_select T (edge_at sample_graph p).left (edge_at sample_graph p).middle
              (edge_at sample_graph p).right = Except.ok t :=
  ⟨⟨sample_graph_valid, by decide⟩,
    selection_yields_choice sample_graph sample_graph_valid (by decide)⟩

/-! ## bdz_compute: parameters, vertex count and outcome -/

/-- Every run of lines 333-369 starts with the call of `graph3_setup`. -/
theorem attempt_start (v e : Nat) (mo : Bool) (w : callees) :
    ∃ rest, (attempt v e mo w).trace = call.graph3_setup v e :: rest := by
  unfold attempt
  by_cases h1 : (List.range 8).any w.calloc_null = true
  · simp only [if_pos h1]
    exact ⟨_, rfl⟩
  · by_cases h2 : w.hash_result ≠ 0
    · simp only [if_neg h1, if_pos h2]
      exact ⟨_, rfl⟩
    · by_cases h3 : w.order_result ≠ 0
      · simp only [if_neg h1, if_neg h2, if_pos h3]
        exact ⟨_, rfl⟩
      · simp only [if_neg h1, if_neg h2, if_neg h3]
        rcases assign_nodes (bdz_alloc (built_graph v e w)) with f | s
        · exact ⟨_, rfl⟩
        · dsimp only
          rcases print_hash s mo with f | out
          · exact ⟨_, rfl⟩
          · exact ⟨_, rfl⟩

/-- A run that passes the checks of lines 318-325 and converts a product below `2^32`:
it is the run of lines 333-369 after the call of `seed_hash`. -/
theorem bdz_compute_accepted (nb : nbperf) (w : callees) (hc : nb.c = 0 ∨ 1.24 ≤ nb.c)
    (hs : 3 ≤ nb.hash_size)
    (hfit : (if nb.c = 0 then (1.24 : ℚ) else nb.c) * (nb.n : ℚ) < 4294967296) :
    bdz_compute nb w =
      { attempt (vertex_count (if nb.c = 0 then (1.24 : ℚ) else nb.c) nb.n) (u32 nb.n)
          nb.map_output w with
        trace := call.seed_hash :: (attempt (vertex_count
          (if nb.c = 0 then (1.24 : ℚ) else nb.c) nb.n) (u32 nb.n) nb.map_output w).trace } := by
  have h1 : ¬ (if nb.c = 0 then (1.24 : ℚ) else nb.c) < 1.24 := by
    rcases hc with h | h
    · rw [if_pos h]
      exact lt_irrefl _
    · have hne : nb.c ≠ 0 := by
        intro h0
        rw [h0] at h
        norm_num at h
      rw [if_neg hne]
      exact not_lt.2 h
  have h2 : ¬ nb.hash_size < 3 := by omega
  have h3 : ¬ (4294967296 : ℚ) ≤ (if nb.c = 0 then (1.24 : ℚ) else nb.c) * (nb.n : ℚ) :=
    not_le.2 hfit
  unfold bdz_compute
  simp only [if_neg h1, if_neg h2, if_neg h3]

/-- The run passes lines 318-325 exactly for `c = 0` or `c ≥ 1.24` with `hash_size ≥ 3`;
with the product `c * n` below `2^32` it then seeds the hash and sets up the graph with the
vertex count of lines 327-331 for the selected constant. -/
theorem bdz_compute_start (nb : nbperf) (w : callees) (hc : nb.c = 0 ∨ 1.24 ≤ nb.c)
    (hs : 3 ≤ nb.hash_size)
    (hfit : (if nb.c = 0 then (1.24 : ℚ) else nb.c) * (nb.n : ℚ) < 4294967296) :
    ∃ rest, (bdz_compute nb w).trace =
      call.seed_hash :: call.graph3_setup
        (vertex_count (if nb.c = 0 then (1.24 : ℚ) else nb.c) nb.n) (u32 nb.n) :: rest := by
  rw [bdz_compute_accepted nb w hc hs hfit]
  obtain ⟨rest, h⟩ := attempt_start (vertex_count (if nb.c = 0 then (1.24 : ℚ) else nb.c) nb.n)
    (u32 nb.n) nb.map_output w
  exact ⟨rest, by simp only [h]⟩

/-- Claim C12 fails as stated.  `c = 0` is below 1.24, and with `hash_size = 3` the run is
not rejected: line 318 replaces the 0 by the default 1.24, the hash is seeded, and when
`graph3_hash` then reports a failure, `bdz_compute` returns -1 instead of leaving with
exit status 1. -/
theorem zero_constant_not_rejected :
    default_request.c < 1.24 ∧
    (∀ w, ∃ rest, (bdz_compute default_request w).trace = call.seed_hash :: rest) ∧
    (bdz_compute default_request failing_callees).result = ending.returned (-1) := by
  refine ⟨by norm_num [default_request], fun w => ?_, ?_⟩
  · obtain ⟨rest, h⟩ := bdz_compute_start default_request w (Or.inl rfl) (by decide)
      (by norm_num [default_request])
    exact ⟨_, h⟩
  · rw [bdz_compute_accepted default_request failing_callees (Or.inl rfl) (by decide)
      (by norm_num [default_request])]
    unfold attempt
    simp [failing_callees]

/-- Claim C12 as amended (parameter rejection).  For every nonzero `c` below 1.24 and for
every `hash_size` below 3, `bdz_compute` ends with a fatal parameter error (exit status 1)
before it makes any call, so before it seeds the hash, builds the graph or writes anything;
`c = 0` is not rejected but selects the default 1.24: with `hash_size ≥ 3` the run goes on
to seed the hash. -/
theorem parameter_rejection (nb : nbperf) (w : callees) :
    ((nb.c ≠ 0 ∧ nb.c < 1.24) ∨ nb.hash_size < 3 →
      (bdz_compute nb w).trace = [] ∧ (bdz_compute nb w).written = none ∧
      ((bdz_compute nb w).result = ending.exited 1 c_message ∨
        (bdz_compute nb w).result = ending.exited 1 hash_size_message)) ∧
    (nb.c = 0 → 3 ≤ nb.hash_size →
      ∃ rest, (bdz_compute nb w).trace = call.seed_hash :: rest) := by
  constructor
  · intro h
    by_cases h1 : (if nb.c = 0 then (1.24 : ℚ) else nb.c) < 1.24
    · have hrun : bdz_compute nb w =
          { trace := [], result := ending.exited 1 c_message, written := none } := by
        unfold bdz_compute
        simp only [if_pos h1]
      rw [hrun]
      exact ⟨rfl, rfl, Or.inl rfl⟩
    · have h2 : nb.hash_size < 3 := by
        rcases h with ⟨hne, hlt⟩ | h
        · rw [if_neg hne] at h1
          exact absurd hlt h1
        · exact h
      have hrun : bdz_compute nb w =
          { trace := [], result := ending.exited 1 hash_size_message, written := none } := by
        unfold bdz_compute
        simp only [if_neg h1, if_pos h2]
      rw [hrun]
      exact ⟨rfl, rfl, Or.inr rfl⟩
  · intro h0 hs
    unfold bdz_compute
    have h1 : ¬ (if nb.c = 0 then (1.24 : ℚ) else nb.c) < 1.24 := by
      rw [if_pos h0]
      exact lt_irrefl _
    have h2 : ¬ nb.hash_size < 3 := by omega
    simp only [if_neg h1, if_neg h2]
    by_cases h3 : (4294967296 : ℚ) ≤ (if nb.c = 0 then (1.24 : ℚ) else nb.c) * (nb.n : ℚ)
    · simp only [if_pos h3]
      exact ⟨_, rfl⟩
    · simp only [if_neg h3]
      exact ⟨_, rfl⟩

theorem parameter_rejection_witness :
    ((1 : ℚ) ≠ 0 ∧ (1 : ℚ) < 1.24) ∧
    ((bdz_compute { c := 1, hash_size := 3, n := 5, map_output := false } failing_callees).trace
        = [] ∧
      (bdz_compute { c := 1, hash_size := 3, n := 5, map_output := false }
        failing_callees).written = none ∧
      ((bdz_compute { c := 1, hash_size := 3, n := 5, map_output := false }
          failing_callees).result = ending.exited 1 c_message ∨
        (bdz_compute { c := 1, hash_size := 3, n := 5, map_output := false }
          failing_callees).result = ending.exited 1 hash_size_message)) ∧
    ∃ rest, (bdz_compute default_request failing_callees).trace = call.seed_hash :: rest :=
  ⟨⟨by norm_num, by norm_num⟩,
    (parameter_rejection { c := 1, hash_size := 3, n := 5, map_output := false }
      failing_callees).1 (Or.inl ⟨by norm_num, by norm_num⟩),
    (parameter_rejection default_request failing_callees).2 rfl (by decide)⟩

theorem short_graph_valid : valid_graph short_graph where
  v_fits := by decide
  edges_len := by decide
  in_range := by decide
  distinct := by decide
  order_perm := by decide
  peel := by decide

theorem wide_graph_valid : valid_graph wide_graph where
  v_fits := by decide
  edges_len := by decide
  in_range := by decide
  distinct := by decide
  order_perm := by decide
  peel := by decide

theorem trailing_upper_lengths {s s1 : state} {i holes : Nat}
    (h : trailing_upper s i holes = Except.ok s1) :
    s1.holes64k.length = s.holes64k.length ∧ s1.holes256.length = s.holes256.length := by
  unfold trailing_upper at h
  obtain ⟨t64, h1, h⟩ := bind_eq_ok h
  obtain ⟨t256, h2, h⟩ := bind_eq_ok h
  cases h
  have f1 := cond_wr_frame (fun b hb => wr_frame hb) h1
  have f2 := cond_wr_frame (fun b hb => by
    obtain ⟨a, _, hw⟩ := bind_eq_ok hb
    exact wr_frame hw) h2
  exact ⟨f1.1, f2.1⟩

/-- Claim C21 (index safety of `assign_nodes`) fails on the code.  `block_graph` is a valid
graph with `v = 256 ≥ 10`.  Lines 86-147 run inside the allocations and leave `holes256`
with the `ceil(256/256) + 1 = 2` entries `bdz_compute` allocated; line 150 then evaluates
`holes256[(256 >> 8) + 1]`, index 2, which is not below that length, and the run of
`assign_nodes` leaves the allocation.  The same happens on every valid graph whose vertex
count is a multiple of 256, and on no other valid graph. -/
theorem index_fault_at_block :
    valid_graph block_graph ∧ 10 ≤ block_graph.v ∧
    (∃ su, assign_upper (bdz_alloc block_graph) = Except.ok su ∧
      su.holes256.length = (block_graph.v + 255) / 256 + 1 ∧
      ¬ (block_graph.v >>> 8) + 1 < su.holes256.length ∧
      block_graph.v % 256 ≠ 64 ∧
      rd su.holes256 ((block_graph.v >>> 8) + 1) = Except.error Fault.out_of_bounds) ∧
    assign_nodes (bdz_alloc block_graph) = Except.error Fault.out_of_bounds ∧
    (∀ gr, valid_graph gr → gr.v % 256 = 0 →
      assign_nodes (bdz_alloc gr) = Except.error Fault.out_of_bounds) ∧
    (∀ gr, valid_graph gr → gr.v % 256 ≠ 0 → ∃ s, assign_nodes (bdz_alloc gr) = Except.ok s) := by
  refine ⟨block_graph_valid, by decide, ?_, assign_nodes_out_of_bounds block_graph_valid
    (by decide), fun gr hv h => assign_nodes_out_of_bounds hv h,
    fun gr hv h => assign_nodes_ok hv h⟩
  obtain ⟨vis, G, s2, h, _, _, hm, hR⟩ := assign_main_spec block_graph_valid
  obtain ⟨t64, t256, hrun, _⟩ := trailing_upper_spec block_graph_valid hR
  have hgv : s2.graph.v = block_graph.v := by rw [hR.graph_eq]
  have hup : assign_upper (bdz_alloc block_graph)
      = Except.ok { s2 with holes64k := t64, holes256 := t256 } := by
    unfold assign_upper
    rw [hm, bind_ok]
    show trailing_upper s2 s2.graph.v h = _
    rw [hgv]
    exact hrun
  have hlen : t256.length = 2 := by
    have := (trailing_upper_lengths hrun).2
    have h2 := hR.len256
    have e : (block_graph.v + 255) / 256 + 1 = 2 := by decide
    rw [e] at h2
    exact this.trans h2
  refine ⟨_, hup, ?_, ?_, by decide, ?_⟩
  · show t256.length = _
    rw [hlen]
    decide
  · show ¬ (block_graph.v >>> 8) + 1 < t256.length
    rw [hlen]
    decide
  · show rd t256 ((block_graph.v >>> 8) + 1) = _
    have e : (block_graph.v >>> 8) + 1 = 2 := by decide
    rw [e]
    unfold rd
    rw [List.getElem?_eq_none (by omega)]

set_option maxRecDepth 1000000 in
/-- Claim C22 (index safety of the emitted lookup) fails on the code.  `short_graph` is a
valid graph with `v = 45 ≥ 10`; `print_hash` declares `g` with `ceil(45/16) = 3` words.
For its key the selection yields `idx = 40`; `(idx >> 4) & 3` is 2, so the emitted lookup
evaluates `g[(idx >> 4) + 1]`, index 3, which is not below the declared length.
`wide_graph` is a valid graph with `v = 250`; `holes256` is declared with
`ceil(250/256) = 1` entry.  For its key `idx = 230`, `(idx >> 5) & 7` is 7, and the lookup
evaluates `holes256[(idx + 32) >> 8]`, index 1. -/
theorem lookup_index_beyond_tables :
    (valid_graph short_graph ∧ 10 ≤ short_graph.v ∧
      (assign_nodes (bdz_alloc short_graph) >>= print_tables) = Except.ok short_tables ∧
      short_tables.g.length = (short_graph.v + 15) / 16 ∧
      emitted_select short_tables 40 0 1 = Except.ok 40 ∧
      (40 >>> 4) &&& 3 = 2 ∧
      ¬ add32 (40 >>> 4) 1 < short_tables.g.length ∧
      emitted_hash short_tables 40 0 1 = Except.error Fault.out_of_bounds) ∧
    (valid_graph wide_graph ∧ 10 ≤ wide_graph.v ∧
      (assign_nodes (bdz_alloc wide_graph) >>= print_tables) = Except.ok wide_tables ∧
      wide_tables.holes256.length = (wide_graph.v + 255) / 256 ∧
      emitted_select wide_tables 230 0 1 = Except.ok 230 ∧
      (230 >>> 5) &&& 7 = 7 ∧
      ¬ add32 230 32 >>> 8 < wide_tables.holes256.length ∧
      emitted_hash wide_tables 230 0 1 = Except.error Fault.out_of_bounds) :=
  ⟨⟨short_graph_valid, by decide, by rfl, by decide, by rfl, by decide, by decide, by rfl⟩,
    ⟨wide_graph_valid, by decide, by rfl, by decide, by rfl, by decide, by decide, by rfl⟩⟩

/-! ## The width of the rank tables -/

/-- Line 119-120 in iteration `n`, for any label array. -/
theorem store64k_gen (G tbl : List Nat) (n : Nat) (hn : n < 4294967296)
    (hi : n / 65536 < tbl.length)
    (hh : ∀ k, 65536 * k < n → cell tbl k = holes_before G (65536 * k)) :
    ∃ t, (if n % 65536 = 0 then wr tbl (n >>> 16) (u32 (holes_before G n))
          else pure tbl) = Except.ok t ∧
      t.length = tbl.length ∧
      (∀ k, 65536 * k < n + 1 → cell t k = holes_before G (65536 * k)) := by
  have hle := holes_before_le G n
  by_cases h0 : n % 65536 = 0
  · refine ⟨tbl.set (n / 65536) (holes_before G n), ?_, by simp, ?_⟩
    · rw [if_pos h0, shr16, wr_ok _ hi]
      congr 2
      unfold u32
      omega
    · intro k hk
      rw [cell_set _ _ _ _ hi]
      by_cases hkn : k = n / 65536
      · rw [if_pos hkn]
        congr 1
        omega
      · rw [if_neg hkn]
        exact hh k (by omega)
  · refine ⟨tbl, by rw [if_neg h0]; rfl, rfl, ?_⟩
    intro k hk
    exact hh k (by omega)

/-- Line 122-123 in iteration `n`, for any label array: the subtraction does not wrap and
the value stored is below 65536. -/
theorem store256_gen (G tbl t64 : List Nat) (n : Nat) (hn : n < 4294967296)
    (hi : n / 256 < tbl.length) (hi64 : n / 65536 < t64.length)
    (h64 : ∀ k, 65536 * k < n + 1 → cell t64 k = holes_before G (65536 * k))
    (hh : ∀ k, 256 * k < n →
      cell tbl k + holes_before G (65536 * (k / 256)) = holes_before G (256 * k)) :
    ∃ t, (if n % 256 = 0 then do
            let a ← rd t64 (n >>> 16)
            wr tbl (n >>> 8) (u16 (sub32 (holes_before G n) a))
          else pure tbl) = Except.ok t ∧
      t.length = tbl.length ∧
      (∀ k, 256 * k < n + 1 →
        cell t k + holes_before G (65536 * (k / 256)) = holes_before G (256 * k)) ∧
      (n % 256 ≠ 0 → t = tbl) ∧
      (n % 256 = 0 →
        cell t64 (n >>> 16) ≤ holes_before G n ∧
        holes_before G n - cell t64 (n >>> 16) < 65536 ∧
        sub32 (holes_before G n) (cell t64 (n >>> 16))
          = holes_before G n - cell t64 (n >>> 16) ∧
        cell t (n >>> 8) = holes_before G n - cell t64 (n >>> 16)) := by
  have hle := holes_before_le G n
  by_cases h0 : n % 256 = 0
  · have ha := h64 (n / 65536) (by omega)
    have hm := holes_before_mono G (show 65536 * (n / 65536) ≤ n by omega)
    refine ⟨tbl.set (n / 256) (holes_before G n - holes_before G (65536 * (n / 65536))),
      ?_, by simp, ?_, fun h => absurd h0 h, fun _ => ?_⟩
    · rw [if_pos h0, shr16, shr8, rd_ok hi64, bind_ok, wr_ok _ hi, ha]
      congr 2
      unfold u16 sub32
      omega
    · intro k hk
      rw [cell_set _ _ _ _ hi]
      by_cases hkn : k = n / 256
      · rw [if_pos hkn]
        have e1 : 65536 * (k / 256) = 65536 * (n / 65536) := by omega
        have e2 : 256 * k = n := by omega
        rw [e1, e2]
        omega
      · rw [if_neg hkn]
        exact hh k (by omega)
    · rw [shr16, shr8, ha, cell_set _ _ _ _ hi, if_pos rfl]
      refine ⟨hm.1, by omega, ?_, rfl⟩
      unfold sub32
      omega
  · refine ⟨tbl, by rw [if_neg h0]; rfl, rfl, ?_, fun _ => rfl, fun h => absurd h h0⟩
    intro k hk
    exact hh k (by omega)

/-- Lines 125-132 in iteration `n`, for the offset `q` of the table and any label array:
neither subtraction wraps and the value stored is at most `q`. -/
theorem store_sub_gen (G tbl t256 t64 : List Nat) (n q : Nat) (hn : n < 4294967296)
    (hq : q < 256) (hq0 : 0 < q)
    (hi : n / 256 < tbl.length) (hi256 : n / 256 < t256.length)
    (hi64 : n / 65536 < t64.length)
    (h64 : ∀ k, 65536 * k < n + 1 → cell t64 k = holes_before G (65536 * k))
    (h256 : ∀ k, 256 * k < n + 1 →
      cell t256 k + holes_before G (65536 * (k / 256)) = holes_before G (256 * k))
    (hh : ∀ k, 256 * k + q < n →
      cell tbl k + holes_before G (256 * k) = holes_before G (256 * k + q)) :
    ∃ t, (if n % 256 = q then do
            let b ← rd t256 (n >>> 8)
            let a ← rd t64 (n >>> 16)
            wr tbl (n >>> 8) (u8 (sub32 (sub32 (holes_before G n) b) a))
          else pure tbl) = Except.ok t ∧
      t.length = tbl.length ∧
      (∀ k, 256 * k + q < n + 1 →
        cell t k + holes_before G (256 * k) = holes_before G (256 * k + q)) ∧
      (n % 256 = q →
        cell t256 (n >>> 8) ≤ holes_before G n ∧
        cell t64 (n >>> 16) ≤ holes_before G n - cell t256 (n >>> 8) ∧
        holes_before G n - cell t256 (n >>> 8) - cell t64 (n >>> 16) ≤ q ∧
        sub32 (holes_before G n) (cell t256 (n >>> 8))
          = holes_before G n - cell t256 (n >>> 8) ∧
        sub32 (sub32 (holes_before G n) (cell t256 (n >>> 8))) (cell t64 (n >>> 16))
          = holes_before G n - cell t256 (n >>> 8) - cell t64 (n >>> 16) ∧
        cell t (n >>> 8) = holes_before G n - cell t256 (n >>> 8) - cell t64 (n >>> 16)) := by
  have hle := holes_before_le G n
  by_cases h0 : n % 256 = q
  · have ha := h64 (n / 65536) (by omega)
    have hb := h256 (n / 256) (by omega)
    have e0 : 65536 * (n / 256 / 256) = 65536 * (n / 65536) := by omega
    rw [e0] at hb
    have hm := holes_before_mono G (show 65536 * (n / 65536) ≤ 256 * (n / 256) by omega)
    have hm2 := holes_before_mono G (show 256 * (n / 256) ≤ n by omega)
    refine ⟨tbl.set (n / 256) (holes_before G n - holes_before G (256 * (n / 256))),
      ?_, by simp, ?_, fun _ => ?_⟩
    · rw [if_pos h0, shr16, shr8, rd_ok hi256, bind_ok, rd_ok hi64, bind_ok, wr_ok _ hi, ha]
      congr 2
      unfold u8 sub32
      omega
    · intro k hk
      rw [cell_set _ _ _ _ hi]
      by_cases hkn : k = n / 256
      · rw [if_pos hkn]
        have e2 : 256 * k + q = n := by omega
        have e3 : 256 * k = 256 * (n / 256) := by omega
        rw [e2, e3]
        omega
      · rw [if_neg hkn]
        exact hh k (by omega)
    · rw [shr16, shr8, ha, cell_set _ _ _ _ hi, if_pos rfl]
      refine ⟨by omega, by omega, by omega, ?_, ?_, by omega⟩
      · unfold sub32
        omega
      · unfold sub32
        omega
  · refine ⟨tbl, by rw [if_neg h0]; rfl, rfl, ?_, fun h => absurd h h0⟩
    intro k hk
    exact hh k (by omega)

set_option maxHeartbeats 1000000 in
/-- One iteration of the pass of lines 118-141 on any label array, in arrays long enough:
it runs without fault, re-establishes the invariant, and the values it stores into the
narrow tables are exact differences within the range of their types. -/
theorem rank_step_count (s0 : state) (hF : pass_fits s0) (n : Nat) (hn : n < s0.graph.v)
    (s : state) (holes : Nat) (hC : count_inv s0 n s holes) :
    ∃ s1, rank_step (s, holes) n = Except.ok (s1, holes_before s0.g (n + 1)) ∧
      count_inv s0 (n + 1) s1 (holes_before s0.g (n + 1)) ∧
      (n % 256 = 0 →
        cell s1.holes64k (n >>> 16) ≤ holes ∧
        holes - cell s1.holes64k (n >>> 16) < 65536 ∧
        sub32 holes (cell s1.holes64k (n >>> 16)) = holes - cell s1.holes64k (n >>> 16) ∧
        cell s1.holes256 (n >>> 8) = holes - cell s1.holes64k (n >>> 16)) ∧
      (n % 256 = 64 →
        cell s1.holes256 (n >>> 8) ≤ holes ∧
        cell s1.holes64k (n >>> 16) ≤ holes - cell s1.holes256 (n >>> 8) ∧
        holes - cell s1.holes256 (n >>> 8) - cell s1.holes64k (n >>> 16) ≤ 64 ∧
        sub32 holes (cell s1.holes256 (n >>> 8)) = holes - cell s1.holes256 (n >>> 8) ∧
        sub32 (sub32 holes (cell s1.holes256 (n >>> 8))) (cell s1.holes64k (n >>> 16))
          = holes - cell s1.holes256 (n >>> 8) - cell s1.holes64k (n >>> 16) ∧
        cell s1.holes256_64 (n >>> 8)
          = holes - cell s1.holes256 (n >>> 8) - cell s1.holes64k (n >>> 16)) ∧
      (n % 256 = 128 →
        cell s1.holes256 (n >>> 8) ≤ holes ∧
        cell s1.holes64k (n >>> 16) ≤ holes - cell s1.holes256 (n >>> 8) ∧
        holes - cell s1.holes256 (n >>> 8) - cell s1.holes64k (n >>> 16) ≤ 128 ∧
        sub32 holes (cell s1.holes256 (n >>> 8)) = holes - cell s1.holes256 (n >>> 8) ∧
        sub32 (sub32 holes (cell s1.holes256 (n >>> 8))) (cell s1.holes64k (n >>> 16))
          = holes - cell s1.holes256 (n >>> 8) - cell s1.holes64k (n >>> 16) ∧
        cell s1.holes256_128 (n >>> 8)
          = holes - cell s1.holes256 (n >>> 8) - cell s1.holes64k (n >>> 16)) ∧
      (n % 256 = 192 →
        cell s1.holes256 (n >>> 8) ≤ holes ∧
        cell s1.holes64k (n >>> 16) ≤ holes - cell s1.holes256 (n >>> 8) ∧
        holes - cell s1.holes256 (n >>> 8) - cell s1.holes64k (n >>> 16) ≤ 192 ∧
        sub32 holes (cell s1.holes256 (n >>> 8)) = holes - cell s1.holes256 (n >>> 8) ∧
        sub32 (sub32 holes (cell s1.holes256 (n >>> 8))) (cell s1.holes64k (n >>> 16))
          = holes - cell s1.holes256 (n >>> 8) - cell s1.holes64k (n >>> 16) ∧
        cell s1.holes256_192 (n >>> 8)
          = holes - cell s1.holes256 (n >>> 8) - cell s1.holes64k (n >>> 16)) := by
  have hV := hF.v_fits
  have hn32 : n < 4294967296 := by omega
  have hh := hC.holes_eq
  subst hh
  obtain ⟨t64, hA, lA, pA⟩ := store64k_gen s0.g s.holes64k n hn32
    (by rw [hC.len64k]; exact hF.len64k n hn) hC.h64k
  obtain ⟨t256, hB, lB, pB, _, fB⟩ := store256_gen s0.g s.holes256 t64 n hn32
    (by rw [hC.len256]; exact hF.len256 n hn)
    (by rw [lA, hC.len64k]; exact hF.len64k n hn) pA hC.h256
  obtain ⟨u64, hC1, lC1, pC1, fC1⟩ := store_sub_gen s0.g s.holes256_64 t256 t64 n 64 hn32
    (by omega) (by omega) (by rw [hC.len256_64]; exact hF.len256_64 n hn)
    (by rw [lB, hC.len256]; exact hF.len256 n hn)
    (by rw [lA, hC.len64k]; exact hF.len64k n hn) pA pB hC.h256_64
  obtain ⟨u128, hC2, lC2, pC2, fC2⟩ := store_sub_gen s0.g s.holes256_128 t256 t64 n 128 hn32
    (by omega) (by omega) (by rw [hC.len256_128]; exact hF.len256_128 n hn)
    (by rw [lB, hC.len256]; exact hF.len256 n hn)
    (by rw [lA, hC.len64k]; exact hF.len64k n hn) pA pB hC.h256_128
  obtain ⟨u192, hC3, lC3, pC3, fC3⟩ := store_sub_gen s0.g s.holes256_192 t256 t64 n 192 hn32
    (by omega) (by omega) (by rw [hC.len256_192]; exact hF.len256_192 n hn)
    (by rw [lB, hC.len256]; exact hF.len256 n hn)
    (by rw [lA, hC.len64k]; exact hF.len64k n hn) pA pB hC.h256_192
  have hvl : n < s.visited.length := by
    rw [hC.vis_eq]
    exact lt_of_lt_of_le hn hF.len_vis
  have hgl : n < s.g.length := by
    rw [hC.g_eq]
    exact lt_of_lt_of_le hn hF.len_g
  have hD : ∃ rm, (if cell s0.visited n > 1 then
        wr s.result_map (sub32 (cell s0.visited n) 2) (sub32 n (holes_before s0.g n))
      else pure s.result_map) = Except.ok rm ∧ rm.length = s.result_map.length := by
    by_cases h1 : cell s0.visited n > 1
    · have hi : sub32 (cell s0.visited n) 2 < s.result_map.length := by
        rw [hC.len_map]
        exact hF.map_fits n hn h1
      exact ⟨_, by rw [if_pos h1, wr_ok _ hi], by simp⟩
    · exact ⟨_, by rw [if_neg h1]; rfl, rfl⟩
  obtain ⟨rm, hD1, lD⟩ := hD
  have hle := holes_before_le s0.g n
  refine ⟨{ s with holes64k := t64, holes256 := t256, holes256_64 := u64,
                   holes256_128 := u128, holes256_192 := u192, result_map := rm },
    ?_, ?_, fB, ?_, ?_, ?_⟩
  · unfold rank_step
    simp only [hA, bind_ok, hB, hC1, hC2, hC3, rd_ok hvl, rd_ok hgl]
    rw [hC.vis_eq, hC.g_eq, hD1, bind_ok, pure_eq_ok]
    congr 2
    simp only [holes_before]
    by_cases h3 : cell s0.g n = 3
    · rw [if_pos h3, if_pos h3]
      unfold add32
      omega
    · rw [if_neg h3, if_neg h3]
      rfl
  · exact
      { graph_eq := hC.graph_eq
        vis_eq := hC.vis_eq
        g_eq := hC.g_eq
        len64k := lA.trans hC.len64k
        len256 := lB.trans hC.len256
        len256_64 := lC1.trans hC.len256_64
        len256_128 := lC2.trans hC.len256_128
        len256_192 := lC3.trans hC.len256_192
        len_map := lD.trans hC.len_map
        holes_eq := rfl
        h64k := pA
        h256 := pB
        h256_64 := pC1
        h256_128 := pC2
        h256_192 := pC3 }
  · exact fC1
  · exact fC2
  · exact fC3

theorem count_inv_init (s0 : state) : count_inv s0 0 s0 0 where
  graph_eq := rfl
  vis_eq := rfl
  g_eq := rfl
  len64k := rfl
  len256 := rfl
  len256_64 := rfl
  len256_128 := rfl
  len256_192 := rfl
  len_map := rfl
  holes_eq := rfl
  h64k := fun k hk => by omega
  h256 := fun k hk => by omega
  h256_64 := fun k hk => by omega
  h256_128 := fun k hk => by omega
  h256_192 := fun k hk => by omega

/-- The first `n` iterations of the pass of lines 118-141 run without fault on any label
array, in arrays long enough, and establish the invariant. -/
theorem rank_loop_count (s0 : state) (hF : pass_fits s0) (n : Nat) (hn : n ≤ s0.graph.v) :
    ∃ s, rank_loop s0 n = Except.ok (s, holes_before s0.g n) ∧
      count_inv s0 n s (holes_before s0.g n) := by
  induction n with
  | zero => exact ⟨s0, rfl, count_inv_init s0⟩
  | succ n ih =>
    obtain ⟨s, hrun, hC⟩ := ih (by omega)
    obtain ⟨s1, hstep, hC1, _⟩ := rank_step_count s0 hF n (by omega) s _ hC
    refine ⟨s1, ?_, hC1⟩
    unfold rank_loop at hrun ⊢
    rw [foldlM_range_succ, hrun, bind_ok, hstep]

/-- Claim C26 (no narrowing loss in the rank tables).  For every `v` below `2^32`, every
label array `g` and arrays long enough for the pass of lines 118-141 to stay inside them,
iteration `n` of the pass is reached with `holes` the number of holes below `n`, and in it:
when it stores into `holes256` (`n % 256 = 0`), `holes64k[n >> 16] ≤ holes`, the
subtraction does not wrap and the value stored is below 65536; when it stores into
`holes256_64`, `holes256_128` or `holes256_192` (`n % 256 = 64, 128, 192`), neither of the
two subtractions `holes - holes256[n >> 8] - holes64k[n >> 16]` wraps and the value stored
is at most 64, 128 or 192; the entry stored is the exact difference.  After the pass every
narrow entry whose boundary lies below `v` is the exact relative hole count. -/
theorem no_narrowing_loss (s0 : state) (hF : pass_fits s0) (n : Nat) (hn : n < s0.graph.v) :
    ∃ s s1, rank_loop s0 n = Except.ok (s, holes_before s0.g n) ∧
      rank_step (s, holes_before s0.g n) n = Except.ok (s1, holes_before s0.g (n + 1)) ∧
      (n % 256 = 0 →
        cell s1.holes64k (n >>> 16) ≤ holes_before s0.g n ∧
        holes_before s0.g n - cell s1.holes64k (n >>> 16) < 65536 ∧
        sub32 (holes_before s0.g n) (cell s1.holes64k (n >>> 16))
          = holes_before s0.g n - cell s1.holes64k (n >>> 16) ∧
        cell s1.holes256 (n >>> 8) = holes_before s0.g n - cell s1.holes64k (n >>> 16)) ∧
      (n % 256 = 64 →
        cell s1.holes256 (n >>> 8) ≤ holes_before s0.g n ∧
        cell s1.holes64k (n >>> 16) ≤ holes_before s0.g n - cell s1.holes256 (n >>> 8) ∧
        holes_before s0.g n - cell s1.holes256 (n >>> 8) - cell s1.holes64k (n >>> 16) ≤ 64 ∧
        sub32 (holes_before s0.g n) (cell s1.holes256 (n >>> 8))
          = holes_before s0.g n - cell s1.holes256 (n >>> 8) ∧
        sub32 (sub32 (holes_before s0.g n) (cell s1.holes256 (n >>> 8)))
            (cell s1.holes64k (n >>> 16))
          = holes_before s0.g n - cell s1.holes256 (n >>> 8) - cell s1.holes64k (n >>> 16) ∧
        cell s1.holes256_64 (n >>> 8)
          = holes_before s0.g n - cell s1.holes256 (n >>> 8)
              - cell s1.holes64k (n >>> 16)) ∧
      (n % 256 = 128 →
        cell s1.holes256 (n >>> 8) ≤ holes_before s0.g n ∧
        cell s1.holes64k (n >>> 16) ≤ holes_before s0.g n - cell s1.holes256 (n >>> 8) ∧
        holes_before s0.g n - cell s1.holes256 (n >>> 8) - cell s1.holes64k (n >>> 16) ≤ 128 ∧
        sub32 (holes_before s0.g n) (cell s1.holes256 (n >>> 8))
          = holes_before s0.g n - cell s1.holes256 (n >>> 8) ∧
        sub32 (sub32 (holes_before s0.g n) (cell s1.holes256 (n >>> 8)))
            (cell s1.holes64k (n >>> 16))
          = holes_before s0.g n - cell s1.holes256 (n >>> 8) - cell s1.holes64k (n >>> 16) ∧
        cell s1.holes256_128 (n >>> 8)
          = holes_before s0.g n - cell s1.holes256 (n >>> 8)
              - cell s1.holes64k (n >>> 16)) ∧
      (n % 256 = 192 →
        cell s1.holes256 (n >>> 8) ≤ holes_before s0.g n ∧
        cell s1.holes64k (n >>> 16) ≤ holes_before s0.g n - cell s1.holes256 (n >>> 8) ∧
        holes_before s0.g n - cell s1.holes256 (n >>> 8) - cell s1.holes64k (n >>> 16) ≤ 192 ∧
        sub32 (holes_before s0.g n) (cell s1.holes256 (n >>> 8))
          = holes_before s0.g n - cell s1.holes256 (n >>> 8) ∧
        sub32 (sub32 (holes_before s0.g n) (cell s1.holes256 (n >>> 8)))
            (cell s1.holes64k (n >>> 16))
          = holes_before s0.g n - cell s1.holes256 (n >>> 8) - cell s1.holes64k (n >>> 16) ∧
        cell s1.holes256_192 (n >>> 8)
          = holes_before s0.g n - cell s1.holes256 (n >>> 8)
              - cell s1.holes64k (n >>> 16)) ∧
      ∃ sv, rank_loop s0 s0.graph.v = Except.ok (sv, holes_before s0.g s0.graph.v) ∧
        (∀ k, 256 * k < s0.graph.v →
          cell sv.holes256 k
            = holes_before s0.g (256 * k) - holes_before s0.g (65536 * (k / 256)) ∧
          cell sv.holes256 k < 65536) ∧
        (∀ k, 256 * k + 64 < s0.graph.v →
          cell sv.holes256_64 k
            = holes_before s0.g (256 * k + 64) - holes_before s0.g (256 * k) ∧
          cell sv.holes256_64 k ≤ 64) ∧
        (∀ k, 256 * k + 128 < s0.graph.v →
          cell sv.holes256_128 k
            = holes_before s0.g (256 * k + 128) - holes_before s0.g (256 * k) ∧
          cell sv.holes256_128 k ≤ 128) ∧
        (∀ k, 256 * k + 192 < s0.graph.v →
          cell sv.holes256_192 k
            = holes_before s0.g (256 * k + 192) - holes_before s0.g (256 * k) ∧
          cell sv.holes256_192 k ≤ 192) := by
  obtain ⟨s, hrun, hC⟩ := rank_loop_count s0 hF n (by omega)
  obtain ⟨s1, hstep, _, f1, f2, f3, f4⟩ := rank_step_count s0 hF n hn s _ hC
  obtain ⟨sv, hrunv, hCv⟩ := rank_loop_count s0 hF s0.graph.v (Nat.le_refl _)
  refine ⟨s, s1, hrun, hstep, f1, f2, f3, f4, sv, hrunv, ?_, ?_, ?_, ?_⟩
  · intro k hk
    have h := hCv.h256 k hk
    have hm := holes_before_mono s0.g (show 65536 * (k / 256) ≤ 256 * k by omega)
    constructor <;> omega
  · intro k hk
    have h := hCv.h256_64 k hk
    have hm := holes_before_mono s0.g (show 256 * k ≤ 256 * k + 64 by omega)
    constructor <;> omega
  · intro k hk
    have h := hCv.h256_128 k hk
    have hm := holes_before_mono s0.g (show 256 * k ≤ 256 * k + 128 by omega)
    constructor <;> omega
  · intro k hk
    have h := hCv.h256_192 k hk
    have hm := holes_before_mono s0.g (show 256 * k ≤ 256 * k + 192 by omega)
    constructor <;> omega

theorem hollow_state_fits : pass_fits hollow_state where
  v_fits := by decide
  len64k := by decide
  len256 := by decide
  len256_64 := by decide
  len256_128 := by decide
  len256_192 := by decide
  len_g := by decide
  len_vis := by decide
  map_fits := by decide

theorem no_narrowing_loss_witness :
    (pass_fits hollow_state ∧ 0 < hollow_state.graph.v) ∧
    ∃ s s1, rank_loop hollow_state 0 = Except.ok (s, holes_before hollow_state.g 0) ∧
      rank_step (s, holes_before hollow_state.g 0) 0
        = Except.ok (s1, holes_before hollow_state.g (0 + 1)) ∧
      cell s1.holes256 (0 >>> 8) = holes_before hollow_state.g 0 - cell s1.holes64k (0 >>> 16) :=
  have h := no_narrowing_loss hollow_state hollow_state_fits 0 (by decide)
  ⟨⟨hollow_state_fits, by decide⟩,
    h.elim fun s hs => hs.elim fun s1 h1 => ⟨s, s1, h1.1, h1.2.1, (h1.2.2.1 rfl).2.2.2⟩⟩

/-! ## Hole counts in a packed word -/

theorem mask_bit (b : Nat) (hb : b < 32) : (1431655765 : Nat).testBit b = decide (b % 2 = 0) := by
  interval_cases b <;> rfl

/-- Bit `b` of the hole mask of a word. -/
theorem hole_mask_bit (w b : Nat) (hb : b < 32) :
    (hole_mask w).testBit b = (w.testBit b && w.testBit (b + 1) && decide (b % 2 = 0)) := by
  unfold hole_mask
  rw [Nat.testBit_and, Nat.testBit_and, Nat.testBit_shiftRight, mask_bit b hb, Nat.add_comm 1 b]

/-- Both bits of slot `p` are set exactly when the slot holds 3. -/
theorem slot_bits (w p : Nat) :
    (w.testBit (2 * p) && w.testBit (2 * p + 1)) = decide ((w >>> (2 * p)) &&& 3 = 3) := by
  rw [field_eq, Nat.testBit_to_div_mod, Nat.testBit_to_div_mod]
  have e1 : (2 : Nat) ^ (2 * p) = 4 ^ p := by
    rw [pow_mul]
    rfl
  have e2 : w / 2 ^ (2 * p + 1) = w / 4 ^ p / 2 := by
    rw [pow_succ, e1, Nat.div_div_eq_div_mul]
  rw [e1, e2]
  by_cases h : w / 4 ^ p % 4 = 3
  · have a : w / 4 ^ p % 2 = 1 := by omega
    have b : w / 4 ^ p / 2 % 2 = 1 := by omega
    simp [h, a, b]
  · have : ¬ (w / 4 ^ p % 2 = 1 ∧ w / 4 ^ p / 2 % 2 = 1) := by omega
    by_cases a : w / 4 ^ p % 2 = 1
    · have b : ¬ w / 4 ^ p / 2 % 2 = 1 := fun hb => this ⟨a, hb⟩
      simp [h, a, b]
    · simp [h, a]

/-- Counting over the even numbers below `2 * n`. -/
theorem filter_even (P : Nat → Bool) (n : Nat) :
    ((List.range (2 * n)).filter (fun b => decide (b % 2 = 0) && P (b / 2))).length
      = ((List.range n).filter P).length := by
  induction n with
  | zero => rfl
  | succ n ih =>
    have e : 2 * (n + 1) = 2 * n + 1 + 1 := by ring
    rw [e, List.range_succ, List.range_succ, List.range_succ, List.filter_append,
      List.filter_append, List.filter_append, List.length_append, List.length_append,
      List.length_append, ih]
    have h1 : (2 * n) % 2 = 0 := by omega
    have h2 : (2 * n) / 2 = n := by omega
    have h3 : ¬ (2 * n + 1) % 2 = 0 := by omega
    simp [List.filter_cons, h1, h2, h3]
    cases P n <;> rfl

/-- Counting below `t` inside a longer range. -/
theorem filter_below (Q : Nat → Bool) (t n : Nat) (h : t ≤ n) :
    ((List.range n).filter (fun p => decide (p < t) && Q p)).length
      = ((List.range t).filter Q).length := by
  induction n with
  | zero =>
    have : t = 0 := by omega
    subst this
    rfl
  | succ n ih =>
    rcases Nat.lt_or_ge t (n + 1) with hlt | hge
    · rw [List.range_succ, List.filter_append, List.length_append, ih (by omega)]
      have : ¬ n < t := by omega
      simp [List.filter_cons, this]
    · have : t = n + 1 := by omega
      subst this
      congr 1
      apply List.filter_congr
      intro x hx
      have := List.mem_range.1 hx
      simp [this]

/-- The holes of a stretch of vertices, counted slot by slot. -/
theorem holes_before_add (G : List Nat) (a k : Nat) :
    holes_before G (a + k)
      = holes_before G a + ((List.range k).filter (fun p => decide (cell G (a + p) = 3))).length := by
  induction k with
  | zero => rfl
  | succ k ih =>
    rw [← Nat.add_assoc]
    simp only [holes_before]
    rw [ih, List.range_succ, List.filter_append, List.length_append]
    by_cases h : cell G (a + k) = 3
    · simp [List.filter_cons, h]
      omega
    · simp [List.filter_cons, h]

/-- The population count of a word whose set bits are even bits given by `P`. -/
theorem popcount_even (X : Nat) (P : Nat → Bool)
    (hX : ∀ b, b < 32 → X.testBit b = (decide (b % 2 = 0) && P (b / 2))) :
    popcount32 X = ((List.range 16).filter P).length := by
  unfold popcount32
  rw [← filter_even P 16]
  congr 1
  apply List.filter_congr
  intro b hb
  exact hX b (List.mem_range.1 hb)

/-- Bit `b` of the hole mask of a packed word, in terms of the labels it packs. -/
theorem hole_mask_labels (w : Nat) (G : List Nat) (i : Nat)
    (hw : ∀ j, j < 16 → (w >>> (2 * j)) &&& 3 = cell G (i + j)) (b : Nat) (hb : b < 32) :
    (hole_mask w).testBit b = (decide (b % 2 = 0) && decide (cell G (i + b / 2) = 3)) := by
  rw [hole_mask_bit w b hb]
  by_cases he : b % 2 = 0
  · have e : b = 2 * (b / 2) := by omega
    have hs := slot_bits w (b / 2)
    have hwb := hw (b / 2) (by omega)
    rw [← e] at hs hwb
    rw [hs, hwb]
    simp [he]
  · simp [he]

theorem low_mask_eq (s : Nat) (hs : s < 16) :
    sub32 (u32 (2 <<< (2 * s))) 1 = 2 ^ (2 * s + 1) - 1 := by
  have e : 2 <<< (2 * s) = 2 ^ (2 * s + 1) := by
    rw [Nat.shiftLeft_eq, pow_succ]
    ring
  have hle : 2 ^ (2 * s + 1) ≤ 2 ^ 31 := Nat.pow_le_pow_right (by decide) (by omega)
  have hpos : 0 < 2 ^ (2 * s + 1) := Nat.pow_pos (by decide)
  have h31 : (2 : Nat) ^ 31 = 2147483648 := by norm_num
  rw [e]
  unfold sub32 u32
  omega

theorem not_low_mask_eq (s : Nat) (hs : s < 16) :
    not32 (sub32 (u32 (2 <<< (2 * s))) 1) = 2 ^ 32 - ((2 ^ (2 * s + 1) - 1) + 1) := by
  have hle : 2 ^ (2 * s + 1) ≤ 2 ^ 31 := Nat.pow_le_pow_right (by decide) (by omega)
  have hpos : 0 < 2 ^ (2 * s + 1) := Nat.pow_pos (by decide)
  have h31 : (2 : Nat) ^ 31 = 2147483648 := by norm_num
  have h32 : (2 : Nat) ^ 32 = 4294967296 := by norm_num
  rw [low_mask_eq s hs]
  unfold not32
  omega

/-- The three population counts of the emitted lookup on the word that packs the labels of
the vertices `i .. i + 15`: all holes of the word, the holes up to slot `s`, and the holes
above slot `s`. -/
theorem popcount_word (w : Nat) (G : List Nat) (i : Nat)
    (hw : ∀ j, j < 16 → (w >>> (2 * j)) &&& 3 = cell G (i + j)) :
    holes_before G i + popcount32 (hole_mask w) = holes_before G (i + 16) ∧
    ∀ s, s < 16 →
      holes_before G i + popcount32 (hole_mask w &&& sub32 (u32 (2 <<< (2 * s))) 1)
        = holes_before G (i + (s + 1)) ∧
      holes_before G (i + (s + 1))
          + popcount32 (hole_mask w &&& not32 (sub32 (u32 (2 <<< (2 * s))) 1))
        = holes_before G (i + 16) := by
  have hfull : popcount32 (hole_mask w)
      = ((List.range 16).filter (fun p => decide (cell G (i + p) = 3))).length :=
    popcount_even _ _ (fun b hb => hole_mask_labels w G i hw b hb)
  refine ⟨by rw [hfull, holes_before_add G i 16], fun s hs => ?_⟩
  have hlow : popcount32 (hole_mask w &&& sub32 (u32 (2 <<< (2 * s))) 1)
      = ((List.range (s + 1)).filter (fun p => decide (cell G (i + p) = 3))).length := by
    rw [← filter_below _ (s + 1) 16 (by omega)]
    apply popcount_even
    intro b hb
    rw [Nat.testBit_and, hole_mask_labels w G i hw b hb, low_mask_eq s hs,
      Nat.testBit_two_pow_sub_one]
    by_cases he : b % 2 = 0
    · by_cases hlt : b < 2 * s + 1
      · have : b / 2 < s + 1 := by omega
        simp [he, hlt, this]
      · have : ¬ b / 2 < s + 1 := by omega
        simp [he, hlt, this]
    · simp [he]
  have hhigh : popcount32 (hole_mask w &&& not32 (sub32 (u32 (2 <<< (2 * s))) 1))
      = ((List.range 16).filter (fun p => decide (s + 1 ≤ p) &&
          decide (cell G (i + p) = 3))).length := by
    apply popcount_even
    intro b hb
    have hlt2 : 2 ^ (2 * s + 1) - 1 < 2 ^ 32 := by
      have : 2 ^ (2 * s + 1) ≤ 2 ^ 31 := Nat.pow_le_pow_right (by decide) (by omega)
      have h31 : (2 : Nat) ^ 31 = 2147483648 := by norm_num
      have h32 : (2 : Nat) ^ 32 = 4294967296 := by norm_num
      omega
    rw [Nat.testBit_and, hole_mask_labels w G i hw b hb, not_low_mask_eq s hs,
      Nat.testBit_two_pow_sub_succ hlt2, Nat.testBit_two_pow_sub_one]
    by_cases he : b % 2 = 0
    · by_cases hlt : b < 2 * s + 1
      · have : ¬ s + 1 ≤ b / 2 := by omega
        simp [he, hlt, this, hb]
      · have : s + 1 ≤ b / 2 := by omega
        simp [he, hlt, this, hb]
    · simp [he]
  have hsplit : ∀ n, ((List.range n).filter (fun p => decide (p < s + 1) &&
        decide (cell G (i + p) = 3))).length
      + ((List.range n).filter (fun p => decide (s + 1 ≤ p) &&
        decide (cell G (i + p) = 3))).length
      = ((List.range n).filter (fun p => decide (cell G (i + p) = 3))).length := by
    intro n
    induction n with
    | zero => rfl
    | succ n ih =>
      rw [List.range_succ, List.filter_append, List.filter_append, List.filter_append,
        List.length_append, List.length_append, List.length_append, ← ih]
      by_cases h3 : cell G (i + n) = 3
      · by_cases hn : n < s + 1
        · have : ¬ s + 1 ≤ n := by omega
          simp [List.filter_cons, h3, hn, this]
          omega
        · have : s + 1 ≤ n := by omega
          simp [List.filter_cons, h3, hn, this]
          omega
      · simp [List.filter_cons, h3]
  have hl2 := filter_below (fun p => decide (cell G (i + p) = 3)) (s + 1) 16 (by omega)
  have h16 := hsplit 16
  rw [hl2] at h16
  constructor
  · rw [hlow, holes_before_add G i (s + 1)]
  · rw [hhigh, holes_before_add G i (s + 1), holes_before_add G i 16]
    omega

/-! ## The emitted rank lookup away from the tail -/

/-- A loop of `print_hash` that emits `a[i >> sh]`: the values it emits. -/
theorem emit_rd_spec (a : List Nat) (v step start sh : Nat) (hstep : 0 < step)
    (hlen : ∀ i, i < v → i >>> sh < a.length) :
    ∃ ws, emit_loop (fun i => rd a (i >>> sh)) v step v start = Except.ok ws ∧
      ws.length = (v - start + step - 1) / step ∧
      ∀ k, k < ws.length → cell ws k = cell a ((start + step * k) >>> sh) := by
  obtain ⟨ws, hws, hl, hQ⟩ := emit_loop_spec (fun i => rd a (i >>> sh))
    (fun i w => w = cell a (i >>> sh)) v step
    hstep (fun i hi => ⟨_, rd_ok (hlen i hi), rfl⟩) v start (by nlinarith)
  exact ⟨ws, hws, hl, hQ⟩

/-- An initialised element of an emitted array. -/
theorem c_array_cell (bits size : Nat) (inits : List Nat) (k : Nat) (hk : k < inits.length)
    (hs : inits.length ≤ size) :
    (c_array bits size inits).length = size ∧
    cell (c_array bits size inits) k = cell inits k % 2 ^ bits := by
  unfold c_array
  constructor
  · simp
    omega
  · have h1 : k < ((inits.map (fun x => x % 2 ^ bits)
        ++ List.replicate (size - inits.length) 0).take size).length := by
      simp
      omega
    rw [cell_eq_getElem _ _ h1, cell_eq_getElem _ _ hk, List.getElem_take,
      List.getElem_append_left (by simpa using hk), List.getElem_map]

set_option maxHeartbeats 1000000 in
/-- The constants `print_hash` emits, in the state after lines 86-141 and in every final
state of `assign_nodes` on a valid graph with at least 10 vertices: the lookup finds the
labels and every summary entry whose boundary lies below `v`. -/
theorem print_tables_ready {gr : graph3} (hv : valid_graph gr) (h10 : 10 ≤ gr.v) :
    ∃ vis G s2 h, label_inv gr gr.e vis G ∧
      assign_main (bdz_alloc gr) = Except.ok (s2, h) ∧
      ∀ s, (s = s2 ∨ assign_nodes (bdz_alloc gr) = Except.ok s) →
        s.visited = vis ∧ s.g = G ∧
        ∃ T, print_tables s = Except.ok T ∧ T.v = gr.v ∧ lookup_ready gr.v G T := by
  obtain ⟨vis, G, s2, h, hI, hm, hfin⟩ := final_lengths hv
  obtain ⟨vis', G', s2', h', hlab', hI', hm', hR, hfr⟩ := after_main hv
  rw [hm] at hm'
  obtain ⟨rfl, rfl⟩ := Prod.mk.inj (Except.ok.inj hm')
  refine ⟨vis, G, s2, h, hI, hm, ?_⟩
  intro s hs
  obtain ⟨hgr, hvis, hg, l1, l2, l3, l4, l5⟩ := hfin s hs
  obtain ⟨_, _, _, _, f64, f256, f256a, f256b, f256c⟩ := hfr s hs
  have hvis2 : vis' = vis := by
    have := (hfr s hs).2.1
    rw [hvis] at this
    exact this.symm
  have hg2 : G' = G := by
    have := (hfr s hs).2.2.1
    rw [hg] at this
    exact this.symm
  subst hg2
  have hgv : s.graph.v = gr.v := by rw [hgr]
  have hfit := hv.v_fits
  have h3 : ∀ x, cell G' x ≤ 3 := by
    intro x
    by_cases hx : x < gr.v
    · exact label_inv_le3 hI hx
    · rw [hI.g_pad x (by omega)]
      omega
  obtain ⟨ws, hws, hwl, hca, hfield⟩ := print_g_spec s gr.v G' hg hgv h10 (by omega)
    hI.g_len h3
  obtain ⟨w1, e1, n1, c1⟩ := emit_rd_spec s.holes64k gr.v 65536 0 16 (by omega)
    (fun i hi => by rw [shr16, l1]; omega)
  obtain ⟨w2, e2, n2, c2⟩ := emit_rd_spec s.holes256 gr.v 256 0 8 (by omega)
    (fun i hi => by rw [shr8, l2]; omega)
  obtain ⟨w3, e3, n3, c3⟩ := emit_rd_spec s.holes256_64 gr.v 256 64 8 (by omega)
    (fun i hi => by rw [shr8, l3]; omega)
  obtain ⟨w4, e4, n4, c4⟩ := emit_rd_spec s.holes256_128 gr.v 256 128 8 (by omega)
    (fun i hi => by rw [shr8, l4]; omega)
  obtain ⟨w5, e5, n5, c5⟩ := emit_rd_spec s.holes256_192 gr.v 256 192 8 (by omega)
    (fun i hi => by rw [shr8, l5]; omega)
  have hu64 : u32 (gr.v + 65535) / 65536 = (gr.v + 65535) / 65536 := by unfold u32; omega
  have hu256 : u32 (gr.v + 255) / 256 = (gr.v + 255) / 256 := by unfold u32; omega
  have hT : print_tables s = Except.ok
      { v := gr.v,
        g := ws,
        holes64k := c_array 32 ((gr.v + 65535) / 65536) w1,
        holes256 := c_array 16 ((gr.v + 255) / 256) w2,
        holes256_64 := c_array 8 ((gr.v + 255) / 256) w3,
        holes256_128 := c_array 8 ((gr.v + 255) / 256) w4,
        holes256_192 := c_array 8 ((gr.v + 255) / 256) w5 } := by
    unfold print_tables print_holes64k print_holes256 print_holes256_64 print_holes256_128
      print_holes256_192
    rw [hws, bind_ok, hgv, e1, bind_ok, e2, bind_ok, e3, bind_ok, e4, bind_ok, e5, bind_ok]
    rw [hgv] at hca
    rw [hca, hu64, hu256]
    rfl
  refine ⟨hvis, hg, _, hT, rfl, ?_⟩
  have hle : ∀ n, holes_before G' n ≤ n := holes_before_le G'
  constructor
  · exact hwl
  · intro m hm1 j hj
    have := hfield (16 * m + j) (by show 16 * m + j < 16 * ws.length; change m < ws.length at hm1; omega)
    rw [shr4, and_fifteen] at this
    have ea : (16 * m + j) / 16 = m := by omega
    have eb : (16 * m + j) % 16 = j := by omega
    rw [ea, eb] at this
    exact this
  · intro k hk
    have hkl : k < w1.length := by rw [n1]; omega
    obtain ⟨cl, cc⟩ := c_array_cell 32 ((gr.v + 65535) / 65536) w1 k hkl (by rw [n1]; omega)
    refine ⟨by show k < (c_array 32 _ w1).length; rw [cl]; omega, ?_⟩
    show cell (c_array 32 _ w1) k = _
    rw [cc, c1 k hkl, shr16]
    have ek : (0 + 65536 * k) / 65536 = k := by omega
    rw [ek, f64 k (by omega), hR.h64k k hk]
    have := hle (65536 * k)
    have h32 : (2 : Nat) ^ 32 = 4294967296 := by norm_num
    rw [h32]
    omega
  · intro k hk
    have hkl : k < w2.length := by rw [n2]; omega
    obtain ⟨cl, cc⟩ := c_array_cell 16 ((gr.v + 255) / 256) w2 k hkl (by rw [n2]; omega)
    refine ⟨by show k < (c_array 16 _ w2).length; rw [cl]; omega, ?_⟩
    show cell (c_array 16 _ w2) k + _ = _
    rw [cc, c2 k hkl, shr8]
    have ek : (0 + 256 * k) / 256 = k := by omega
    rw [ek, f256 k (by omega)]
    have hh := hR.h256 k hk
    have hmono := holes_before_mono G' (show 65536 * (k / 256) ≤ 256 * k by omega)
    have h16 : (2 : Nat) ^ 16 = 65536 := by norm_num
    rw [h16]
    omega
  · intro k hk
    have hkl : k < w3.length := by rw [n3]; omega
    obtain ⟨cl, cc⟩ := c_array_cell 8 ((gr.v + 255) / 256) w3 k hkl (by rw [n3]; omega)
    refine ⟨by show k < (c_array 8 _ w3).length; rw [cl]; omega, ?_⟩
    show cell (c_array 8 _ w3) k + _ = _
    rw [cc, c3 k hkl, shr8]
    have ek : (64 + 256 * k) / 256 = k := by omega
    rw [ek, f256a k (by omega)]
    have hh := hR.h256_64 k hk
    have hmono := holes_before_mono G' (show 256 * k ≤ 256 * k + 64 by omega)
    have h8 : (2 : Nat) ^ 8 = 256 := by norm_num
    rw [h8]
    omega
  · intro k hk
    have hkl : k < w4.length := by rw [n4]; omega
    obtain ⟨cl, cc⟩ := c_array_cell 8 ((gr.v + 255) / 256) w4 k hkl (by rw [n4]; omega)
    refine ⟨by show k < (c_array 8 _ w4).length; rw [cl]; omega, ?_⟩
    show cell (c_array 8 _ w4) k + _ = _
    rw [cc, c4 k hkl, shr8]
    have ek : (128 + 256 * k) / 256 = k := by omega
    rw [ek, f256b k (by omega)]
    have hh := hR.h256_128 k hk
    have hmono := holes_before_mono G' (show 256 * k ≤ 256 * k + 128 by omega)
    have h8 : (2 : Nat) ^ 8 = 256 := by norm_num
    rw [h8]
    omega
  · intro k hk
    have hkl : k < w5.length := by rw [n5]; omega
    obtain ⟨cl, cc⟩ := c_array_cell 8 ((gr.v + 255) / 256) w5 k hkl (by rw [n5]; omega)
    refine ⟨by show k < (c_array 8 _ w5).length; rw [cl]; omega, ?_⟩
    show cell (c_array 8 _ w5) k + _ = _
    rw [cc, c5 k hkl, shr8]
    have ek : (192 + 256 * k) / 256 = k := by omega
    rw [ek, f256c k (by omega)]
    have hh := hR.h256_192 k hk
    have hmono := holes_before_mono G' (show 256 * k ≤ 256 * k + 192 by omega)
    have h8 : (2 : Nat) ^ 8 = 256 := by norm_num
    rw [h8]
    omega

theorem shr5 (n : Nat) : n >>> 5 = n / 32 := by
  rw [Nat.shiftRight_eq_div_pow]

theorem and_seven (x : Nat) : x &&& 7 = x % 8 :=
  Nat.and_pow_two_sub_one_eq_mod x 3

set_option maxHeartbeats 4000000 in
/-- The 64-vertex boundary whose summary the emitted lookup uses for `idx`: the start of
the group of `idx` in the lower half of the group, the start of the next group in the upper
half. -/
theorem emitted_summary_spec (v : Nat) (G : List Nat) (T : tables) (hT : lookup_ready v G T)
    (hv : v + 65535 < 4294967296) (idx : Nat) (hidx : idx < v)
    (hcond : idx % 64 < 32 ∨ 64 * (idx / 64) + 64 < v) :
    emitted_summary T idx = Except.ok (sub32 idx (holes_before G
      (if idx % 64 < 32 then 64 * (idx / 64) else 64 * (idx / 64) + 64))) := by
  have hle : ∀ n, holes_before G n ≤ n := holes_before_le G
  unfold emitted_summary
  rw [shr5, and_seven, shr16, shr8]
  dsimp only
  have hk8 : 256 * (idx / 256) < v := by omega
  have hk16 : 65536 * (idx / 65536) < v := by omega
  obtain ⟨la, ha⟩ := hT.h64k (idx / 65536) hk16
  obtain ⟨lb, hb⟩ := hT.h256 (idx / 256) hk8
  have e0 : 65536 * (idx / 256 / 256) = 65536 * (idx / 65536) := by omega
  rw [e0] at hb
  have hm1 := holes_before_mono G (show 65536 * (idx / 65536) ≤ 256 * (idx / 256) by omega)
  rcases Nat.lt_or_ge (idx % 256) 32 with c0 | c0
  · -- case 0
    have hc : idx / 32 % 8 = 0 := by omega
    have hlow : idx % 64 < 32 := by omega
    have eB : 64 * (idx / 64) = 256 * (idx / 256) := by omega
    rw [if_pos hc, rd_ok la, bind_ok, rd_ok lb, bind_ok, if_pos hlow, eB, ha, pure_eq_ok]
    congr 1
    have := hle (256 * (idx / 256))
    unfold sub32
    omega
  · have hc0 : ¬ idx / 32 % 8 = 0 := by omega
    rw [if_neg hc0]
    rcases Nat.lt_or_ge (idx % 256) 96 with c1 | c1
    · -- cases 1, 2
      have hc : idx / 32 % 8 = 1 ∨ idx / 32 % 8 = 2 := by omega
      have hq : 256 * (idx / 256) + 64 < v := by omega
      obtain ⟨ld, hd⟩ := hT.h256_64 (idx / 256) hq
      have eB : (if idx % 64 < 32 then 64 * (idx / 64) else 64 * (idx / 64) + 64)
          = 256 * (idx / 256) + 64 := by
        split_ifs <;> omega
      rw [if_pos hc, rd_ok la, bind_ok, rd_ok lb, bind_ok, rd_ok ld, bind_ok, eB, ha,
        pure_eq_ok]
      congr 1
      have := hle (256 * (idx / 256) + 64)
      have hm2 := holes_before_mono G (show 256 * (idx / 256) ≤ 256 * (idx / 256) + 64 by omega)
      unfold sub32
      omega
    · have hc1 : ¬ (idx / 32 % 8 = 1 ∨ idx / 32 % 8 = 2) := by omega
      rw [if_neg hc1]
      rcases Nat.lt_or_ge (idx % 256) 160 with c2 | c2
      · -- cases 3, 4
        have hc : idx / 32 % 8 = 3 ∨ idx / 32 % 8 = 4 := by omega
        have hq : 256 * (idx / 256) + 128 < v := by omega
        obtain ⟨ld, hd⟩ := hT.h256_128 (idx / 256) hq
        have eB : (if idx % 64 < 32 then 64 * (idx / 64) else 64 * (idx / 64) + 64)
            = 256 * (idx / 256) + 128 := by
          split_ifs <;> omega
        rw [if_pos hc, rd_ok la, bind_ok, rd_ok lb, bind_ok, rd_ok ld, bind_ok, eB, ha,
          pure_eq_ok]
        congr 1
        have := hle (256 * (idx / 256) + 128)
        have hm2 := holes_before_mono G
          (show 256 * (idx / 256) ≤ 256 * (idx / 256) + 128 by omega)
        unfold sub32
        omega
      · have hc2 : ¬ (idx / 32 % 8 = 3 ∨ idx / 32 % 8 = 4) := by omega
        rw [if_neg hc2]
        rcases Nat.lt_or_ge (idx % 256) 224 with c3 | c3
        · -- cases 5, 6
          have hc : idx / 32 % 8 = 5 ∨ idx / 32 % 8 = 6 := by omega
          have hq : 256 * (idx / 256) + 192 < v := by omega
          obtain ⟨ld, hd⟩ := hT.h256_192 (idx / 256) hq
          have eB : (if idx % 64 < 32 then 64 * (idx / 64) else 64 * (idx / 64) + 64)
              = 256 * (idx / 256) + 192 := by
            split_ifs <;> omega
          rw [if_pos hc, rd_ok la, bind_ok, rd_ok lb, bind_ok, rd_ok ld, bind_ok, eB, ha,
            pure_eq_ok]
          congr 1
          have := hle (256 * (idx / 256) + 192)
          have hm2 := holes_before_mono G
            (show 256 * (idx / 256) ≤ 256 * (idx / 256) + 192 by omega)
          unfold sub32
          omega
        · -- case 7
          have hc3 : ¬ (idx / 32 % 8 = 5 ∨ idx / 32 % 8 = 6) := by omega
          have hup : ¬ idx % 64 < 32 := by omega
          have hB : 64 * (idx / 64) + 64 < v := by
            rcases hcond with h | h
            · exact absurd h hup
            · exact h
          have eB : 64 * (idx / 64) + 64 = 256 * (idx / 256 + 1) := by omega
          have ea : add32 idx 32 = idx + 32 := by unfold add32; omega
          have e8 : (idx + 32) / 256 = idx / 256 + 1 := by omega
          have hq8 : 256 * (idx / 256 + 1) < v := by omega
          have hq16 : 65536 * ((idx + 32) / 65536) < v := by omega
          obtain ⟨la2, ha2⟩ := hT.h64k ((idx + 32) / 65536) hq16
          obtain ⟨lb2, hb2⟩ := hT.h256 (idx / 256 + 1) hq8
          have e16 : 65536 * ((idx / 256 + 1) / 256) = 65536 * ((idx + 32) / 65536) := by omega
          rw [e16] at hb2
          rw [if_neg hc3, ea, shr16, shr8, e8, rd_ok la2, bind_ok, rd_ok lb2, bind_ok,
            if_neg hup, eB, ha2, pure_eq_ok]
          congr 1
          have := hle (256 * (idx / 256 + 1))
          have hm2 := holes_before_mono G
            (show 65536 * ((idx + 32) / 65536) ≤ 256 * (idx / 256 + 1) by omega)
          unfold sub32
          omega

theorem holes_before_labelled (G : List Nat) (x : Nat) (h : cell G x ≠ 3) :
    holes_before G (x + 1) = holes_before G x := by
  simp only [holes_before]
  rw [if_neg h]
  rfl

theorem rank_sub_one (idx hB hI pc : Nat) (h1 : hB + pc = hI) (h2 : hI ≤ idx)
    (h3 : idx < 4294967296) : sub32 (sub32 idx hB) pc = idx - hI := by
  unfold sub32
  omega

theorem rank_sub_two (idx hB hM hI p1 p2 : Nat) (h1 : hB + p1 = hM) (h2 : hM + p2 = hI)
    (h3 : hI ≤ idx) (h4 : idx < 4294967296) :
    sub32 (sub32 (sub32 idx hB) p1) p2 = idx - hI := by
  unfold sub32
  omega

theorem rank_add_one (idx hB hI pc : Nat) (h1 : hI + pc = hB) (h2 : hI ≤ idx)
    (h3 : idx < 4294967296) (h4 : hB < 4294967296) :
    add32 (sub32 idx hB) pc = idx - hI := by
  unfold sub32 add32
  omega

theorem rank_add_two (idx hB hM hI p1 p2 : Nat) (h1 : hM + p1 = hB) (h2 : hI + p2 = hM)
    (h3 : hI ≤ idx) (h4 : idx < 4294967296) (h5 : hB < 4294967296) :
    add32 (add32 (sub32 idx hB) p1) p2 = idx - hI := by
  unfold sub32 add32
  omega

set_option maxHeartbeats 4000000 in
/-- The second switch of the emitted lookup: from the summary of the boundary chosen by
the first switch it reaches the rank of a labelled vertex. -/
theorem emitted_popcount_spec (v : Nat) (G : List Nat) (T : tables) (hT : lookup_ready v G T)
    (hv : v + 65535 < 4294967296) (idx : Nat) (hidx : idx < v) (hlab : cell G idx ≠ 3)
    (hcond : idx % 64 < 32 ∨ 64 * (idx / 64) + 64 < v) :
    emitted_popcount T idx (sub32 idx (holes_before G
        (if idx % 64 < 32 then 64 * (idx / 64) else 64 * (idx / 64) + 64)))
      = Except.ok (idx - holes_before G idx) := by
  have hle : ∀ n, holes_before G n ≤ n := holes_before_le G
  have hlen := hT.g_len
  have hm : idx / 16 < T.g.length := by rw [hlen]; omega
  have hw := hT.g_field (idx / 16) hm
  obtain ⟨pfull, pslot⟩ := popcount_word (cell T.g (idx / 16)) G (16 * (idx / 16)) hw
  obtain ⟨plow, phigh⟩ := pslot (idx % 16) (Nat.mod_lt _ (by omega))
  have eidx : 16 * (idx / 16) + (idx % 16 + 1) = idx + 1 := by omega
  rw [eidx, holes_before_labelled G idx hlab] at plow phigh
  have hmono := holes_before_mono G (show 16 * (idx / 16) ≤ idx by omega)
  unfold emitted_popcount
  rw [shr4, and_three, and_fifteen]
  dsimp only
  rcases Nat.lt_or_ge (idx % 64) 16 with c0 | c0
  · -- case 0
    have h1 : ¬ idx / 16 % 4 = 1 := by omega
    have h0 : idx / 16 % 4 = 0 := by omega
    have hlow : idx % 64 < 32 := by omega
    have eB : 64 * (idx / 64) = 16 * (idx / 16) := by omega
    rw [if_neg h1, if_pos h0, rd_ok hm, bind_ok, if_pos hlow, eB, pure_eq_ok]
    exact congrArg Except.ok (rank_sub_one _ _ _ _ plow (hle idx) (by omega))
  · rcases Nat.lt_or_ge (idx % 64) 32 with c1 | c1
    · -- case 1
      have h1 : idx / 16 % 4 = 1 := by omega
      have hlow : idx % 64 < 32 := by omega
      have es : sub32 (idx / 16) 1 = idx / 16 - 1 := by unfold sub32; omega
      have hm1 : idx / 16 - 1 < T.g.length := by omega
      have hw1 := hT.g_field (idx / 16 - 1) hm1
      obtain ⟨pprev, _⟩ := popcount_word (cell T.g (idx / 16 - 1)) G (16 * (idx / 16 - 1)) hw1
      have e16 : 16 * (idx / 16 - 1) + 16 = 16 * (idx / 16) := by omega
      have eB : 64 * (idx / 64) = 16 * (idx / 16 - 1) := by omega
      rw [e16] at pprev
      rw [if_pos h1, es, rd_ok hm1, bind_ok, rd_ok hm, bind_ok, if_pos hlow, eB, pure_eq_ok]
      exact congrArg Except.ok (rank_sub_two _ _ _ _ _ _ pprev plow (hle idx) (by omega))
    · have h1 : ¬ idx / 16 % 4 = 1 := by omega
      have h0 : ¬ idx / 16 % 4 = 0 := by omega
      have hup : ¬ idx % 64 < 32 := by omega
      have hB : 64 * (idx / 64) + 64 < v := by
        rcases hcond with h | h
        · exact absurd h hup
        · exact h
      rw [if_neg h1, if_neg h0]
      rcases Nat.lt_or_ge (idx % 64) 48 with c2 | c2
      · -- case 2
        have h2 : idx / 16 % 4 = 2 := by omega
        have ea : add32 (idx / 16) 1 = idx / 16 + 1 := by unfold add32; omega
        have hm2 : idx / 16 + 1 < T.g.length := by rw [hlen]; omega
        have hw2 := hT.g_field (idx / 16 + 1) hm2
        obtain ⟨pnext, _⟩ := popcount_word (cell T.g (idx / 16 + 1)) G (16 * (idx / 16 + 1))
          hw2
        have e16 : 16 * (idx / 16 + 1) = 16 * (idx / 16) + 16 := by omega
        have eB : 64 * (idx / 64) + 64 = 16 * (idx / 16) + 16 + 16 := by omega
        rw [e16] at pnext
        rw [if_pos h2, ea, rd_ok hm2, bind_ok, rd_ok hm, bind_ok, if_neg hup, eB, pure_eq_ok]
        have hb2 := hle (16 * (idx / 16) + 16 + 16)
        exact congrArg Except.ok (rank_add_two _ _ _ _ _ _ pnext phigh (hle idx) (by omega) (by omega))
      · -- case 3
        have h2 : ¬ idx / 16 % 4 = 2 := by omega
        have eB : 64 * (idx / 64) + 64 = 16 * (idx / 16) + 16 := by omega
        rw [if_neg h2, rd_ok hm, bind_ok, if_neg hup, eB, pure_eq_ok]
        have hb2 := hle (16 * (idx / 16) + 16)
        exact congrArg Except.ok (rank_add_one _ _ _ _ phigh (hle idx) (by omega) (by omega))

theorem or_sixty_three (idx : Nat) : idx ||| 63 = 64 * (idx / 64) + 63 := by
  have e : idx = 2 ^ 6 * (idx / 64) + idx % 64 := by
    norm_num
    omega
  have hr : idx % 64 < 2 ^ 6 := by
    norm_num
    omega
  have e2 : 2 ^ 6 * (idx / 64) + idx % 64 = 2 ^ 6 * (idx / 64) ||| idx % 64 :=
    Nat.mul_add_lt_is_or hr _
  have e3 : idx % 64 ||| 63 = 63 := by
    have h64 : idx % 64 < 64 := by omega
    generalize idx % 64 = r at h64
    interval_cases r <;> rfl
  have e4 : 2 ^ 6 * (idx / 64) + 63 = 2 ^ 6 * (idx / 64) ||| 63 :=
    Nat.mul_add_lt_is_or (by norm_num) _
  calc idx ||| 63 = (2 ^ 6 * (idx / 64) ||| idx % 64) ||| 63 := by rw [← e2, ← e]
    _ = 2 ^ 6 * (idx / 64) ||| 63 := by rw [Nat.or_assoc, e3]
    _ = 64 * (idx / 64) + 63 := by rw [← e4]; norm_num

/-- The emitted rank lookup (lines 259-301) on constants that hold the labels and every
summary entry whose boundary lies below `v`: for a labelled vertex in the lower half of
its group of 64, or whose next boundary lies below `v`, it returns the vertex minus the
number of holes below it. -/
theorem emitted_rank_spec (v : Nat) (G : List Nat) (T : tables) (hT : lookup_ready v G T)
    (hv : v + 65535 < 4294967296) (idx : Nat) (hidx : idx < v) (hlab : cell G idx ≠ 3)
    (hcond : idx % 64 < 32 ∨ (idx ||| 63) + 1 < v) :
    emitted_rank T idx = Except.ok (idx - holes_before G idx) := by
  have hc : idx % 64 < 32 ∨ 64 * (idx / 64) + 64 < v := by
    rcases hcond with h | h
    · exact Or.inl h
    · rw [or_sixty_three] at h
      exact Or.inr (by omega)
  unfold emitted_rank
  rw [emitted_summary_spec v G T hT hv idx hidx hc, bind_ok]
  exact emitted_popcount_spec v G T hT hv idx hidx hlab hc

/-- Claim C23 (rank lookup away from the tail).  For every valid graph with `v ≥ 10`, in
the state after the main pass of lines 86-141 and in every final state of `assign_nodes`,
`print_hash` writes constants `T` that hold the labels and, for every summary boundary
below `v` (the entries the main pass writes), the hole count of its level inside the
emitted table.  For the vertex `idx` chosen in any iteration `p` of the labeling loop
that lies in the lower half of its group of 64 or has `(idx | 63) + 1 < v`, the emitted
lookup returns `idx` minus the number of holes below `idx`, without reading outside the
emitted tables, and it does so on all constants that agree with `T` in the labels and in
those entries: no other entry is read. -/
theorem rank_lookup_away_from_tail (gr : graph3) (hv : valid_graph gr) (h10 : 10 ≤ gr.v) :
    ∃ s2 h, assign_main (bdz_alloc gr) = Except.ok (s2, h) ∧
      (gr.v % 256 ≠ 0 → ∃ s, assign_nodes (bdz_alloc gr) = Except.ok s) ∧
      ∀ s, (s = s2 ∨ assign_nodes (bdz_alloc gr) = Except.ok s) →
        ∃ T, print_tables s = Except.ok T ∧ lookup_ready gr.v s.g T ∧
          ∀ p, p < gr.e →
            (fresh_choice gr p).2 < gr.v ∧
            cell s.visited (fresh_choice gr p).2 = 2 + cell gr.output_order p ∧
            cell s.g (fresh_choice gr p).2 < 3 ∧
            (((fresh_choice gr p).2 % 64 < 32 ∨ ((fresh_choice gr p).2 ||| 63) + 1 < gr.v) →
              ∀ T2, lookup_ready gr.v s.g T2 →
                emitted_rank T2 (fresh_choice gr p).2 = Except.ok
                  ((fresh_choice gr p).2 - holes_before s.g (fresh_choice gr p).2)) := by
  obtain ⟨vis, G, s2, h, hI, hm, hfin⟩ := print_tables_ready hv h10
  refine ⟨s2, h, hm, assign_nodes_ok hv, ?_⟩
  intro s hs
  obtain ⟨hvis, hg, T, hT, _, hready⟩ := hfin s hs
  rw [hvis, hg]
  refine ⟨T, hT, hready, ?_⟩
  intro p hp
  have hlt := fresh_choice_lt hv hp
  have hw := hI.win_vis p hp
  have hl := hI.g_label _ hlt (by omega)
  refine ⟨hlt, hw, hl, ?_⟩
  intro hcond T2 hT2
  exact emitted_rank_spec gr.v G T2 hT2 hv.v_fits _ hlt (by omega) hcond

theorem rank_lookup_away_from_tail_witness :
    (valid_graph sample_graph ∧ 10 ≤ sample_graph.v) ∧
    ∃ s2 h, assign_main (bdz_alloc sample_graph) = Except.ok (s2, h) ∧
      (sample_graph.v % 256 ≠ 0 → ∃ s, assign_nodes (bdz_alloc sample_graph) = Except.ok s) ∧
      ∀ s, (s = s2 ∨ assign_nodes (bdz_alloc sample_graph) = Except.ok s) →
        ∃ T, print_tables s = Except.ok T ∧ lookup_ready sample_graph.v s.g T ∧
          ∀ p, p < sample_graph.e →
            (fresh_choice sample_graph p).2 < sample_graph.v ∧
            cell s.visited (fresh_choice sample_graph p).2
              = 2 + cell sample_graph.output_order p ∧
            cell s.g (fresh_choice sample_graph p).2 < 3 ∧
            (((fresh_choice sample_graph p).2 % 64 < 32 ∨
                ((fresh_choice sample_graph p).2 ||| 63) + 1 < sample_graph.v) →
              ∀ T2, lookup_ready sample_graph.v s.g T2 →
                emitted_rank T2 (fresh_choice sample_graph p).2 = Except.ok
                  ((fresh_choice sample_graph p).2
                    - holes_before s.g (fresh_choice sample_graph p).2)) :=
  ⟨⟨sample_graph_valid, by decide⟩,
    rank_lookup_away_from_tail sample_graph sample_graph_valid (by decide)⟩

end Bdz

namespace Curses

theorem wrap_eq {x : Int} (h : int_range x) : wrap x = x := by
  unfold int_range at h
  unfold wrap
  omega

theorem swflags_geometry (scr : screen) (w : WINDOW) :
    (__swflags scr w).begy = w.begy ∧ (__swflags scr w).begx = w.begx ∧
    (__swflags scr w).maxy = w.maxy ∧ (__swflags scr w).maxx = w.maxx ∧
    (__swflags scr w).lspace = w.lspace := by
  unfold __swflags
  dsimp only
  split_ifs <;> exact ⟨rfl, rfl, rfl, rfl, rfl⟩

/-- A call of `__makenew` for a subwindow either returns `NULL` and leaves the heap as it
was, or appends one window with the geometry asked for; it does the latter when the three
allocations succeed. -/
theorem makenew_sub (scr : screen) (a : allocator) (h : heap) (nl nc by_ bx : Int) :
    (__makenew scr a h nl nc by_ bx true = (none, h) ∨
      ∃ w, __makenew scr a h nl nc by_ bx true =
          (some h.windows.length, { windows := h.windows ++ [w], winlist := h.winlist }) ∧
        w.begy = by_ ∧ w.begx = bx ∧ w.maxy = nl ∧ w.maxx = nc) ∧
    (a.win ≠ none → a.lines = true → a.lspace ≠ none →
      __makenew scr a h nl nc by_ bx true ≠ (none, h)) := by
  unfold __makenew
  rcases hw : a.win with _ | fresh
  · exact ⟨Or.inl rfl, fun h1 => absurd rfl h1⟩
  · rcases hl : a.lines with _ | _
    · exact ⟨Or.inl rfl, fun _ h2 => absurd h2 (by simp)⟩
    · rcases hs : a.lspace with _ | fl
      · exact ⟨Or.inl rfl, fun _ _ h3 => absurd rfl h3⟩
      · dsimp only
        simp only [Bool.not_true, Bool.false_eq_true, if_false]
        obtain ⟨g1, g2, g3, g4, _⟩ := swflags_geometry scr
          { fresh with lspace := List.replicate nl.toNat fl, cury := 0, curx := 0, maxy := nl,
                       maxx := nc, begy := by_, begx := bx, flags := 0, wattr := 0,
                       bchar := 32, battr := 0 }
        refine ⟨Or.inr ⟨_, rfl, g1, g2, g3, g4⟩, fun _ _ _ hne => ?_⟩
        have := congrArg Prod.fst hne
        simp at this

theorem set_subwin_geometry (o w : WINDOW) :
    (__set_subwin o (clear_line_flags w)).begy = w.begy ∧
    (__set_subwin o (clear_line_flags w)).begx = w.begx ∧
    (__set_subwin o (clear_line_flags w)).maxy = w.maxy ∧
    (__set_subwin o (clear_line_flags w)).maxx = w.maxx ∧
    (__set_subwin o (clear_line_flags w)).orig = w.orig :=
  ⟨rfl, rfl, rfl, rfl, rfl⟩

/-- The containment check of `subwin` on sums that fit `int`. -/
theorem subwin_check (o : WINDOW) (nl nc by_ bx : Int)
    (h1 : int_range (by_ + nl)) (h2 : int_range (o.maxy + o.begy))
    (h3 : int_range (bx + nc)) (h4 : int_range (o.maxx + o.begx)) :
    (by_ < o.begy ∨ bx < o.begx ∨ wrap (by_ + nl) > wrap (o.maxy + o.begy)
        ∨ wrap (bx + nc) > wrap (o.maxx + o.begx)) ↔
    (by_ < o.begy ∨ bx < o.begx ∨ by_ + nl > o.begy + o.maxy ∨ bx + nc > o.begx + o.maxx) := by
  rw [wrap_eq h1, wrap_eq h2, wrap_eq h3, wrap_eq h4]
  constructor <;> rintro (h | h | h | h)
  · exact Or.inl h
  · exact Or.inr (Or.inl h)
  · exact Or.inr (Or.inr (Or.inl (by omega)))
  · exact Or.inr (Or.inr (Or.inr (by omega)))
  · exact Or.inl h
  · exact Or.inr (Or.inl h)
  · exact Or.inr (Or.inr (Or.inl (by omega)))
  · exact Or.inr (Or.inr (Or.inr (by omega)))

/-- The run of `subwin` on a valid `orig` whose check passes, in terms of the call of
`__makenew`. -/
theorem subwin_passed (scr : screen) (a : allocator) (h : heap) (orig : Nat) (o : WINDOW)
    (nl nc by_ bx : Int) (ho : h.windows[orig]? = some o)
    (hc : ¬ (by_ < o.begy ∨ bx < o.begx ∨ wrap (by_ + nl) > wrap (o.maxy + o.begy)
        ∨ wrap (bx + nc) > wrap (o.maxx + o.begx))) :
    subwin scr a h orig nl nc by_ bx =
      match __makenew scr a h (if nl = 0 then wrap (wrap (o.maxy + o.begy) - by_) else nl)
          (if nc = 0 then wrap (wrap (o.maxx + o.begx) - bx) else nc) by_ bx true with
      | (none, h1) => (none, h1)
      | (some p, h1) =>
        (some p,
          { h1 with
            windows := (h1.windows.set orig { o with nextp := some p }).set p
              (__set_subwin { o with nextp := some p } (clear_line_flags
                { h1.windows.getD p blank_window with nextp := o.nextp, orig := some orig })) })
    := by
  unfold subwin
  rw [ho]
  dsimp only
  rw [if_neg hc]

/-- Claim C15 (subwin containment).  For a valid `orig` and arguments whose four sums of
the check fit `int`: `subwin` returns `NULL` and leaves the heap as it was (no window
created, `orig` not modified) whenever `by < orig.begy`, `bx < orig.begx`,
`by + nl > orig.begy + orig.maxy` or `bx + nc > orig.begx + orig.maxx`, and whenever it
returns `NULL` at all; every window it returns is a new window with parent `orig` that
lies inside the original, whose geometry is unchanged: `orig.begy ≤ begy`,
`begy + maxy ≤ orig.begy + orig.maxy`, `orig.begx ≤ begx`,
`begx + maxx ≤ orig.begx + orig.maxx`, with equality at the bottom or right edge when `nl`
or `nc` is 0; and it does return a window when the check passes and the three
allocations succeed. -/
theorem subwin_containment (scr : screen) (a : allocator) (h : heap) (orig : Nat) (o : WINDOW)
    (nl nc by_ bx : Int) (ho : h.windows[orig]? = some o)
    (hmy : int_range o.maxy) (hmx : int_range o.maxx)
    (h1 : int_range (by_ + nl)) (h2 : int_range (o.maxy + o.begy))
    (h3 : int_range (bx + nc)) (h4 : int_range (o.maxx + o.begx)) :
    ((by_ < o.begy ∨ bx < o.begx ∨ by_ + nl > o.begy + o.maxy ∨ bx + nc > o.begx + o.maxx) →
      subwin scr a h orig nl nc by_ bx = (none, h)) ∧
    (∀ h1, subwin scr a h orig nl nc by_ bx = (none, h1) → h1 = h) ∧
    (∀ p h1, subwin scr a h orig nl nc by_ bx = (some p, h1) →
      p = h.windows.length ∧ h1.windows.length = h.windows.length + 1 ∧
      ∃ w o1, h1.windows[p]? = some w ∧ h1.windows[orig]? = some o1 ∧
        o1.begy = o.begy ∧ o1.begx = o.begx ∧ o1.maxy = o.maxy ∧ o1.maxx = o.maxx ∧
        w.orig = some orig ∧ w.begy = by_ ∧ w.begx = bx ∧
        (nl ≠ 0 → w.maxy = nl) ∧ (nc ≠ 0 → w.maxx = nc) ∧
        (nl = 0 → w.begy + w.maxy = o.begy + o.maxy) ∧
        (nc = 0 → w.begx + w.maxx = o.begx + o.maxx) ∧
        o.begy ≤ w.begy ∧ w.begy + w.maxy ≤ o.begy + o.maxy ∧
        o.begx ≤ w.begx ∧ w.begx + w.maxx ≤ o.begx + o.maxx) ∧
    (¬ (by_ < o.begy ∨ bx < o.begx ∨ by_ + nl > o.begy + o.maxy ∨ bx + nc > o.begx + o.maxx) →
      a.win ≠ none → a.lines = true → a.lspace ≠ none →
      ∃ p h1, subwin scr a h orig nl nc by_ bx = (some p, h1)) := by
  have hchk := subwin_check o nl nc by_ bx h1 h2 h3 h4
  have hrej : (by_ < o.begy ∨ bx < o.begx ∨ by_ + nl > o.begy + o.maxy
      ∨ bx + nc > o.begx + o.maxx) → subwin scr a h orig nl nc by_ bx = (none, h) := by
    intro hc
    unfold subwin
    rw [ho]
    dsimp only
    rw [if_pos (hchk.2 hc)]
  have hol : orig < h.windows.length := by
    by_contra hge
    rw [List.getElem?_eq_none (by omega)] at ho
    cases ho
  by_cases hc : (by_ < o.begy ∨ bx < o.begx ∨ by_ + nl > o.begy + o.maxy
      ∨ bx + nc > o.begx + o.maxx)
  · have hr := hrej hc
    refine ⟨hrej, ?_, ?_, fun hn => absurd hc hn⟩
    · intro h1 hs
      rw [hr] at hs
      exact (Prod.mk.inj hs).2.symm
    · intro p h1 hs
      rw [hr] at hs
      cases hs
  · have hrun := subwin_passed scr a h orig o nl nc by_ bx ho (fun hw => hc (hchk.1 hw))
    obtain ⟨nl1, hnl1⟩ : ∃ nl1, nl1 = if nl = 0 then wrap (wrap (o.maxy + o.begy) - by_)
        else nl := ⟨_, rfl⟩
    obtain ⟨nc1, hnc1⟩ : ∃ nc1, nc1 = if nc = 0 then wrap (wrap (o.maxx + o.begx) - bx)
        else nc := ⟨_, rfl⟩
    rw [← hnl1, ← hnc1] at hrun
    have hby : ¬ by_ < o.begy := fun hx => hc (Or.inl hx)
    have hbx : ¬ bx < o.begx := fun hx => hc (Or.inr (Or.inl hx))
    have hyy : ¬ by_ + nl > o.begy + o.maxy := fun hx => hc (Or.inr (Or.inr (Or.inl hx)))
    have hxx : ¬ bx + nc > o.begx + o.maxx := fun hx => hc (Or.inr (Or.inr (Or.inr hx)))
    have hnl0 : nl = 0 → nl1 = o.maxy + o.begy - by_ := by
      intro h0
      rw [hnl1, if_pos h0, wrap_eq h2]
      apply wrap_eq
      unfold int_range at *
      omega
    have hnc0 : nc = 0 → nc1 = o.maxx + o.begx - bx := by
      intro h0
      rw [hnc1, if_pos h0, wrap_eq h4]
      apply wrap_eq
      unfold int_range at *
      omega
    have hnl : nl ≠ 0 → nl1 = nl := fun hne => by rw [hnl1, if_neg hne]
    have hnc : nc ≠ 0 → nc1 = nc := fun hne => by rw [hnc1, if_neg hne]
    obtain ⟨hmk, hmk2⟩ := makenew_sub scr a h nl1 nc1 by_ bx
    refine ⟨hrej, ?_, ?_, ?_⟩
    · intro hh hs
      rcases hmk with hm | ⟨w, hm, _⟩
      · rw [hrun, hm] at hs
        exact (Prod.mk.inj hs).2.symm
      · rw [hrun, hm] at hs
        cases hs
    · intro p hh hs
      rcases hmk with hm | ⟨w, hm, g1, g2, g3, g4⟩
      · rw [hrun, hm] at hs
        cases hs
      · rw [hrun, hm] at hs
        dsimp only at hs
        obtain ⟨hp, hheap⟩ := Prod.mk.inj hs
        have hp2 : p = h.windows.length := (Option.some.inj hp).symm
        subst hp2
        have hget : (h.windows ++ [w]).getD h.windows.length blank_window = w := by
          simp [List.getD]
        rw [hget] at hheap
        subst hheap
        refine ⟨rfl, by simp, __set_subwin { o with nextp := some h.windows.length }
            (clear_line_flags { w with nextp := o.nextp, orig := some orig }),
          { o with nextp := some h.windows.length }, ?_, ?_, rfl, rfl, rfl, rfl, ?_⟩
        · dsimp only
          rw [List.getElem?_set_self (by simp)]
        · dsimp only
          rw [List.getElem?_set_ne (by omega), List.getElem?_set_self (by simp; omega)]
        · obtain ⟨s1, s2, s3, s4, s5⟩ := set_subwin_geometry
            { o with nextp := some h.windows.length }
            { w with nextp := o.nextp, orig := some orig }
          rw [s1, s2, s3, s4, s5]
          dsimp only
          rw [g1, g2, g3, g4]
          refine ⟨rfl, rfl, rfl, hnl, hnc, ?_, ?_, by omega, ?_, by omega, ?_⟩
          · intro h0
            rw [hnl0 h0]
            omega
          · intro h0
            rw [hnc0 h0]
            omega
          · by_cases h0 : nl = 0
            · rw [hnl0 h0]
              omega
            · rw [hnl h0]
              omega
          · by_cases h0 : nc = 0
            · rw [hnc0 h0]
              omega
            · rw [hnc h0]
              omega
    · intro _ a1 a2 a3
      rcases hmk with hm | ⟨w, hm, _⟩
      · exact absurd hm (hmk2 a1 a2 a3)
      · rw [hrun, hm]
        exact ⟨_, _, rfl⟩

theorem subwin_containment_witness :
    (sample_heap.windows[0]? = some sample_window ∧
      int_range sample_window.maxy ∧ int_range sample_window.maxx ∧
      int_range (5 + 0) ∧ int_range (sample_window.maxy + sample_window.begy) ∧
      int_range (70 + 10) ∧ int_range (sample_window.maxx + sample_window.begx)) ∧
    ∃ p h1, subwin sample_screen sample_allocator sample_heap 0 0 10 5 70 = (some p, h1) :=
  ⟨⟨rfl, by decide, by decide, by decide, by decide, by decide, by decide⟩,
    (subwin_containment sample_screen sample_allocator sample_heap 0 sample_window 0 10 5 70
      rfl (by decide) (by decide) (by decide) (by decide) (by decide) (by decide)).2.2.2
      (by decide) (by decide) rfl (by decide)⟩

theorem and_mask_ne_zero (x j : Nat) : x &&& 2 ^ j ≠ 0 ↔ x.testBit j = true := by
  rw [Nat.and_two_pow]
  have hp : 0 < 2 ^ j := Nat.pow_pos (by decide)
  cases h : x.testBit j
  · simp
  · simp

theorem clear_bit (x e f s l i : Nat) (he32 : e < 32) (hf32 : f < 32) (hs32 : s < 32)
    (hl32 : l < 32) (hx : x < 4294967296) :
    (clear_bits x (2 ^ e ||| 2 ^ f ||| 2 ^ s ||| 2 ^ l)).testBit i =
      (x.testBit i && !(decide (e = i) || decide (f = i) || decide (s = i)
        || decide (l = i))) := by
  have h32 : (2 : Nat) ^ 32 = 4294967296 := by norm_num
  have hU : 2 ^ e ||| 2 ^ f ||| 2 ^ s ||| 2 ^ l < 2 ^ 32 := by
    have p : ∀ k, k < 32 → 2 ^ k < 2 ^ 32 := fun k hk => Nat.pow_lt_pow_right (by decide) hk
    exact Nat.or_lt_two_pow (Nat.or_lt_two_pow (Nat.or_lt_two_pow (p e he32) (p f hf32))
      (p s hs32)) (p l hl32)
  have hU2 : 2 ^ e ||| 2 ^ f ||| 2 ^ s ||| 2 ^ l < 4294967296 := by rw [← h32]; exact hU
  unfold clear_bits
  rw [Nat.mod_eq_of_lt hU2]
  have e1 : 4294967295 - (2 ^ e ||| 2 ^ f ||| 2 ^ s ||| 2 ^ l)
      = 2 ^ 32 - ((2 ^ e ||| 2 ^ f ||| 2 ^ s ||| 2 ^ l) + 1) := by omega
  rw [e1, Nat.testBit_and, Nat.testBit_two_pow_sub_succ hU, Nat.testBit_or, Nat.testBit_or,
    Nat.testBit_or, Nat.testBit_two_pow, Nat.testBit_two_pow, Nat.testBit_two_pow,
    Nat.testBit_two_pow]
  by_cases hi : i < 32
  · simp [hi]
  · have : x.testBit i = false :=
      Nat.testBit_lt_two_pow (lt_of_lt_of_le hx (by
        rw [← h32]
        exact Nat.pow_le_pow_right (by decide) (by omega : 32 ≤ i)))
    simp [this]

theorem mask_if_bit (c : Prop) [Decidable c] (e j : Nat) :
    (if c then 2 ^ e else 0).testBit j = decide (c ∧ e = j) := by
  by_cases hc : c
  · simp [hc, Nat.testBit_two_pow]
  · simp [hc]

/-- The flags `__swflags` leaves, in one expression. -/
theorem swflags_flags (scr : screen) (w : WINDOW) :
    (__swflags scr w).flags =
      clear_bits w.flags (scr.ENDLINE ||| scr.FULLWIN ||| scr.SCROLLWIN ||| scr.LEAVEOK)
        ||| (if wrap (w.begx + w.maxx) = scr.COLS then scr.ENDLINE else 0)
        ||| (if wrap (w.begx + w.maxx) = scr.COLS ∧
              (w.begx = 0 ∧ w.maxy = scr.LINES ∧ w.begy = 0) then scr.FULLWIN else 0)
        ||| (if wrap (w.begx + w.maxx) = scr.COLS ∧ wrap (w.begy + w.maxy) = scr.LINES
              then scr.SCROLLWIN else 0) := by
  unfold __swflags
  dsimp only
  by_cases c1 : wrap (w.begx + w.maxx) = scr.COLS
  · by_cases c2 : w.begx = 0 ∧ w.maxy = scr.LINES ∧ w.begy = 0
    · by_cases c3 : wrap (w.begy + w.maxy) = scr.LINES
      · rw [if_pos c1, if_pos c2, if_pos c3, if_pos c1, if_pos ⟨c1, c2⟩, if_pos ⟨c1, c3⟩]
      · rw [if_pos c1, if_pos c2, if_neg c3, if_pos c1, if_pos ⟨c1, c2⟩,
          if_neg (fun h => c3 h.2), Nat.or_zero]
    · by_cases c3 : wrap (w.begy + w.maxy) = scr.LINES
      · rw [if_pos c1, if_neg c2, if_pos c3, if_pos c1, if_neg (fun h => c2 h.2),
          if_pos ⟨c1, c3⟩, Nat.or_zero]
      · rw [if_pos c1, if_neg c2, if_neg c3, if_pos c1, if_neg (fun h => c2 h.2),
          if_neg (fun h => c3 h.2), Nat.or_zero, Nat.or_zero]
  · rw [if_neg c1, if_neg c1, if_neg (fun h => c1 h.1), if_neg (fun h => c1 h.1),
      Nat.or_zero, Nat.or_zero, Nat.or_zero]

/-- Bit `j` of the flags `__swflags` leaves, for single-bit masks at the pairwise
different positions `e`, `f`, `s`, `l` below 32 and flags that fit `unsigned int`. -/
theorem swflags_bit (scr : screen) (w : WINDOW) (e f s l : Nat)
    (he : scr.ENDLINE = 2 ^ e) (hf : scr.FULLWIN = 2 ^ f) (hs : scr.SCROLLWIN = 2 ^ s)
    (hl : scr.LEAVEOK = 2 ^ l) (he32 : e < 32) (hf32 : f < 32) (hs32 : s < 32) (hl32 : l < 32)
    (hef : e ≠ f) (hes : e ≠ s) (hel : e ≠ l) (hfs : f ≠ s) (hfl : f ≠ l) (hsl : s ≠ l)
    (hfit : w.flags < 4294967296) (j : Nat) :
    (__swflags scr w).flags.testBit j =
      if j = e then decide (wrap (w.begx + w.maxx) = scr.COLS)
      else if j = f then
        decide (wrap (w.begx + w.maxx) = scr.COLS ∧
          (w.begx = 0 ∧ w.maxy = scr.LINES ∧ w.begy = 0))
      else if j = s then
        decide (wrap (w.begx + w.maxx) = scr.COLS ∧ wrap (w.begy + w.maxy) = scr.LINES)
      else if j = l then false
      else w.flags.testBit j := by
  rw [swflags_flags, he, hf, hs, hl, Nat.testBit_or, Nat.testBit_or, Nat.testBit_or,
    clear_bit _ e f s l j he32 hf32 hs32 hl32 hfit, mask_if_bit, mask_if_bit, mask_if_bit]
  by_cases h1 : j = e
  · subst h1
    rw [if_pos rfl]
    simp [hef, hes, hel, Ne.symm hef, Ne.symm hes, Ne.symm hel]
  · rw [if_neg h1]
    by_cases h2 : j = f
    · subst h2
      rw [if_pos rfl]
      simp [Ne.symm h1, h1, hfs, hfl, Ne.symm hfs, Ne.symm hfl, hef]
    · rw [if_neg h2]
      by_cases h3 : j = s
      · subst h3
        rw [if_pos rfl]
        simp [Ne.symm h1, Ne.symm h2, h1, h2, hsl, Ne.symm hsl]
      · rw [if_neg h3]
        by_cases h4 : j = l
        · subst h4
          rw [if_pos rfl]
          simp [Ne.symm h1, Ne.symm h2, Ne.symm h3]
        · rw [if_neg h4]
          simp [Ne.symm h1, Ne.symm h2, Ne.symm h3, Ne.symm h4]

theorem swflags_fields (scr : screen) (w : WINDOW) :
    __swflags scr w = { w with flags := (__swflags scr w).flags } := by
  unfold __swflags
  dsimp only
  split_ifs <;> rfl

/-- Claim C25 (`__swflags`).  For masks `__ENDLINE`, `__FULLWIN`, `__SCROLLWIN` and
`__LEAVEOK` that are single bits at pairwise different positions `e`, `f`, `s`, `l` below
32, flags that fit `unsigned int`, and sums `begx + maxx`, `begy + maxy` that fit `int`:
`__swflags` changes no field but `flags`; it leaves every flag bit other than the four
unchanged; it clears `__LEAVEOK`; afterwards `__ENDLINE` is set iff `begx + maxx = COLS`,
`__SCROLLWIN` iff additionally `begy + maxy = LINES`, and `__FULLWIN` iff additionally
`begx = 0`, `begy = 0` and `maxy = LINES`; hence `__FULLWIN` implies `__SCROLLWIN`, which
implies `__ENDLINE`; and applying `__swflags` twice gives the same window as applying it
once. -/
theorem swflags_recomputes (scr : screen) (w : WINDOW) (e f s l : Nat)
    (he : scr.ENDLINE = 2 ^ e) (hf : scr.FULLWIN = 2 ^ f) (hs : scr.SCROLLWIN = 2 ^ s)
    (hl : scr.LEAVEOK = 2 ^ l) (he32 : e < 32) (hf32 : f < 32) (hs32 : s < 32) (hl32 : l < 32)
    (hef : e ≠ f) (hes : e ≠ s) (hel : e ≠ l) (hfs : f ≠ s) (hfl : f ≠ l) (hsl : s ≠ l)
    (hfit : w.flags < 4294967296)
    (hx : int_range (w.begx + w.maxx)) (hy : int_range (w.begy + w.maxy)) :
    __swflags scr w = { w with flags := (__swflags scr w).flags } ∧
    (∀ j, j ≠ e → j ≠ f → j ≠ s → j ≠ l →
      (__swflags scr w).flags.testBit j = w.flags.testBit j) ∧
    (__swflags scr w).flags &&& scr.LEAVEOK = 0 ∧
    ((__swflags scr w).flags &&& scr.ENDLINE ≠ 0 ↔ w.begx + w.maxx = scr.COLS) ∧
    ((__swflags scr w).flags &&& scr.SCROLLWIN ≠ 0 ↔
      (w.begx + w.maxx = scr.COLS ∧ w.begy + w.maxy = scr.LINES)) ∧
    ((__swflags scr w).flags &&& scr.FULLWIN ≠ 0 ↔
      (w.begx + w.maxx = scr.COLS ∧ w.begx = 0 ∧ w.begy = 0 ∧ w.maxy = scr.LINES)) ∧
    ((__swflags scr w).flags &&& scr.FULLWIN ≠ 0 →
      (__swflags scr w).flags &&& scr.SCROLLWIN ≠ 0) ∧
    ((__swflags scr w).flags &&& scr.SCROLLWIN ≠ 0 →
      (__swflags scr w).flags &&& scr.ENDLINE ≠ 0) ∧
    __swflags scr (__swflags scr w) = __swflags scr w := by
  have hbit := swflags_bit scr w e f s l he hf hs hl he32 hf32 hs32 hl32 hef hes hel hfs hfl
    hsl hfit
  rw [wrap_eq hx, wrap_eq hy] at hbit
  have hE : (__swflags scr w).flags &&& scr.ENDLINE ≠ 0 ↔ w.begx + w.maxx = scr.COLS := by
    rw [he, and_mask_ne_zero, hbit e, if_pos rfl, decide_eq_true_iff]
  have hS : (__swflags scr w).flags &&& scr.SCROLLWIN ≠ 0 ↔
      (w.begx + w.maxx = scr.COLS ∧ w.begy + w.maxy = scr.LINES) := by
    rw [hs, and_mask_ne_zero, hbit s, if_neg (Ne.symm hes), if_neg (Ne.symm hfs), if_pos rfl,
      decide_eq_true_iff]
  have hF : (__swflags scr w).flags &&& scr.FULLWIN ≠ 0 ↔
      (w.begx + w.maxx = scr.COLS ∧ w.begx = 0 ∧ w.begy = 0 ∧ w.maxy = scr.LINES) := by
    rw [hf, and_mask_ne_zero, hbit f, if_neg (Ne.symm hef), if_pos rfl, decide_eq_true_iff]
    constructor
    · rintro ⟨a, b, c, d⟩
      exact ⟨a, b, d, c⟩
    · rintro ⟨a, b, c, d⟩
      exact ⟨a, b, d, c⟩
  have hL : (__swflags scr w).flags &&& scr.LEAVEOK = 0 := by
    by_contra hne
    have := (and_mask_ne_zero _ l).1 (by rw [← hl]; exact hne)
    rw [hbit l, if_neg (Ne.symm hel), if_neg (Ne.symm hfl), if_neg (Ne.symm hsl),
      if_pos rfl] at this
    cases this
  have hfit2 : (__swflags scr w).flags < 4294967296 := by
    have h32 : (2 : Nat) ^ 32 = 4294967296 := by norm_num
    rw [← h32]
    apply Nat.lt_pow_two_of_testBit
    intro i hi
    rw [hbit i, if_neg (by omega), if_neg (by omega), if_neg (by omega), if_neg (by omega)]
    exact Nat.testBit_lt_two_pow (lt_of_lt_of_le hfit (by
      rw [← h32]
      exact Nat.pow_le_pow_right (by decide) hi))
  obtain ⟨g1, g2, g3, g4, _⟩ := swflags_geometry scr w
  refine ⟨swflags_fields scr w, ?_, hL, hE, hS, hF, ?_, ?_, ?_⟩
  · intro j h1 h2 h3 h4
    rw [hbit j, if_neg h1, if_neg h2, if_neg h3, if_neg h4]
  · intro h
    obtain ⟨a, b, c, d⟩ := hF.1 h
    refine hS.2 ⟨a, ?_⟩
    rw [c, d]
    simp
  · intro h
    exact hE.2 (hS.1 h).1
  · have hbit2 := swflags_bit scr (__swflags scr w) e f s l he hf hs hl he32 hf32 hs32 hl32
      hef hes hel hfs hfl hsl hfit2
    rw [g1, g2, g3, g4, wrap_eq hx, wrap_eq hy] at hbit2
    have hflags : (__swflags scr (__swflags scr w)).flags = (__swflags scr w).flags := by
      apply Nat.eq_of_testBit_eq
      intro i
      rw [hbit2 i, hbit i]
      by_cases h1 : i = e
      · rw [if_pos h1, if_pos h1]
      · rw [if_neg h1, if_neg h1]
        by_cases h2 : i = f
        · rw [if_pos h2, if_pos h2]
        · rw [if_neg h2, if_neg h2]
          by_cases h3 : i = s
          · rw [if_pos h3, if_pos h3]
          · rw [if_neg h3, if_neg h3]
            by_cases h4 : i = l
            · rw [if_pos h4, if_pos h4]
            · rw [if_neg h4, if_neg h4]
    rw [swflags_fields scr (__swflags scr w), hflags]

theorem swflags_recomputes_witness :
    (sample_screen.ENDLINE = 2 ^ 0 ∧ sample_screen.FULLWIN = 2 ^ 2 ∧
      sample_screen.SCROLLWIN = 2 ^ 4 ∧ sample_screen.LEAVEOK = 2 ^ 8 ∧
      sample_window.flags < 4294967296 ∧
      int_range (sample_window.begx + sample_window.maxx) ∧
      int_range (sample_window.begy + sample_window.maxy)) ∧
    (__swflags sample_screen sample_window).flags &&& sample_screen.FULLWIN ≠ 0 ∧
    __swflags sample_screen (__swflags sample_screen sample_window)
      = __swflags sample_screen sample_window :=
  have h := swflags_recomputes sample_screen sample_window 0 2 4 8 rfl rfl rfl rfl
    (by decide) (by decide) (by decide) (by decide) (by decide) (by decide) (by decide)
    (by decide) (by decide) (by decide) (by decide) (by decide) (by decide)
  ⟨⟨rfl, rfl, rfl, rfl, by decide, by decide, by decide⟩,
    h.2.2.2.2.2.1.2 ⟨rfl, rfl, rfl, rfl⟩, h.2.2.2.2.2.2.2.2⟩

/-- Claim C24 (`wscrl` result and no-op cases).  `wscrl` returns `ERR` exactly when
`flags & __SCROLLOK` is zero and `OK` in every other case; when it returns `ERR`, and when
`lines` is 0, the window is returned as it was, no function is called and nothing is
written; `scroll(win)` is `wscrl(win, 1)`: same result, same window, same effects. -/
theorem wscrl_result (lib : library) (win : WINDOW) (is_curscr : Bool) (lines : Int) :
    ((wscrl lib win is_curscr lines).1 = status.ERR ↔ win.flags &&& lib.SCROLLOK = 0) ∧
    ((wscrl lib win is_curscr lines).1 = status.OK ↔ win.flags &&& lib.SCROLLOK ≠ 0) ∧
    ((wscrl lib win is_curscr lines).1 = status.ERR →
      (wscrl lib win is_curscr lines).2 = (win, [])) ∧
    (lines = 0 → (wscrl lib win is_curscr lines).2 = (win, [])) ∧
    scroll lib win is_curscr = wscrl lib win is_curscr 1 := by
  have hkey : (win.flags &&& lib.SCROLLOK = 0 →
        wscrl lib win is_curscr lines = (status.ERR, win, [])) ∧
      (win.flags &&& lib.SCROLLOK ≠ 0 → (wscrl lib win is_curscr lines).1 = status.OK) ∧
      (win.flags &&& lib.SCROLLOK ≠ 0 → lines = 0 →
        wscrl lib win is_curscr lines = (status.OK, win, [])) := by
    refine ⟨fun h => ?_, fun h => ?_, fun h h0 => ?_⟩
    · unfold wscrl
      rw [if_pos h]
    · unfold wscrl
      rw [if_neg h]
      by_cases h0 : lines = 0
      · rw [if_pos h0]
      · rw [if_neg h0]
        dsimp only
        cases is_curscr <;> rfl
    · unfold wscrl
      rw [if_neg h, if_pos h0]
  obtain ⟨k1, k2, k3⟩ := hkey
  by_cases h : win.flags &&& lib.SCROLLOK = 0
  · have hr := k1 h
    refine ⟨⟨fun _ => h, fun _ => by rw [hr]⟩, ⟨fun h1 => ?_, fun h1 => absurd h h1⟩,
      fun _ => by rw [hr], fun _ => by rw [hr], rfl⟩
    rw [hr] at h1
    cases h1
  · have hr := k2 h
    refine ⟨⟨fun h1 => ?_, fun h1 => absurd h1 h⟩, ⟨fun _ => h, fun _ => hr⟩,
      fun h1 => ?_, fun h0 => by rw [k3 h h0], rfl⟩
    · rw [hr] at h1
      cases h1
    · rw [hr] at h1
      cases h1

theorem wscrl_result_witness :
    (wscrl sample_library sample_window true 0).2 = (sample_window, []) ∧
    scroll sample_library sample_window true = wscrl sample_library sample_window true 1 :=
  ⟨(wscrl_result sample_library sample_window true 0).2.2.2.1 rfl,
    (wscrl_result sample_library sample_window true 1).2.2.2.2⟩

end Curses

namespace Slave

theorem strcmp_self (a : String) : strcmp a a = 0 := by
  unfold strcmp
  rw [if_pos rfl]

theorem strcmp_ne {a b : String} (h : a ≠ b) : ¬ strcmp a b = 0 := by
  unfold strcmp
  rw [if_neg h]
  decide

/-- The loop over `restricted_commands` finds a match exactly when there is one. -/
theorem restricted_loop_iff (func : String) (rs : List String) :
    restricted_loop func rs = true ↔ ∃ r ∈ rs, strcasecmp func r = 0 := by
  induction rs with
  | nil => simp [restricted_loop]
  | cons r rest ih =>
    unfold restricted_loop
    by_cases h : strcasecmp func r = 0
    · rw [if_pos h]
      exact ⟨fun _ => ⟨r, List.mem_cons_self _ _, h⟩, fun _ => rfl⟩
    · rw [if_neg h, ih]
      constructor
      · rintro ⟨x, hx, hx0⟩
        exact ⟨x, List.mem_cons_of_mem _ hx, hx0⟩
      · rintro ⟨x, hx, hx0⟩
        rcases List.mem_cons.1 hx with rfl | hx
        · exact absurd hx0 h
        · exact ⟨x, hx, hx0⟩

/-- The loop over `commands` reports an unknown function when no name matches, and
otherwise acts as on the first matching entry alone. -/
theorem command_loop_first (T : command_table) (func : String) (nargs : Int)
    (args : List String) (d : Int) (l : List String) (i : Nat) :
    (func ∉ l → command_loop T func nargs args d l i
      = (d, [action.report_status unknown_message])) ∧
    (func ∈ l → ∃ k, l[k]? = some func ∧
      command_loop T func nargs args d l i = command_loop T func nargs args d [func] (i + k)) := by
  induction l generalizing i with
  | nil =>
    exact ⟨fun _ => rfl, fun h => absurd h (List.not_mem_nil _)⟩
  | cons name rest ih =>
    by_cases hn : func = name
    · subst hn
      refine ⟨fun h => absurd (List.mem_cons_self _ _) h, fun _ => ⟨0, by simp, ?_⟩⟩
      unfold command_loop
      rw [if_pos (strcmp_self func), if_pos (strcmp_self func)]
      rfl
    · obtain ⟨ih1, ih2⟩ := ih (i + 1)
      have hstep : command_loop T func nargs args d (name :: rest) i
          = command_loop T func nargs args d rest (i + 1) := by
        conv_lhs => unfold command_loop
        rw [if_neg (strcmp_ne hn)]
      constructor
      · intro h
        rw [hstep]
        exact ih1 (fun hm => h (List.mem_cons_of_mem _ hm))
      · intro h
        have hm : func ∈ rest := by
          rcases List.mem_cons.1 h with h1 | h1
          · exact absurd h1 hn
          · exact h1
        obtain ⟨k, hk, hrun⟩ := ih2 hm
        refine ⟨k + 1, by simpa using hk, ?_⟩
        rw [hstep, hrun]
        congr 1
        omega

/-- The call on the matching entry `i`. -/
theorem command_loop_single (T : command_table) (func : String) (nargs : Int)
    (args : List String) (d : Int) (i : Nat) :
    command_loop T func nargs args d [func] i =
      if d = 0 then
        if restricted_loop func T.restricted_commands then
          (if strcasecmp func initscr_name = 0 ∨ strcasecmp func newterm_name = 0 then 1
            else d,
           [action.run i nargs args])
        else (d, [action.report_status need_init_message])
      else (d, [action.run i nargs args]) := by
  unfold command_loop
  rw [if_pos (strcmp_self func)]

/-- Claim C16 (initialisation gate of the test slave).  For every command table, value of
`initdone`, name `func` and arguments, one call of `command_execute` performs exactly one
action, so it runs at most one command function, and the function it runs is that of an
entry named `func`, with the arguments passed through.  A name matching no entry of
`commands` runs nothing, reports "UNKNOWN_FUNCTION" and leaves `initdone`.  While `initdone`
is 0, a known command is run only if the name also matches an entry of
`restricted_commands` case-insensitively (and then it is run); any other known command is
not run, "YOU NEED TO CALL INITSCR/NEWTERM FIRST" is reported and `initdone` stays 0.  With
`initdone` nonzero every known command is run.  `initdone` changes only from 0 to 1, and
only in a call that runs a command whose name is `initscr` or `newterm` up to case; a
nonzero `initdone` is never changed. -/
theorem init_gate (T : command_table) (d : Int) (func : String) (nargs : Int)
    (args : List String) :
    (∃ a, (command_execute T d func nargs args).2 = [a]) ∧
    (∀ i n a, action.run i n a ∈ (command_execute T d func nargs args).2 →
      T.commands[i]? = some func ∧ n = nargs ∧ a = args ∧
      (d = 0 → ∃ r ∈ T.restricted_commands, strcasecmp func r = 0)) ∧
    (func ∉ T.commands →
      command_execute T d func nargs args = (d, [action.report_status unknown_message])) ∧
    (d = 0 → func ∈ T.commands → (¬ ∃ r ∈ T.restricted_commands, strcasecmp func r = 0) →
      command_execute T d func nargs args
        = (0, [action.report_status need_init_message])) ∧
    (d = 0 → func ∈ T.commands → (∃ r ∈ T.restricted_commands, strcasecmp func r = 0) →
      ∃ i, T.commands[i]? = some func ∧
        (command_execute T d func nargs args).2 = [action.run i nargs args]) ∧
    (d ≠ 0 → func ∈ T.commands →
      ∃ i, T.commands[i]? = some func ∧
        command_execute T d func nargs args = (d, [action.run i nargs args])) ∧
    ((command_execute T d func nargs args).1 ≠ d →
      d = 0 ∧ (command_execute T d func nargs args).1 = 1 ∧
      (strcasecmp func initscr_name = 0 ∨ strcasecmp func newterm_name = 0) ∧
      ∃ i, T.commands[i]? = some func ∧
        (command_execute T d func nargs args).2 = [action.run i nargs args]) ∧
    (d ≠ 0 → (command_execute T d func nargs args).1 = d) := by
  obtain ⟨hmiss, hhit⟩ := command_loop_first T func nargs args d T.commands 0
  have hres := restricted_loop_iff func T.restricted_commands
  by_cases hmem : func ∈ T.commands
  · obtain ⟨k, hk, hrun⟩ := hhit hmem
    rw [command_loop_single, Nat.zero_add] at hrun
    have hrun2 : command_execute T d func nargs args = _ := hrun
    by_cases hd : d = 0
    · by_cases hr : restricted_loop func T.restricted_commands = true
      · rw [if_pos hd, if_pos hr] at hrun2
        rw [hrun2]
        refine ⟨⟨_, rfl⟩, ?_, fun h => absurd hmem h, fun _ _ hn => absurd (hres.1 hr) hn,
          fun _ _ _ => ⟨k, hk, rfl⟩, fun h => absurd hd h, ?_, fun h => absurd hd h⟩
        · intro i n a hin
          simp only [List.mem_singleton] at hin
          cases hin
          exact ⟨hk, rfl, rfl, fun _ => hres.1 hr⟩
        · intro hne
          dsimp only at hne ⊢
          by_cases hi : strcasecmp func initscr_name = 0 ∨ strcasecmp func newterm_name = 0
          · rw [if_pos hi]
            exact ⟨hd, rfl, hi, k, hk, rfl⟩
          · rw [if_neg hi] at hne
            exact absurd rfl hne
      · rw [if_pos hd, if_neg hr] at hrun2
        rw [hrun2]
        refine ⟨⟨_, rfl⟩, ?_, fun h => absurd hmem h, fun _ _ _ => by rw [hd],
          fun _ _ he => absurd (hres.2 he) hr, fun h => absurd hd h,
          fun hne => absurd rfl hne, fun _ => rfl⟩
        intro i n a hin
        simp only [List.mem_singleton] at hin
        cases hin
    · rw [if_neg hd] at hrun2
      rw [hrun2]
      refine ⟨⟨_, rfl⟩, ?_, fun h => absurd hmem h, fun h => absurd h hd,
        fun h => absurd h hd, fun _ _ => ⟨k, hk, rfl⟩, fun hne => absurd rfl hne,
        fun _ => rfl⟩
      intro i n a hin
      simp only [List.mem_singleton] at hin
      cases hin
      exact ⟨hk, rfl, rfl, fun h => absurd h hd⟩
  · have hrun2 : command_execute T d func nargs args = _ := hmiss hmem
    rw [hrun2]
    refine ⟨⟨_, rfl⟩, ?_, fun _ => rfl, fun _ h => absurd h hmem, fun _ h => absurd h hmem,
      fun _ h => absurd h hmem, fun hne => absurd rfl hne, fun _ => rfl⟩
    intro i n a hin
    simp only [List.mem_singleton] at hin
    cases hin

theorem init_gate_witness :
    command_execute sample_table 0 "addch" 1 ["x"]
        = (0, [action.report_status need_init_message]) ∧
    (∃ i, sample_table.commands[i]? = some "initscr" ∧
      (command_execute sample_table 0 "initscr" 0 []).2 = [action.run i 0 []]) ∧
    command_execute sample_table 0 "refresh" 0 []
        = (0, [action.report_status unknown_message]) :=
  ⟨(init_gate sample_table 0 "addch" 1 ["x"]).2.2.2.1 rfl (by decide) (by decide),
    (init_gate sample_table 0 "initscr" 0 []).2.2.2.2.1 rfl (by decide) (by decide),
    (init_gate sample_table 0 "refresh" 0 []).2.2.1 (by decide)⟩

end Slave
